import Mathlib

/-!
The nub-lang baseline garbage collector (`src/std/baseline/gc.c`)

A shallow embedding of the mark-and-sweep heap manager and the properties
its specification states about it.

Representation of the heap:

The C program keeps two singly linked lists threaded through the heap.  A
finite, acyclic linked list is represented by the Lean list of its nodes in
link order: the `next` field of a node is the address of the node that
follows it in the list (null for the last one).  Every node carries its own
address, so address comparisons of the source (`block < free_list_head`,
`block_end == block->next`, `block_data == ptr`) are comparisons of the
`addr` fields.

* `sizeof(alloc_block_t) = 24` and `sizeof(free_block_t) = 16` (LP64).
* Addresses and the unsigned `size` fields are natural numbers; the signed
  counters (`bytes_allocated`, `trigger_threshold`, `free_list_size`,
  `mark_count`) are integers.  The product `bytes_allocated * 2` of
  `gc_collect` is reduced to the range of `int64_t` (`wrap_int64`), as the
  compiled multiplication does; for the sums and differences the embedding
  covers the runs in which no 64-bit quantity wraps around.
* The request of `gc_alloc` is a natural number (the specification requires a
  non-negative `payload_size`).
* Payload memory is a function from an address to the machine word read at
  that address; the stack scanned by the collector is the list of the words
  between the current stack pointer and `stack_start`.  The only stores of the
  mark phase are to `mark` fields, which lie in headers, so the words that
  lie inside payloads do not change while marking; a word read past the end
  of a payload is taken as it is when the scan reads it.
* `sys_mmap` is a parameter: the base address it would return.
* A null-pointer dereference is the fault `Fault.null_deref`.
* The recursion of `gc_mark` is bounded by a counter; `gc_mark_stack` starts
  every call with one more than the number of blocks, which is shown to be
  enough (`gc_mark_stack_spec`), so `Fault.out_of_fuel` never occurs.

The second copy of the collector, `src/input/baseline/gc.c`, is the same
program with `uint8_t mark` and `int64_t size` in the headers.  Its embedding
carries the prefix `Input.`: the lists are represented as before, a `size`
field is an integer, a value stored into it is reduced to the range of
`int64_t` (`wrap_int64`: the sums are computed in `unsigned long` and
converted back), and sizes are compared as signed integers.  Pointer
arithmetic and the counters are as in the first copy.

The memory a mark phase reads is the one present when the word is read.  A
word read past the end of a payload overlaps the header that follows it; the
bytes each copy leaves in an allocation header are given by
`store_alloc_header` and `Input.store_alloc_header`.
-/

namespace NubGc

/-- Allocation header `alloc_block_t` located at address `addr`. -/
structure alloc_block_t where
  addr : Nat
  mark : Nat
  size : Nat
deriving DecidableEq

/-- Free header `free_block_t` located at address `addr`. -/
structure free_block_t where
  addr : Nat
  size : Nat
deriving DecidableEq

/-- The global variables of `gc.c`; the two heads are given by the lists of
nodes reachable from them. -/
structure GcState where
  alloc_list : List alloc_block_t
  free_list : List free_block_t
  free_list_size : Int
  mark_count : Int
  bytes_allocated : Int
  trigger_threshold : Int
deriving DecidableEq

/-- Abnormal terminations of the embedded code. -/
inductive Fault where
  | null_deref
  | out_of_fuel
deriving DecidableEq

/-- `#define MINIMUM_THRESHOLD (1024 * 1024 * 8)` -/
def MINIMUM_THRESHOLD : Int := 1024 * 1024 * 8

/-- `#define MINIMUM_BLOCK_SIZE 4096` -/
def MINIMUM_BLOCK_SIZE : Int := 4096

/-- The static initialisers of the globals. -/
def gc_initial : GcState :=
  { alloc_list := [], free_list := [], free_list_size := 0, mark_count := 0,
    bytes_allocated := 0, trigger_threshold := MINIMUM_THRESHOLD }

/-- `static int64_t max(int64_t a, int64_t b)` -/
def max (a b : Int) : Int := if a > b then a else b

/-- `merge(block)`: `block` is followed in the list by the given nodes.  While
the end of `block` is the address of its successor, absorb the successor.
Returns the list from `block` on and the updated `free_list_size`. -/
def merge : free_block_t → List free_block_t → Int → List free_block_t × Int
  | block, [], n => ([block], n)
  | block, nx :: rest, n =>
    if block.addr + block.size + 16 = nx.addr then
      merge { block with size := block.size + (nx.size + 16) } rest (n - 1)
    else
      (block :: nx :: rest, n)

/-- The search loop of `insert_into_free`, standing at `current` whose
successors are the given nodes: advance while `current->next` is non-null and
below `block`, then link `block` after `current` and `merge(current)`. -/
def insert_after (block : free_block_t) :
    free_block_t → List free_block_t → Int → List free_block_t × Int
  | current, [], n => merge current [block] (n + 1)
  | current, nx :: rest, n =>
    if nx.addr < block.addr then
      (current :: (insert_after block nx rest n).1, (insert_after block nx rest n).2)
    else
      merge current (block :: nx :: rest) (n + 1)

/-- `insert_into_free(block)` on the free list `fl` with `free_list_size = n`. -/
def insert_into_free (fl : List free_block_t) (n : Int) (block : free_block_t) :
    List free_block_t × Int :=
  match fl with
  | [] => merge block [] (n + 1)
  | head :: rest =>
    if block.addr < head.addr then merge block (head :: rest) (n + 1)
    else insert_after block head rest n

/-- The loop of `gc_sweep` standing at the given remainder of the allocation
list; the result's `alloc_list` is what remains linked from here on. -/
def gc_sweep_loop : List alloc_block_t → GcState → GcState
  | [], s => { s with alloc_list := [] }
  | current :: next, s =>
    if current.mark = 0 then
      gc_sweep_loop next
        { s with
          bytes_allocated := s.bytes_allocated - ((current.size + 24 : Nat) : Int)
          free_list := (insert_into_free s.free_list s.free_list_size
            { addr := current.addr, size := current.size + 24 - 16 }).1
          free_list_size := (insert_into_free s.free_list s.free_list_size
            { addr := current.addr, size := current.size + 24 - 16 }).2 }
    else
      { gc_sweep_loop next s with
        alloc_list := { current with mark := 0 } :: (gc_sweep_loop next s).alloc_list }

/-- `gc_sweep()` -/
def gc_sweep (s : GcState) : GcState := gc_sweep_loop s.alloc_list s

/-- The list walk of `gc_mark`: the first block whose payload address
`block + 1` equals `ptr`. -/
def find_block : List alloc_block_t → Nat → Option alloc_block_t
  | [], _ => none
  | block :: next, ptr =>
    if block.addr + 24 = ptr then some block else find_block next ptr

/-- The store `block->mark = 1` on the block found by `find_block`. -/
def set_mark : List alloc_block_t → Nat → List alloc_block_t
  | [], _ => []
  | block :: next, ptr =>
    if block.addr + 24 = ptr then { block with mark := 1 } :: next
    else block :: set_mark next ptr

/-- The addresses visited by `while (p < end) { ...; p++; }` over `void**`:
`p`, `p + 8`, ... while below `end`.  The first argument bounds the number of
iterations. -/
def scan_loop : Nat → Nat → Nat → List Nat
  | 0, _, _ => []
  | k + 1, p, e => if p < e then p :: scan_loop k (p + 8) e else []

/-- The word addresses read by the payload scan of a block whose payload
starts at `p` and has `size` bytes. -/
def scan_addrs (p size : Nat) : List Nat := scan_loop size p (p + size)

/-- `gc_mark(ptr)`; the first argument bounds the recursion depth. -/
def gc_mark (mem : Nat → Nat) : Nat → Nat → GcState → Except Fault GcState
  | 0, _, _ => .error .out_of_fuel
  | fuel + 1, ptr, s =>
    if ptr = 0 then .ok s
    else
      match find_block s.alloc_list ptr with
      | none => .ok s
      | some block =>
        if block.mark = 0 then
          (scan_addrs (block.addr + 24) block.size).foldlM
            (fun st p => gc_mark mem fuel (mem p) st)
            { s with mark_count := s.mark_count + 1
                     alloc_list := set_mark s.alloc_list ptr }
        else .ok s

/-- `gc_mark_stack()`: `stack` holds the words between the stack pointer and
`stack_start`.  Each call of `gc_mark` may recurse once per block. -/
def gc_mark_stack (mem : Nat → Nat) (stack : List Nat) (s : GcState) :
    Except Fault GcState :=
  stack.foldlM (fun st w => gc_mark mem (st.alloc_list.length + 1) w st)
    { s with mark_count := 0 }

/-- Value of an integer after conversion to `int64_t` (two's complement). -/
def wrap_int64 (x : Int) : Int :=
  (x + 9223372036854775808) % 18446744073709551616 - 9223372036854775808

/-- The tail of `gc_collect()` after the sweep; the product is an `int64_t`. -/
def update_threshold (s : GcState) : GcState :=
  { s with trigger_threshold := max (wrap_int64 (s.bytes_allocated * 2)) MINIMUM_THRESHOLD
           bytes_allocated := 0 }

/-- `gc_collect()` -/
def gc_collect (mem : Nat → Nat) (stack : List Nat) (s : GcState) :
    Except Fault GcState :=
  match gc_mark_stack mem stack s with
  | .error e => .error e
  | .ok s1 => .ok (update_threshold (gc_sweep s1))

/-- A position in the free list: the nodes before `current` (the last of
them is `prev`, none means `prev == NULL`), `current`, and the nodes after. -/
structure Cursor where
  before : List free_block_t
  current : free_block_t
  after : List free_block_t
deriving DecidableEq

/-- The search loop of `gc_alloc`: the first span with `size >= need`. -/
def find_fit (need : Nat) : List free_block_t → Option Cursor
  | [] => none
  | current :: rest =>
    if current.size ≥ need then some ⟨[], current, rest⟩
    else
      match find_fit need rest with
      | none => none
      | some c => some ⟨current :: c.before, c.current, c.after⟩

/-- The recalculation of `prev` for `current = new_block` (the node at
address `target`): `current == free_list_head`, else walk until
`prev->next == current`.  Walking off the end of the list dereferences the
null pointer. -/
def recalc_prev (target : Nat) : List free_block_t → Except Fault Cursor
  | [] => .error .null_deref
  | b :: rest =>
    if b.addr = target then .ok ⟨[], b, rest⟩
    else
      match recalc_prev target rest with
      | .error e => .error e
      | .ok c => .ok ⟨b :: c.before, c.current, c.after⟩

/-- What `gc_alloc` returns and does: the returned address, the new globals,
and the size passed to `sys_mmap` if it was called. -/
structure AllocResult where
  ptr : Nat
  state : GcState
  mapped : Option Nat
deriving DecidableEq

/-- The part of `gc_alloc` from "Use the block" on; `size` already includes
the allocation header. -/
def use_block (size : Nat) (c : Cursor) (mapped : Option Nat) (s : GcState) : AllocResult :=
  if c.current.size > size then
    { ptr := c.current.addr + c.current.size + 16 - size + 24
      state := { s with
        free_list := c.before ++ { c.current with size := c.current.size - size } :: c.after
        alloc_list := { addr := c.current.addr + c.current.size + 16 - size, mark := 0,
                        size := size - 24 } :: s.alloc_list }
      mapped := mapped }
  else
    { ptr := c.current.addr + 24
      state := { s with
        free_list := c.before ++ c.after
        free_list_size := s.free_list_size - 1
        alloc_list := { addr := c.current.addr, mark := 0, size := size - 24 } :: s.alloc_list }
      mapped := mapped }

/-- The part of `gc_alloc` after the collection check; `size` already
includes the allocation header and `base` is what `sys_mmap` returns. -/
def alloc_from (base : Nat) (size : Nat) (s : GcState) : Except Fault AllocResult :=
  match find_fit size s.free_list with
  | some c => .ok (use_block size c none { s with bytes_allocated := s.bytes_allocated + size })
  | none =>
    match recalc_prev base
        (insert_into_free s.free_list s.free_list_size
          { addr := base, size := (max size MINIMUM_BLOCK_SIZE).toNat - 16 }).1 with
    | .error e => .error e
    | .ok c =>
      .ok (use_block size c (some (max size MINIMUM_BLOCK_SIZE).toNat)
        { s with
          bytes_allocated := s.bytes_allocated + size
          free_list := (insert_into_free s.free_list s.free_list_size
            { addr := base, size := (max size MINIMUM_BLOCK_SIZE).toNat - 16 }).1
          free_list_size := (insert_into_free s.free_list s.free_list_size
            { addr := base, size := (max size MINIMUM_BLOCK_SIZE).toNat - 16 }).2 })

/-- `gc_alloc(size)`.  `mem` and `stack` are what a collection would scan,
`base` is what `sys_mmap` would return. -/
def gc_alloc (mem : Nat → Nat) (stack : List Nat) (base : Nat) (size : Nat) (s : GcState) :
    Except Fault AllocResult :=
  if s.bytes_allocated > s.trigger_threshold then
    match gc_collect mem stack s with
    | .error e => .error e
    | .ok s1 => alloc_from base (size + 24) s1
  else alloc_from base (size + 24) s

/-! ## Specification vocabulary -/

/-- The part of an allocation header that marking never writes. -/
def blockKey (b : alloc_block_t) : Nat × Nat := (b.addr, b.size)

/-- The candidate word `p` hits a block whose mark is set. -/
def Marked (bs : List alloc_block_t) (p : Nat) : Prop :=
  ∃ b, find_block bs p = some b ∧ b.mark ≠ 0

/-- Number of blocks with `mark == 0`. -/
def unmarked (bs : List alloc_block_t) : Nat :=
  (bs.filter (fun b => b.mark = 0)).length

/-- How marking may change one header: address and size stay, the mark stays
or goes from 0 to 1. -/
def MarkStep (b b' : alloc_block_t) : Prop :=
  b'.addr = b.addr ∧ b'.size = b.size ∧ (b'.mark = b.mark ∨ (b.mark = 0 ∧ b'.mark = 1))

/-- The allocation list `bs'` is `bs` with some marks raised from 0 to 1. -/
def MarkMono (bs bs' : List alloc_block_t) : Prop := List.Forall₂ MarkStep bs bs'

/-- Every word scanned in the payload of the block hit by `p` hits no
unmarked block. -/
def ChildrenMarked (mem : Nat → Nat) (bs : List alloc_block_t) (p : Nat) : Prop :=
  ∀ b, find_block bs p = some b → ∀ a ∈ scan_addrs p b.size,
    ∀ c, find_block bs (mem a) = some c → c.mark ≠ 0

/-- The list `bs'` is `bs` with more marks, and every block marked on the way
has had its payload scanned. -/
def MarkExt (mem : Nat → Nat) (bs bs' : List alloc_block_t) : Prop :=
  MarkMono bs bs' ∧ ∀ p, Marked bs' p → ¬ Marked bs p → ChildrenMarked mem bs' p

/-- The globals that marking leaves alone. -/
def MarkFrame (s s' : GcState) : Prop :=
  s'.free_list = s.free_list ∧ s'.free_list_size = s.free_list_size ∧
  s'.bytes_allocated = s.bytes_allocated ∧ s'.trigger_threshold = s.trigger_threshold

/-- What one call `gc_mark(p)` with recursion bound `fuel` achieves from `s`. -/
def MarkPost (mem : Nat → Nat) (fuel p : Nat) (s : GcState) : Prop :=
  ∃ s', gc_mark mem fuel p s = .ok s' ∧ MarkExt mem s.alloc_list s'.alloc_list ∧
    (∀ c, find_block s'.alloc_list p = some c → c.mark ≠ 0) ∧ MarkFrame s s'

/-- What the `else` branch of the sweep loop does to a surviving block. -/
def clear_mark (b : alloc_block_t) : alloc_block_t := { b with mark := 0 }

/-- The free header that the sweep loop writes over a reclaimed block. -/
def as_free (b : alloc_block_t) : free_block_t :=
  { addr := b.addr, size := b.size + 24 - 16 }

/-- Insertion of a list of spans, one after the other, into the free list
`acc.1` whose length counter is `acc.2`. -/
def insert_all (acc : List free_block_t × Int) (spans : List free_block_t) :
    List free_block_t × Int :=
  spans.foldl (fun a f => insert_into_free a.1 a.2 f) acc

/-- Blocks reachable from the scanned stack words: a block whose payload
address is a stack word, or is the value of a whole machine word of the
payload of a reachable block. -/
inductive Reachable (mem : Nat → Nat) (stack : List Nat) (bs : List alloc_block_t) :
    alloc_block_t → Prop
  | root {b : alloc_block_t} : b ∈ bs → b.addr + 24 ∈ stack → Reachable mem stack bs b
  | child {b c : alloc_block_t} (i : Nat) : Reachable mem stack bs b → c ∈ bs →
      8 * i + 8 ≤ b.size → mem (b.addr + 24 + 8 * i) = c.addr + 24 →
      Reachable mem stack bs c

/-- Indicator of `lo ≤ x < hi`. -/
def covers (lo hi x : Nat) : Nat := if lo ≤ x ∧ x < hi then 1 else 0

/-- Number of free spans `[addr, addr + 16 + size)` that contain the byte `x`. -/
def free_count : List free_block_t → Nat → Nat
  | [], _ => 0
  | f :: fl, x => covers f.addr (f.addr + 16 + f.size) x + free_count fl x

/-- Number of allocated blocks `[addr, addr + 24 + size)` that contain the
byte `x`. -/
def alloc_count : List alloc_block_t → Nat → Nat
  | [], _ => 0
  | b :: bs, x => covers b.addr (b.addr + 24 + b.size) x + alloc_count bs x

/-- Strictly ascending base addresses, stated on adjacent pairs. -/
def AddrSorted (fl : List free_block_t) : Prop :=
  List.Chain' (fun a b : free_block_t => a.addr < b.addr) fl

/-- Two free spans share no byte. -/
def SpanDisjoint (a b : free_block_t) : Prop :=
  a.addr + 16 + a.size ≤ b.addr ∨ b.addr + 16 + b.size ≤ a.addr

/-- Strictly ascending base addresses, stated on all pairs. -/
def Asc (fl : List free_block_t) : Prop :=
  fl.Pairwise (fun a b : free_block_t => a.addr < b.addr)

/-- The free list a cursor stands in. -/
def Cursor.toList (c : Cursor) : List free_block_t := c.before ++ c.current :: c.after

/-- Byte range `[h, h + 24 + size)` of an allocated block, as `(lo, hi)`. -/
def block_range (b : alloc_block_t) : Nat × Nat := (b.addr, b.addr + 24 + b.size)

/-- Byte range `[b, b + 16 + size)` of a free span, as `(lo, hi)`. -/
def span_range (f : free_block_t) : Nat × Nat := (f.addr, f.addr + 16 + f.size)

/-- The byte ranges of all blocks of the allocation list and of all spans of
the free list. -/
def heap_ranges (s : GcState) : List (Nat × Nat) :=
  s.alloc_list.map block_range ++ s.free_list.map span_range

/-- Two ranges `[lo, hi)` share no address. -/
def RangeDisjoint (r1 r2 : Nat × Nat) : Prop := r1.2 ≤ r2.1 ∨ r2.2 ≤ r1.1

/-- Address partition: the ranges of the blocks and spans are pairwise
disjoint. -/
def Partitioned (s : GcState) : Prop := (heap_ranges s).Pairwise RangeDisjoint

/-- Number of ranges `[lo, hi)` of the list that contain `x`. -/
def range_count : List (Nat × Nat) → Nat → Nat
  | [], _ => 0
  | r :: rs, x => covers r.1 r.2 x + range_count rs x

/-- Number of blocks and spans of the state that contain the byte `x`. -/
def heap_count (s : GcState) (x : Nat) : Nat :=
  alloc_count s.alloc_list x + free_count s.free_list x

/-- The regions obtained from the mapper so far, after a call of `gc_alloc`
that was given `base` by the mapper. -/
def new_regions (base : Nat) (r : AllocResult) (maps : List (Nat × Nat)) :
    List (Nat × Nat) :=
  match r.mapped with
  | some sz => (base, base + sz) :: maps
  | none => maps

/-- States reachable from the initial state by calls of `gc_alloc` and by
collections, together with the regions `[lo, hi)` obtained from the mapper;
every region the mapper returns is disjoint from all earlier ones. -/
inductive Reach : GcState → List (Nat × Nat) → Prop
  | init : Reach gc_initial []
  | alloc {s : GcState} {maps : List (Nat × Nat)} (mem : Nat → Nat) (stack : List Nat)
      (base n : Nat) {r : AllocResult} :
      Reach s maps → gc_alloc mem stack base n s = .ok r →
      (∀ sz, r.mapped = some sz → ∀ m ∈ maps, RangeDisjoint (base, base + sz) m) →
      Reach r.state (new_regions base r maps)
  | collect {s : GcState} {maps : List (Nat × Nat)} (mem : Nat → Nat) (stack : List Nat)
      {s' : GcState} :
      Reach s maps → gc_collect mem stack s = .ok s' → Reach s' maps

/-- The bytes of the region mapped by a call of `gc_alloc`, if any. -/
def mapped_cover (base : Nat) (r : AllocResult) (x : Nat) : Nat :=
  match r.mapped with
  | some sz => covers base (base + sz) x
  | none => 0

/-- The bytes of blocks and spans lie in the mapped regions, and no byte lies
in two mapped regions. -/
def Accounted (s : GcState) (maps : List (Nat × Nat)) : Prop :=
  ∀ x, heap_count s x ≤ range_count maps x ∧ range_count maps x ≤ 1

/-- No two neighbours of the free list touch:
`address(a) + 16 + a.size < address(b)` for every adjacent pair. -/
def NoAdjacent (fl : List free_block_t) : Prop :=
  List.Chain' (fun a b : free_block_t => a.addr + 16 + a.size < b.addr) fl

/-- One page mapped at 4096 from which three 16-byte objects were carved
(headers at 8072, 8112 and 8152); the object at 8152 has already been swept
and the object at 8112 is now unmarked. -/
def heap_after_first_sweep : GcState :=
  { gc_initial with
    alloc_list := [⟨8072, 1, 16⟩, ⟨8112, 0, 16⟩]
    free_list := [⟨4096, 3960⟩, ⟨8152, 24⟩]
    free_list_size := 2 }

/-- One page mapped at 4096, entirely free. -/
def heap_one_free_page : GcState :=
  { gc_initial with free_list := [⟨4096, 4080⟩], free_list_size := 1 }

/-- The state after `gc_alloc(16)` on the initial state with the mapper
returning 65536. -/
def heap_after_first_alloc : GcState :=
  { gc_initial with
    alloc_list := [⟨65536 + 4096 - 40, 0, 16⟩]
    free_list := [⟨65536, 4040⟩]
    free_list_size := 1
    bytes_allocated := 40 }

/-- Three blocks at 1000, 2000 and 3000; the stack holds the payload address
of the first, whose first payload word is the payload address of the second. -/
def heap_three_blocks : GcState :=
  { gc_initial with alloc_list := [⟨3000, 0, 8⟩, ⟨2000, 0, 16⟩, ⟨1000, 0, 16⟩] }

/-- Memory in which the word at 1024 is 2024 and every other word is 0. -/
def mem_one_pointer (a : Nat) : Nat := if a = 1024 then 2024 else 0

/-- The allocation list left by `n` calls of `gc_alloc(k)` that were all
split off the tail of one span ending at address `e`: headers at
`e - n * (k + 24)`, ..., `e - (k + 24)`, most recent first. -/
def carved (e k : Nat) : Nat → List alloc_block_t
  | 0 => []
  | n + 1 => { addr := e - (n + 1) * (k + 24), mark := 0, size := k } :: carved e k n

/-- The state after `n` successive calls of `gc_alloc(k)`. -/
def alloc_repeat (mem : Nat → Nat) (stack : List Nat) (base k : Nat) :
    Nat → GcState → Except Fault GcState
  | 0, s => .ok s
  | n + 1, s =>
    match alloc_repeat mem stack base k n s with
    | .error e => .error e
    | .ok s' =>
      match gc_alloc mem stack base k s' with
      | .error e => .error e
      | .ok r => .ok r.state

/-- One page mapped at 65536 after `gc_alloc(8)` (header 69600, payload
69624) and `gc_alloc(12)` (header 69564, payload `[69588, 69600)`). -/
def heap_two_objects : GcState :=
  { gc_initial with
    alloc_list := [⟨69564, 0, 12⟩, ⟨69600, 0, 8⟩]
    free_list := [⟨65536, 4012⟩]
    free_list_size := 1
    bytes_allocated := 68 }

/-- Memory in which the eight bytes at 69596 (the last four bytes of the
payload `[69588, 69600)` and the four bytes after it) read as 69624, and every
other word reads as 0. -/
def mem_overhang (a : Nat) : Nat := if a = 69596 then 69624 else 0

/-- Memory in which every word is 0. -/
def mem_zero (_ : Nat) : Nat := 0

/-- One page mapped at 65536 after `gc_alloc(4060)`: the block at 65536 is the
only node of the two lists. -/
def heap_whole_page_used : GcState :=
  { gc_initial with alloc_list := [⟨65536, 0, 4060⟩], bytes_allocated := 4084 }

/-- What `gc_mark(ptr)` does when every word of memory is 0: at most the
block hit by `ptr` is marked, since every word of its payload is null. -/
def mark_only (ptr : Nat) (s : GcState) : GcState :=
  if ptr = 0 then s
  else
    match find_block s.alloc_list ptr with
    | none => s
    | some block =>
      if block.mark = 0 then
        { s with mark_count := s.mark_count + 1, alloc_list := set_mark s.alloc_list ptr }
      else s

/-- A block of 9437184 bytes at 1048576 that has survived a collection, a
16-byte block at 69592 and a block of 19000000 bytes at 33554432 allocated
since; `bytes_allocated` exceeds `trigger_threshold`. -/
def heap_large_survivor : GcState :=
  { alloc_list := [⟨33554432, 0, 19000000⟩, ⟨69592, 0, 16⟩, ⟨1048576, 0, 9437184⟩]
    free_list := [⟨65536, 4040⟩]
    free_list_size := 1
    mark_count := 1
    bytes_allocated := 19000064
    trigger_threshold := 18874416 }

/-- A free list whose first span is too small for a request of 16 bytes and
whose second span fits it with room to spare. -/
def heap_small_then_large : GcState :=
  { gc_initial with free_list := [⟨4096, 8⟩, ⟨8192, 64⟩], free_list_size := 2 }

/-- Allocation header of the second copy: `uint8_t mark`, `int64_t size`. -/
structure Input.alloc_block_t where
  addr : Nat
  mark : Nat
  size : Int
deriving DecidableEq

/-- Free header of the second copy: `int64_t size`. -/
structure Input.free_block_t where
  addr : Nat
  size : Int
deriving DecidableEq

/-- The global variables of the second copy. -/
structure Input.GcState where
  alloc_list : List Input.alloc_block_t
  free_list : List Input.free_block_t
  free_list_size : Int
  mark_count : Int
  gc_bytes_allocated : Int
  gc_trigger_threshold : Int
deriving DecidableEq

/-- `#define GC_INITIAL_THRESHOLD (1024 * 1024 * 8)` -/
def Input.GC_INITIAL_THRESHOLD : Int := 1024 * 1024 * 8

/-- `#define GC_MIN_ALLOC 4096` -/
def Input.GC_MIN_ALLOC : Int := 4096

/-- `merge(block)` of the second copy. -/
def Input.merge : Input.free_block_t → List Input.free_block_t → Int →
    List Input.free_block_t × Int
  | block, [], n => ([block], n)
  | block, nx :: rest, n =>
    if (((block.addr : Int) + block.size + 16).toNat) = nx.addr then
      Input.merge { block with size := wrap_int64 (block.size + (nx.size + 16)) } rest (n - 1)
    else
      (block :: nx :: rest, n)

/-- The search loop of `insert_into_free` of the second copy. -/
def Input.insert_after (block : Input.free_block_t) :
    Input.free_block_t → List Input.free_block_t → Int → List Input.free_block_t × Int
  | current, [], n => Input.merge current [block] (n + 1)
  | current, nx :: rest, n =>
    if nx.addr < block.addr then
      (current :: (Input.insert_after block nx rest n).1,
        (Input.insert_after block nx rest n).2)
    else
      Input.merge current (block :: nx :: rest) (n + 1)

/-- `insert_into_free(block)` of the second copy. -/
def Input.insert_into_free (fl : List Input.free_block_t) (n : Int)
    (block : Input.free_block_t) : List Input.free_block_t × Int :=
  match fl with
  | [] => Input.merge block [] (n + 1)
  | head :: rest =>
    if block.addr < head.addr then Input.merge block (head :: rest) (n + 1)
    else Input.insert_after block head rest n

/-- The loop of `gc_sweep` of the second copy. -/
def Input.gc_sweep_loop : List Input.alloc_block_t → Input.GcState → Input.GcState
  | [], s => { s with alloc_list := [] }
  | current :: next, s =>
    if current.mark = 0 then
      Input.gc_sweep_loop next
        { s with
          gc_bytes_allocated := s.gc_bytes_allocated - (current.size + 24)
          free_list := (Input.insert_into_free s.free_list s.free_list_size
            { addr := current.addr, size := wrap_int64 (current.size + 24 - 16) }).1
          free_list_size := (Input.insert_into_free s.free_list s.free_list_size
            { addr := current.addr, size := wrap_int64 (current.size + 24 - 16) }).2 }
    else
      { Input.gc_sweep_loop next s with
        alloc_list := { current with mark := 0 } :: (Input.gc_sweep_loop next s).alloc_list }

/-- `gc_sweep()` of the second copy. -/
def Input.gc_sweep (s : Input.GcState) : Input.GcState := Input.gc_sweep_loop s.alloc_list s

/-- The list walk of `gc_mark` of the second copy. -/
def Input.find_block : List Input.alloc_block_t → Nat → Option Input.alloc_block_t
  | [], _ => none
  | block :: next, ptr =>
    if block.addr + 24 = ptr then some block else Input.find_block next ptr

/-- The store `block->mark = 1` of the second copy. -/
def Input.set_mark : List Input.alloc_block_t → Nat → List Input.alloc_block_t
  | [], _ => []
  | block :: next, ptr =>
    if block.addr + 24 = ptr then { block with mark := 1 } :: next
    else block :: Input.set_mark next ptr

/-- The word addresses read by the payload scan of the second copy:
`end = (char*)block_data + block->size` with a signed `size`. -/
def Input.scan_addrs (p : Nat) (size : Int) : List Nat :=
  scan_loop size.toNat p ((p : Int) + size).toNat

/-- `gc_mark(ptr)` of the second copy; the first argument bounds the recursion
depth. -/
def Input.gc_mark (mem : Nat → Nat) : Nat → Nat → Input.GcState → Except Fault Input.GcState
  | 0, _, _ => .error .out_of_fuel
  | fuel + 1, ptr, s =>
    if ptr = 0 then .ok s
    else
      match Input.find_block s.alloc_list ptr with
      | none => .ok s
      | some block =>
        if block.mark = 0 then
          (Input.scan_addrs (block.addr + 24) block.size).foldlM
            (fun st p => Input.gc_mark mem fuel (mem p) st)
            { s with mark_count := s.mark_count + 1
                     alloc_list := Input.set_mark s.alloc_list ptr }
        else .ok s

/-- `gc_mark_stack()` of the second copy. -/
def Input.gc_mark_stack (mem : Nat → Nat) (stack : List Nat) (s : Input.GcState) :
    Except Fault Input.GcState :=
  stack.foldlM (fun st w => Input.gc_mark mem (st.alloc_list.length + 1) w st)
    { s with mark_count := 0 }

/-- The tail of `gc_collect()` of the second copy after the sweep. -/
def Input.update_threshold (s : Input.GcState) : Input.GcState :=
  { s with gc_trigger_threshold :=
             max (wrap_int64 (s.gc_bytes_allocated * 2)) Input.GC_INITIAL_THRESHOLD
           gc_bytes_allocated := 0 }

/-- `gc_collect()` of the second copy (its `printf` calls change no state). -/
def Input.gc_collect (mem : Nat → Nat) (stack : List Nat) (s : Input.GcState) :
    Except Fault Input.GcState :=
  match Input.gc_mark_stack mem stack s with
  | .error e => .error e
  | .ok s1 => .ok (Input.update_threshold (Input.gc_sweep s1))

/-- A position in the free list of the second copy. -/
structure Input.Cursor where
  before : List Input.free_block_t
  current : Input.free_block_t
  after : List Input.free_block_t
deriving DecidableEq

/-- The search loop of `gc_alloc` of the second copy: the first span with
`size >= need`, compared as signed integers. -/
def Input.find_fit (need : Int) : List Input.free_block_t → Option Input.Cursor
  | [] => none
  | current :: rest =>
    if current.size ≥ need then some ⟨[], current, rest⟩
    else
      match Input.find_fit need rest with
      | none => none
      | some c => some ⟨current :: c.before, c.current, c.after⟩

/-- The recalculation of `prev` of the second copy. -/
def Input.recalc_prev (target : Nat) : List Input.free_block_t → Except Fault Input.Cursor
  | [] => .error .null_deref
  | b :: rest =>
    if b.addr = target then .ok ⟨[], b, rest⟩
    else
      match Input.recalc_prev target rest with
      | .error e => .error e
      | .ok c => .ok ⟨b :: c.before, c.current, c.after⟩

/-- What `gc_alloc` of the second copy returns and does. -/
structure Input.AllocResult where
  ptr : Nat
  state : Input.GcState
  mapped : Option Nat
deriving DecidableEq

/-- The part of `gc_alloc` of the second copy from "Use the block" on. -/
def Input.use_block (size : Int) (c : Input.Cursor) (mapped : Option Nat)
    (s : Input.GcState) : Input.AllocResult :=
  if c.current.size > size then
    { ptr := ((c.current.addr : Int) + c.current.size + 16 - size).toNat + 24
      state := { s with
        free_list := c.before ++ { c.current with size := c.current.size - size } :: c.after
        alloc_list := { addr := ((c.current.addr : Int) + c.current.size + 16 - size).toNat,
                        mark := 0, size := wrap_int64 (size - 24) } :: s.alloc_list }
      mapped := mapped }
  else
    { ptr := c.current.addr + 24
      state := { s with
        free_list := c.before ++ c.after
        free_list_size := s.free_list_size - 1
        alloc_list := { addr := c.current.addr, mark := 0, size := wrap_int64 (size - 24) } ::
          s.alloc_list }
      mapped := mapped }

/-- The part of `gc_alloc` of the second copy after the collection check. -/
def Input.alloc_from (base : Nat) (size : Int) (s : Input.GcState) :
    Except Fault Input.AllocResult :=
  match Input.find_fit size s.free_list with
  | some c =>
    .ok (Input.use_block size c none
      { s with gc_bytes_allocated := s.gc_bytes_allocated + size })
  | none =>
    match Input.recalc_prev base
        (Input.insert_into_free s.free_list s.free_list_size
          { addr := base, size := wrap_int64 (max size Input.GC_MIN_ALLOC - 16) }).1 with
    | .error e => .error e
    | .ok c =>
      .ok (Input.use_block size c (some (max size Input.GC_MIN_ALLOC).toNat)
        { s with
          gc_bytes_allocated := s.gc_bytes_allocated + size
          free_list := (Input.insert_into_free s.free_list s.free_list_size
            { addr := base, size := wrap_int64 (max size Input.GC_MIN_ALLOC - 16) }).1
          free_list_size := (Input.insert_into_free s.free_list s.free_list_size
            { addr := base, size := wrap_int64 (max size Input.GC_MIN_ALLOC - 16) }).2 })

/-- `gc_alloc(size)` of the second copy. -/
def Input.gc_alloc (mem : Nat → Nat) (stack : List Nat) (base : Nat) (size : Nat)
    (s : Input.GcState) : Except Fault Input.AllocResult :=
  if s.gc_bytes_allocated > s.gc_trigger_threshold then
    match Input.gc_collect mem stack s with
    | .error e => .error e
    | .ok s1 => Input.alloc_from base (wrap_int64 ((size : Int) + 24)) s1
  else Input.alloc_from base (wrap_int64 ((size : Int) + 24)) s

/-- The header of the second copy with the same field values. -/
def to_input_block (b : alloc_block_t) : Input.alloc_block_t :=
  { addr := b.addr, mark := b.mark, size := (b.size : Int) }

/-- The free header of the second copy with the same field values. -/
def to_input_span (f : free_block_t) : Input.free_block_t :=
  { addr := f.addr, size := (f.size : Int) }

/-- The state of the second copy with the same lists and counters. -/
def to_input (s : GcState) : Input.GcState :=
  { alloc_list := s.alloc_list.map to_input_block
    free_list := s.free_list.map to_input_span
    free_list_size := s.free_list_size
    mark_count := s.mark_count
    gc_bytes_allocated := s.bytes_allocated
    gc_trigger_threshold := s.trigger_threshold }

/-- The cursor of the second copy at the same position. -/
def to_input_cursor (c : Cursor) : Input.Cursor :=
  { before := c.before.map to_input_span
    current := to_input_span c.current
    after := c.after.map to_input_span }

/-- The result of the second copy with the same address, state and request. -/
def to_input_result (r : AllocResult) : Input.AllocResult :=
  { ptr := r.ptr, state := to_input r.state, mapped := r.mapped }

/-- A free list with one span of `2^62` bytes at `4096 + 2^62 + 24`, where the
region `[4096, 4096 + 2^62 + 24)` ends. -/
def heap_huge_span : GcState :=
  { gc_initial with
    free_list := [⟨4096 + 4611686018427387904 + 24, 4611686018427387904⟩]
    free_list_size := 1 }

/-- Every span of the list ends below address `2^63`. -/
def BelowSpans (fl : List free_block_t) : Prop :=
  ∀ f ∈ fl, f.addr + 16 + f.size < 9223372036854775808

/-- Every block of the list ends below address `2^63`. -/
def BelowBlocks (bs : List alloc_block_t) : Prop :=
  ∀ b ∈ bs, b.addr + 24 + b.size < 9223372036854775808

/-- A state that both copies can hold and in which no size can reach `2^63`:
marks fit `uint8_t` and every block and span ends below address `2^63`. -/
def InBothCopies (s : GcState) : Prop :=
  (∀ b ∈ s.alloc_list, b.mark < 256) ∧ BelowBlocks s.alloc_list ∧ BelowSpans s.free_list

/-- Candidate words reachable from the stack through the words the payload
scan reads: a stack word, or the word at an address visited by the scan of a
block hit by a reachable word. -/
inductive ScanReach (mem : Nat → Nat) (stack : List Nat) (bs : List alloc_block_t) :
    Nat → Prop
  | root {w : Nat} : w ∈ stack → ScanReach mem stack bs w
  | child {p a : Nat} {b : alloc_block_t} : ScanReach mem stack bs p →
      find_block bs p = some b → a ∈ scan_addrs p b.size → ScanReach mem stack bs (mem a)

/-- Marking from `s` to `s'` has marked only blocks hit by words of `R`,
relative to the allocation list `bs0` the collection started from. -/
def MarkedWithin (bs0 : List alloc_block_t) (R : Nat → Prop) (s s' : GcState) : Prop :=
  MarkMono bs0 s.alloc_list →
    MarkMono bs0 s'.alloc_list ∧
      ∀ q, Marked s'.alloc_list q → Marked s.alloc_list q ∨ R q

/-- Marking from `s` to `s'` has raised `mark_count` by the number of blocks
it marked. -/
def CountKept (s s' : GcState) : Prop :=
  s'.mark_count + (unmarked s'.alloc_list : Int) = s.mark_count + (unmarked s.alloc_list : Int)

/-- The state after `gc_alloc(9437184)` on the initial state with the mapper
returning 1048576: one block of 9437184 bytes, and `bytes_allocated` above
`trigger_threshold`. -/
def heap_one_large : GcState :=
  { alloc_list := [⟨1048576, 0, 9437184⟩]
    free_list := []
    free_list_size := 0
    mark_count := 0
    bytes_allocated := 9437208
    trigger_threshold := 8388608 }

/-- The state `heap_one_large` after a mark phase that has marked its block. -/
def heap_one_large_marked : GcState :=
  { heap_one_large with alloc_list := [⟨1048576, 1, 9437184⟩], mark_count := 1 }

/-- Byte memory after a store of the `k` low-order bytes of `v` at address
`a` (little-endian byte order). -/
def store_bytes (bytes : Nat → Nat) (a k v : Nat) : Nat → Nat :=
  fun x => if a ≤ x ∧ x < a + k then v / 256 ^ (x - a) % 256 else bytes x

/-- The machine word `*(void**)a` read from byte memory (8 bytes,
little-endian). -/
def load_word (bytes : Nat → Nat) (a : Nat) : Nat :=
  bytes a + 256 * (bytes (a + 1) + 256 * (bytes (a + 2) + 256 * (bytes (a + 3) +
    256 * (bytes (a + 4) + 256 * (bytes (a + 5) + 256 * (bytes (a + 6) +
      256 * bytes (a + 7)))))))

/-- The stores `block->size = size; block->next = next` to a `free_block_t`
at `addr`; both copies have an 8-byte `size` at offset 0 and `next` at
offset 8. -/
def store_free_header (bytes : Nat → Nat) (addr size next : Nat) : Nat → Nat :=
  store_bytes (store_bytes bytes addr 8 size) (addr + 8) 8 next

/-- The stores `result->mark = 0; result->size = size; result->next = next` of
`gc_alloc` in `src/std/baseline/gc.c`: `uint64_t mark` fills offsets 0 to 7. -/
def store_alloc_header (bytes : Nat → Nat) (addr size next : Nat) : Nat → Nat :=
  store_bytes (store_bytes (store_bytes bytes addr 8 0) (addr + 8) 8 size) (addr + 16) 8 next

/-- The stores `result->mark = 0; result->size = size; result->next = next` of
`gc_alloc` in `src/input/baseline/gc.c`: `uint8_t mark` is the byte at offset
0, and `padding[7]` at offsets 1 to 7 is not written. -/
def Input.store_alloc_header (bytes : Nat → Nat) (addr size next : Nat) : Nat → Nat :=
  store_bytes (store_bytes (store_bytes bytes addr 1 0) (addr + 8) 8 size) (addr + 16) 8 next

/-- The heap bytes after the calls `gc_alloc(4056)`, `gc_alloc(12)` and
`gc_alloc(8388608)` on the initial state, with the mapper returning 69632,
65536 and 16777216 (zero-filled pages), and a 4-byte store of the integer
69656 at offset 8 of the 12-byte payload by the program.  The stores are
listed in program order; `hdr` is the copy's `store_alloc_header`. -/
def heap_image (hdr : (Nat → Nat) → Nat → Nat → Nat → Nat → Nat) : Nat → Nat :=
  -- gc_alloc(4056): new span at 69632, inserted at the head, used whole
  let m1 := store_free_header (fun _ => 0) 69632 4080 0
  let m2 := store_bytes m1 69640 8 0
  let m3 := hdr m2 69632 4056 0
  -- gc_alloc(12): new span at 65536, inserted at the head, split at the tail
  let m4 := store_free_header m3 65536 4080 0
  let m5 := store_bytes m4 65544 8 0
  let m6 := store_bytes m5 65536 8 4044
  let m7 := hdr m6 69596 12 69632
  -- the program stores a 32-bit integer at payload offset 8
  let m8 := store_bytes m7 69628 4 69656
  -- gc_alloc(8388608): new span at 16777216, linked after the head, used whole
  let m9 := store_free_header m8 16777216 8388616 0
  let m10 := store_bytes m9 16777224 8 0
  let m11 := store_bytes m10 65544 8 16777216
  let m12 := store_bytes m11 65544 8 0
  hdr m12 16777216 8388608 69596

/-- The lists and counters of both copies after the three calls of
`heap_image`. -/
def heap_padding_run : GcState :=
  { alloc_list := [⟨16777216, 0, 8388608⟩, ⟨69596, 0, 12⟩, ⟨69632, 0, 4056⟩]
    free_list := [⟨65536, 4044⟩]
    free_list_size := 1
    mark_count := 0
    bytes_allocated := 8392748
    trigger_threshold := 8388608 }

/-- The state `heap_padding_run` with the blocks at 69596 and 69632 marked. -/
def heap_padding_marked : GcState :=
  { heap_padding_run with
    alloc_list := [⟨16777216, 0, 8388608⟩, ⟨69596, 1, 12⟩, ⟨69632, 1, 4056⟩]
    mark_count := 2 }

/-! ## Lemmas and theorems -/

/-- C2: first allocation from a fresh state.  For every payload size `n` with
`n + 24 < 4080`, `gc_alloc(n)` on the initial state, the mapper returning `B`,
requests one mapping of 4096 bytes, returns the non-null address
`B + 4096 - n`, leaves the free list as the single span at `B` of size
`4096 - 16 - (n + 24)` and the allocation list as the single block of size `n`
with mark 0 (its header at `B + 4096 - (n + 24)`). -/
theorem gc_alloc_fresh (mem : Nat → Nat) (stack : List Nat) (B n : Nat) (h : n + 24 < 4080) :
    gc_alloc mem stack B n gc_initial =
      .ok { ptr := B + 4096 - n
            state := { gc_initial with
              alloc_list := [{ addr := B + 4096 - (n + 24), mark := 0, size := n }]
              free_list := [{ addr := B, size := 4096 - 16 - (n + 24) }]
              free_list_size := 1
              bytes_allocated := (n : Int) + 24 }
            mapped := some 4096 } ∧ B + 4096 - n ≠ 0 := by
  have hm : max ((n : Int) + 24) MINIMUM_BLOCK_SIZE = 4096 := by
    unfold max MINIMUM_BLOCK_SIZE
    split <;> omega
  refine ⟨?_, by omega⟩
  have h2 : n + 24 < 4080 := h
  simp [gc_alloc, gc_initial, alloc_from, find_fit, insert_into_free, merge, recalc_prev,
    use_block, hm, MINIMUM_THRESHOLD, h2]
  omega

/-! ## Mark phase -/

theorem find_block_some {bs : List alloc_block_t} {p : Nat} {b : alloc_block_t}
    (h : find_block bs p = some b) : b ∈ bs ∧ b.addr + 24 = p := by
  induction bs with
  | nil => simp [find_block] at h
  | cons x xs ih =>
    unfold find_block at h
    split at h
    · simp only [Option.some.injEq] at h
      subst h
      exact ⟨List.mem_cons_self _ _, by assumption⟩
    · exact ⟨List.mem_cons_of_mem _ (ih h).1, (ih h).2⟩

theorem find_block_zero (bs : List alloc_block_t) : find_block bs 0 = none := by
  induction bs with
  | nil => rfl
  | cons x xs ih => simp [find_block, ih]

theorem find_block_set_mark_same {bs : List alloc_block_t} {p : Nat} {b : alloc_block_t}
    (h : find_block bs p = some b) :
    find_block (set_mark bs p) p = some { b with mark := 1 } := by
  induction bs with
  | nil => simp [find_block] at h
  | cons x xs ih =>
    unfold find_block at h
    unfold set_mark
    split at h
    · rename_i hx
      simp only [Option.some.injEq] at h
      subst h
      simp [hx, find_block]
    · rename_i hx
      simp [hx, find_block, ih h]

theorem find_block_set_mark_ne (bs : List alloc_block_t) {p q : Nat} (hq : q ≠ p) :
    find_block (set_mark bs p) q = find_block bs q := by
  induction bs with
  | nil => rfl
  | cons x xs ih =>
    unfold set_mark
    by_cases hx : x.addr + 24 = p
    · have hxq : ¬ x.addr + 24 = q := by omega
      have hpq : ¬ p = q := fun h => hq h.symm
      simp [hx, find_block, hpq]
    · simp only [hx, if_false]
      unfold find_block
      rw [ih]

theorem set_mark_key (bs : List alloc_block_t) (p : Nat) :
    (set_mark bs p).map blockKey = bs.map blockKey := by
  induction bs with
  | nil => rfl
  | cons x xs ih =>
    unfold set_mark
    split
    · simp [blockKey]
    · simp [ih]

theorem find_block_key {bs bs' : List alloc_block_t}
    (hk : bs'.map blockKey = bs.map blockKey) (q : Nat) :
    (find_block bs' q).map blockKey = (find_block bs q).map blockKey := by
  induction bs generalizing bs' with
  | nil =>
    cases bs' with
    | nil => rfl
    | cons y ys => simp at hk
  | cons x xs ih =>
    cases bs' with
    | nil => simp at hk
    | cons y ys =>
      simp only [List.map_cons, List.cons.injEq] at hk
      obtain ⟨hxy, hrest⟩ := hk
      have ha : y.addr = x.addr := congrArg Prod.fst hxy
      unfold find_block
      rw [ha]
      split
      · simp [hxy]
      · exact ih hrest

theorem unmarked_set_mark {bs : List alloc_block_t} {p : Nat} {b : alloc_block_t}
    (h : find_block bs p = some b) (hm : b.mark = 0) :
    unmarked (set_mark bs p) + 1 = unmarked bs := by
  induction bs with
  | nil => simp [find_block] at h
  | cons x xs ih =>
    unfold find_block at h
    unfold set_mark
    split at h
    · rename_i hx
      simp only [Option.some.injEq] at h
      subst h
      simp [hx, unmarked, List.filter_cons, hm]
    · rename_i hx
      have := ih h
      simp only [hx, if_false]
      unfold unmarked at this ⊢
      simp only [List.filter_cons]
      split
      · simp only [List.length_cons]; omega
      · exact this

theorem unmarked_le_length (bs : List alloc_block_t) : unmarked bs ≤ bs.length :=
  List.length_filter_le _ _

theorem markStep_refl (b : alloc_block_t) : MarkStep b b := ⟨rfl, rfl, Or.inl rfl⟩

theorem markStep_trans {a b c : alloc_block_t} (h1 : MarkStep a b) (h2 : MarkStep b c) :
    MarkStep a c := by
  obtain ⟨ha, hs, hm⟩ := h1
  obtain ⟨ha', hs', hm'⟩ := h2
  refine ⟨ha'.trans ha, hs'.trans hs, ?_⟩
  rcases hm with hm | ⟨hm0, hm1⟩
  · rcases hm' with hm' | ⟨hm0', hm1'⟩
    · exact Or.inl (hm'.trans hm)
    · exact Or.inr ⟨by omega, hm1'⟩
  · rcases hm' with hm' | ⟨hm0', hm1'⟩
    · exact Or.inr ⟨hm0, by omega⟩
    · exact Or.inr ⟨hm0, hm1'⟩

theorem markMono_refl (bs : List alloc_block_t) : MarkMono bs bs := by
  induction bs with
  | nil => exact List.Forall₂.nil
  | cons x xs ih => exact List.Forall₂.cons (markStep_refl x) ih

theorem markMono_trans {as bs cs : List alloc_block_t} (h1 : MarkMono as bs)
    (h2 : MarkMono bs cs) : MarkMono as cs := by
  induction h1 generalizing cs with
  | nil => cases h2; exact List.Forall₂.nil
  | cons hab _ ih =>
    cases h2 with
    | cons hbc hrest => exact List.Forall₂.cons (markStep_trans hab hbc) (ih hrest)

theorem markMono_key {bs bs' : List alloc_block_t} (h : MarkMono bs bs') :
    bs'.map blockKey = bs.map blockKey := by
  induction h with
  | nil => rfl
  | cons hab _ ih =>
    simp only [List.map_cons, ih, blockKey, hab.1, hab.2.1]

theorem markMono_length {bs bs' : List alloc_block_t} (h : MarkMono bs bs') :
    bs'.length = bs.length := by
  have := congrArg List.length (markMono_key h)
  simpa using this

theorem markMono_unmarked_le {bs bs' : List alloc_block_t} (h : MarkMono bs bs') :
    unmarked bs' ≤ unmarked bs := by
  induction h with
  | nil => exact Nat.le_refl _
  | @cons a b l1 l2 hab _ ih =>
    unfold unmarked at ih ⊢
    simp only [List.filter_cons]
    obtain ⟨_, _, hm⟩ := hab
    by_cases hb : b.mark = 0
    · have ha : a.mark = 0 := by omega
      simp only [hb, ha, decide_True, if_true, List.length_cons]
      omega
    · by_cases ha : a.mark = 0
      · simp only [hb, ha, decide_True, decide_False, if_true, List.length_cons]
        exact Nat.le_succ_of_le ih
      · simp only [hb, ha, decide_False]
        exact ih

theorem markMono_find_fwd {bs bs' : List alloc_block_t} (h : MarkMono bs bs') {q : Nat}
    {b : alloc_block_t} (hb : find_block bs q = some b) :
    ∃ b', find_block bs' q = some b' ∧ MarkStep b b' := by
  induction h with
  | nil => simp [find_block] at hb
  | @cons x y l1 l2 hxy _ ih =>
    unfold find_block at hb ⊢
    rw [hxy.1]
    split at hb
    · rename_i hx
      simp only [Option.some.injEq] at hb
      subst hb
      exact ⟨y, by simp [hx], hxy⟩
    · rename_i hx
      simp only [hx, if_false]
      exact ih hb

theorem markMono_find_bwd {bs bs' : List alloc_block_t} (h : MarkMono bs bs') {q : Nat}
    {b' : alloc_block_t} (hb : find_block bs' q = some b') :
    ∃ b, find_block bs q = some b ∧ MarkStep b b' := by
  induction h with
  | nil => simp [find_block] at hb
  | @cons x y l1 l2 hxy _ ih =>
    unfold find_block at hb ⊢
    rw [hxy.1] at hb
    split at hb
    · rename_i hx
      simp only [Option.some.injEq] at hb
      subst hb
      exact ⟨x, by simp [hx], hxy⟩
    · rename_i hx
      simp only [hx, if_false]
      exact ih hb

theorem markMono_marked {bs bs' : List alloc_block_t} (h : MarkMono bs bs') {p : Nat}
    (hp : Marked bs p) : Marked bs' p := by
  obtain ⟨b, hb, hm⟩ := hp
  obtain ⟨b', hb', _, _, hs⟩ := markMono_find_fwd h hb
  exact ⟨b', hb', by omega⟩

theorem childrenMarked_mono {mem : Nat → Nat} {bs bs' : List alloc_block_t} {p : Nat}
    (hc : ChildrenMarked mem bs p) (h : MarkMono bs bs') : ChildrenMarked mem bs' p := by
  intro b' hb' a ha c' hc'
  obtain ⟨b, hb, _, hsz, _⟩ := markMono_find_bwd h hb'
  obtain ⟨c, hcf, _, _, hcm⟩ := markMono_find_bwd h hc'
  have := hc b hb a (by rw [← hsz]; exact ha) c hcf
  omega

theorem markExt_refl (mem : Nat → Nat) (bs : List alloc_block_t) : MarkExt mem bs bs :=
  ⟨markMono_refl bs, fun _ h hn => absurd h hn⟩

theorem markExt_trans {mem : Nat → Nat} {as bs cs : List alloc_block_t}
    (h1 : MarkExt mem as bs) (h2 : MarkExt mem bs cs) : MarkExt mem as cs := by
  refine ⟨markMono_trans h1.1 h2.1, fun p hp hn => ?_⟩
  by_cases hb : Marked bs p
  · exact childrenMarked_mono (h1.2 p hb hn) h2.1
  · exact h2.2 p hp hb

theorem markFrame_refl (s : GcState) : MarkFrame s s := ⟨rfl, rfl, rfl, rfl⟩

theorem markFrame_trans {a b c : GcState} (h1 : MarkFrame a b) (h2 : MarkFrame b c) :
    MarkFrame a c :=
  ⟨h2.1.trans h1.1, h2.2.1.trans h1.2.1, h2.2.2.1.trans h1.2.2.1, h2.2.2.2.trans h1.2.2.2⟩

theorem set_mark_mono {bs : List alloc_block_t} {p : Nat} {b : alloc_block_t}
    (h : find_block bs p = some b) (hm : b.mark = 0) : MarkMono bs (set_mark bs p) := by
  induction bs with
  | nil => simp [find_block] at h
  | cons x xs ih =>
    unfold find_block at h
    unfold set_mark
    split at h
    · rename_i hx
      simp only [Option.some.injEq] at h
      subst h
      simp only [hx, if_true]
      exact List.Forall₂.cons ⟨rfl, rfl, Or.inr ⟨hm, rfl⟩⟩ (markMono_refl xs)
    · rename_i hx
      simp only [hx, if_false]
      exact List.Forall₂.cons (markStep_refl x) (ih h)

theorem fold_mark_spec (mem : Nat → Nat) (fuelOf : GcState → Nat) (wordOf : Nat → Nat)
    (U : Nat)
    (hspec : ∀ p s, unmarked s.alloc_list ≤ U → MarkPost mem (fuelOf s) p s) :
    ∀ (xs : List Nat) (s : GcState), unmarked s.alloc_list ≤ U →
      ∃ s', xs.foldlM (fun st x => gc_mark mem (fuelOf st) (wordOf x) st) s = .ok s' ∧
        MarkExt mem s.alloc_list s'.alloc_list ∧
        (∀ x ∈ xs, ∀ c, find_block s'.alloc_list (wordOf x) = some c → c.mark ≠ 0) ∧
        MarkFrame s s' := by
  intro xs
  induction xs with
  | nil =>
    intro s _
    exact ⟨s, rfl, markExt_refl mem _, by simp, markFrame_refl s⟩
  | cons x xs ih =>
    intro s hs
    obtain ⟨s1, h1, hext1, htgt1, hfr1⟩ := hspec (wordOf x) s hs
    obtain ⟨s2, h2, hext2, htgt2, hfr2⟩ := ih s1 (Nat.le_trans (markMono_unmarked_le hext1.1) hs)
    refine ⟨s2, ?_, markExt_trans hext1 hext2, ?_, markFrame_trans hfr1 hfr2⟩
    · simp only [List.foldlM_cons, h1]
      exact h2
    · intro y hy c hc
      rcases List.mem_cons.mp hy with rfl | hy
      · obtain ⟨c1, hc1, _, _, hm⟩ := markMono_find_bwd hext2.1 hc
        have := htgt1 c1 hc1
        omega
      · exact htgt2 y hy c hc

theorem gc_mark_spec (mem : Nat → Nat) :
    ∀ (fuel p : Nat) (s : GcState), unmarked s.alloc_list < fuel → MarkPost mem fuel p s := by
  intro fuel
  induction fuel with
  | zero => intro p s h; omega
  | succ fuel ih =>
    intro p s hlt
    unfold MarkPost
    unfold gc_mark
    by_cases hp : p = 0
    · subst hp
      refine ⟨s, by simp, markExt_refl mem _, ?_, markFrame_refl s⟩
      intro c hc
      rw [find_block_zero] at hc
      cases hc
    · simp only [hp, if_false]
      cases hfb : find_block s.alloc_list p with
      | none =>
        refine ⟨s, rfl, markExt_refl mem _, ?_, markFrame_refl s⟩
        intro c hc
        rw [hfb] at hc
        cases hc
      | some b =>
        by_cases hm : b.mark = 0
        · simp only [hm, if_true]
          have hun := unmarked_set_mark hfb hm
          have hmono := set_mark_mono hfb hm
          obtain ⟨s', hrun, hext, htgt, hfr⟩ :=
            fold_mark_spec mem (fun _ => fuel) mem (unmarked (set_mark s.alloc_list p))
              (fun q st hst => ih q st (by omega))
              (scan_addrs (b.addr + 24) b.size)
              { s with mark_count := s.mark_count + 1
                       alloc_list := set_mark s.alloc_list p }
              (Nat.le_refl _)
          have hbp : b.addr + 24 = p := (find_block_some hfb).2
          have hself : ∀ c, find_block s'.alloc_list p = some c → c.mark ≠ 0 := by
            intro c hc
            obtain ⟨c1, hc1, _, _, hcm⟩ := markMono_find_bwd hext.1 hc
            have h1 : find_block (set_mark s.alloc_list p) p = some { b with mark := 1 } :=
              find_block_set_mark_same hfb
            simp only at hc1
            rw [h1] at hc1
            simp only [Option.some.injEq] at hc1
            subst hc1
            simp only at hcm
            omega
          refine ⟨s', hrun, ⟨markMono_trans hmono hext.1, ?_⟩, hself, ?_⟩
          · intro q hq hnq
            by_cases hqp : q = p
            · subst hqp
              intro b' hb' a ha c hc
              obtain ⟨b0, hb0, _, hsz, _⟩ := markMono_find_bwd (markMono_trans hmono hext.1) hb'
              rw [hfb] at hb0
              simp only [Option.some.injEq] at hb0
              subst hb0
              rw [hsz, ← hbp] at ha
              exact htgt a ha c hc
            · apply hext.2 q hq
              intro hq1
              apply hnq
              obtain ⟨c, hc, hcm⟩ := hq1
              simp only at hc
              rw [find_block_set_mark_ne _ hqp] at hc
              exact ⟨c, hc, hcm⟩
          · exact ⟨hfr.1, hfr.2.1, hfr.2.2.1, hfr.2.2.2⟩
        · simp only [hm, if_false]
          refine ⟨s, rfl, markExt_refl mem _, ?_, markFrame_refl s⟩
          intro c hc
          rw [hfb] at hc
          simp only [Option.some.injEq] at hc
          subst hc
          exact hm

/-- The mark phase always completes: `gc_mark_stack` returns a state in which
marks have only been raised, every root word hits no unmarked block and every
block marked on the way has been scanned. -/
theorem gc_mark_stack_spec (mem : Nat → Nat) (stack : List Nat) (s : GcState) :
    ∃ s', gc_mark_stack mem stack s = .ok s' ∧
      MarkExt mem s.alloc_list s'.alloc_list ∧
      (∀ w ∈ stack, ∀ c, find_block s'.alloc_list w = some c → c.mark ≠ 0) ∧
      MarkFrame s s' := by
  obtain ⟨s', hrun, hext, htgt, hfr⟩ :=
    fold_mark_spec mem (fun st => st.alloc_list.length + 1) id (unmarked s.alloc_list)
      (fun q st _ => gc_mark_spec mem _ q st
        (Nat.lt_succ_of_le (unmarked_le_length st.alloc_list)))
      stack { s with mark_count := 0 } (Nat.le_refl _)
  exact ⟨s', hrun, hext, htgt, hfr⟩

/-! ## Sweep phase -/

theorem gc_sweep_loop_alloc (bs : List alloc_block_t) (s : GcState) :
    (gc_sweep_loop bs s).alloc_list = (bs.filter (fun b => b.mark ≠ 0)).map clear_mark := by
  induction bs generalizing s with
  | nil => rfl
  | cons x xs ih =>
    unfold gc_sweep_loop
    by_cases hx : x.mark = 0
    · simp only [hx, if_true, ih, List.filter_cons]
      simp
    · simp only [hx, if_false, ih, List.filter_cons]
      simp [clear_mark, hx]

theorem gc_sweep_loop_bytes (bs : List alloc_block_t) (s : GcState) :
    (gc_sweep_loop bs s).bytes_allocated =
      s.bytes_allocated -
        ((bs.filter (fun b => b.mark = 0)).map (fun b => ((b.size + 24 : Nat) : Int))).sum := by
  induction bs generalizing s with
  | nil => simp [gc_sweep_loop]
  | cons x xs ih =>
    unfold gc_sweep_loop
    by_cases hx : x.mark = 0
    · simp only [hx, if_true, ih, List.filter_cons]
      simp only [decide_True, if_true, List.map_cons, List.sum_cons]
      omega
    · simp only [hx, if_false, ih, List.filter_cons]
      simp

theorem gc_sweep_loop_free (bs : List alloc_block_t) (s : GcState) :
    ((gc_sweep_loop bs s).free_list, (gc_sweep_loop bs s).free_list_size) =
      insert_all (s.free_list, s.free_list_size)
        ((bs.filter (fun b => b.mark = 0)).map as_free) := by
  induction bs generalizing s with
  | nil => simp [gc_sweep_loop, insert_all]
  | cons x xs ih =>
    unfold gc_sweep_loop
    by_cases hx : x.mark = 0
    · simp only [hx, if_true, ih, List.filter_cons]
      simp [insert_all, as_free]
    · simp only [hx, if_false, List.filter_cons]
      simpa using ih s

theorem gc_sweep_loop_frame (bs : List alloc_block_t) (s : GcState) :
    (gc_sweep_loop bs s).trigger_threshold = s.trigger_threshold ∧
      (gc_sweep_loop bs s).mark_count = s.mark_count := by
  induction bs generalizing s with
  | nil => simp [gc_sweep_loop]
  | cons x xs ih =>
    unfold gc_sweep_loop
    by_cases hx : x.mark = 0
    · simp only [hx, if_true]
      exact ih _
    · simp only [hx, if_false]
      exact ih s

/-! ## Reachability -/

theorem mem_scan_loop (e : Nat) : ∀ (k p i : Nat), i < k → p + 8 * i < e →
    p + 8 * i ∈ scan_loop k p e := by
  intro k
  induction k with
  | zero => intro p i h; omega
  | succ k ih =>
    intro p i hi he
    unfold scan_loop
    have hp : p < e := by omega
    simp only [hp, if_true]
    cases i with
    | zero => simp
    | succ j =>
      have := ih (p + 8) j (by omega) (by omega)
      have heq : p + 8 * (j + 1) = p + 8 + 8 * j := by omega
      rw [heq]
      exact List.mem_cons_of_mem _ this

theorem mem_scan_addrs {p size i : Nat} (h : 8 * i < size) : p + 8 * i ∈ scan_addrs p size :=
  mem_scan_loop _ size p i (by omega) (by omega)

theorem find_block_of_mem {bs : List alloc_block_t} {b : alloc_block_t} (hb : b ∈ bs)
    (hnd : (bs.map (fun b => b.addr)).Nodup) : find_block bs (b.addr + 24) = some b := by
  induction bs with
  | nil => cases hb
  | cons x xs ih =>
    simp only [List.map_cons, List.nodup_cons] at hnd
    unfold find_block
    rcases List.mem_cons.mp hb with rfl | hb
    · simp
    · have hne : ¬ x.addr + 24 = b.addr + 24 := by
        intro h
        apply hnd.1
        have : x.addr = b.addr := by omega
        rw [this]
        exact List.mem_map_of_mem _ hb
      simp only [hne, if_false]
      exact ih hb hnd.2

theorem reachable_marked {mem : Nat → Nat} {stack : List Nat} {bs bs' : List alloc_block_t}
    (hnd : (bs.map (fun b => b.addr)).Nodup)
    (hzero : ∀ b ∈ bs, b.mark = 0)
    (hext : MarkExt mem bs bs')
    (hroots : ∀ w ∈ stack, ∀ c, find_block bs' w = some c → c.mark ≠ 0)
    {b : alloc_block_t} (hr : Reachable mem stack bs b) :
    b ∈ bs ∧ ∃ b', find_block bs' (b.addr + 24) = some b' ∧ MarkStep b b' ∧ b'.mark ≠ 0 := by
  induction hr with
  | @root b hb hw =>
    obtain ⟨b', hb', hstep⟩ := markMono_find_fwd hext.1 (find_block_of_mem hb hnd)
    exact ⟨hb, b', hb', hstep, hroots _ hw b' hb'⟩
  | @child b c i _ hc hi hmem ih =>
    obtain ⟨hb, b', hb', hstep, hm⟩ := ih
    have hnot : ¬ Marked bs (b.addr + 24) := by
      rintro ⟨x, hx, hxm⟩
      exact hxm (hzero x (find_block_some hx).1)
    have hch := hext.2 (b.addr + 24) ⟨b', hb', hm⟩ hnot
    obtain ⟨c', hc', hcstep⟩ := markMono_find_fwd hext.1 (find_block_of_mem hc hnd)
    refine ⟨hc, c', hc', hcstep, ?_⟩
    have ha : b.addr + 24 + 8 * i ∈ scan_addrs (b.addr + 24) b'.size := by
      rw [hstep.2.1]
      exact mem_scan_addrs (by omega)
    exact hch b' hb' _ ha c' (by rw [hmem]; exact hc')

/-- C1: collection never reclaims a reachable block.  From a state whose
marks are all 0 (the allocation list being a list of distinct nodes),
`gc_collect` returns, and every block reachable from the scanned stack words
through exact payload-start words is still on the allocation list, with the
same address and size and with mark 0. -/
theorem gc_collect_keeps_reachable (mem : Nat → Nat) (stack : List Nat) (s : GcState)
    (hnd : (s.alloc_list.map (fun b => b.addr)).Nodup)
    (hzero : ∀ b ∈ s.alloc_list, b.mark = 0) :
    ∃ s', gc_collect mem stack s = .ok s' ∧
      ∀ b, Reachable mem stack s.alloc_list b → b ∈ s'.alloc_list := by
  obtain ⟨s1, hrun, hext, hroots, _⟩ := gc_mark_stack_spec mem stack s
  refine ⟨update_threshold (gc_sweep s1), by simp [gc_collect, hrun], ?_⟩
  intro b hr
  obtain ⟨hb, b', hb', hstep, hm⟩ := reachable_marked hnd hzero hext hroots hr
  have hmem : b' ∈ s1.alloc_list := (find_block_some hb').1
  have hres : clear_mark b' ∈ (gc_sweep s1).alloc_list := by
    unfold gc_sweep
    rw [gc_sweep_loop_alloc]
    apply List.mem_map_of_mem
    simp [List.mem_filter, hmem, hm]
  have heq : clear_mark b' = b := by
    obtain ⟨h1, h2, _⟩ := hstep
    have h3 := hzero b hb
    cases b
    cases b'
    simp only [clear_mark] at *
    simp [h1, h2, h3]
  rw [heq] at hres
  exact hres

/-! ## Byte accounting of the two lists -/

theorem covers_le_one (lo hi x : Nat) : covers lo hi x ≤ 1 := by
  unfold covers; split <;> omega

theorem free_count_append (l1 l2 : List free_block_t) (x : Nat) :
    free_count (l1 ++ l2) x = free_count l1 x + free_count l2 x := by
  induction l1 with
  | nil => simp [free_count]
  | cons a l ih =>
    show covers _ _ x + free_count (l ++ l2) x = covers _ _ x + free_count l x + free_count l2 x
    rw [ih]; omega

theorem free_count_eq_zero {fl : List free_block_t} {x : Nat} (h : free_count fl x = 0) :
    ∀ f ∈ fl, ¬ (f.addr ≤ x ∧ x < f.addr + 16 + f.size) := by
  induction fl with
  | nil => intro f hf; cases hf
  | cons a l ih =>
    intro f hf
    simp only [free_count] at h
    rcases List.mem_cons.mp hf with rfl | hf
    · intro hc
      have : covers f.addr (f.addr + 16 + f.size) x = 1 := by simp [covers, hc]
      omega
    · exact ih (by omega) f hf

theorem free_count_pos_of_mem {fl : List free_block_t} {f : free_block_t} {x : Nat}
    (hf : f ∈ fl) (hx : f.addr ≤ x ∧ x < f.addr + 16 + f.size) : 0 < free_count fl x := by
  by_contra h
  exact free_count_eq_zero (by omega) f hf hx

theorem exists_of_free_count_pos {fl : List free_block_t} {x : Nat} (h : 0 < free_count fl x) :
    ∃ f ∈ fl, f.addr ≤ x ∧ x < f.addr + 16 + f.size := by
  induction fl with
  | nil => simp [free_count] at h
  | cons a l ih =>
    simp only [free_count] at h
    by_cases hc : a.addr ≤ x ∧ x < a.addr + 16 + a.size
    · exact ⟨a, List.mem_cons_self _ _, hc⟩
    · have : covers a.addr (a.addr + 16 + a.size) x = 0 := by simp [covers, hc]
      obtain ⟨f, hf, hx⟩ := ih (by omega)
      exact ⟨f, List.mem_cons_of_mem _ hf, hx⟩

theorem merge_count (x : Nat) : ∀ (rest : List free_block_t) (b : free_block_t) (n : Int),
    free_count (merge b rest n).1 x = free_count (b :: rest) x := by
  intro rest
  induction rest with
  | nil => intro b n; rfl
  | cons nx rest ih =>
    intro b n
    unfold merge
    split
    · rename_i hadj
      rw [ih]
      simp only [free_count, covers]
      split <;> split <;> split <;> omega
    · rfl

theorem insert_after_count (blk : free_block_t) (x : Nat) :
    ∀ (rest : List free_block_t) (cur : free_block_t) (n : Int),
      free_count (insert_after blk cur rest n).1 x = free_count (blk :: cur :: rest) x := by
  intro rest
  induction rest with
  | nil =>
    intro cur n
    unfold insert_after
    rw [merge_count]
    simp only [free_count]; omega
  | cons nx rest ih =>
    intro cur n
    unfold insert_after
    split
    · have := ih nx n
      simp only [free_count] at this ⊢
      omega
    · rw [merge_count]
      simp only [free_count]; omega

theorem insert_into_free_count (fl : List free_block_t) (n : Int) (blk : free_block_t)
    (x : Nat) : free_count (insert_into_free fl n blk).1 x = free_count (blk :: fl) x := by
  unfold insert_into_free
  cases fl with
  | nil => simp only [merge_count]
  | cons h t =>
    simp only
    split
    · rw [merge_count]
    · rw [insert_after_count]

theorem insert_all_count (x : Nat) : ∀ (spans : List free_block_t)
    (acc : List free_block_t × Int),
    free_count (insert_all acc spans).1 x = free_count acc.1 x + free_count spans x := by
  intro spans
  induction spans with
  | nil => intro acc; simp [insert_all, free_count]
  | cons f fs ih =>
    intro acc
    have := ih (insert_into_free acc.1 acc.2 f)
    unfold insert_all at this ⊢
    simp only [List.foldl_cons]
    rw [this, insert_into_free_count]
    simp only [free_count]; omega

/-! ## Membership after insertion -/

theorem merge_mem : ∀ (rest : List free_block_t) (b : free_block_t) (n : Int)
    (y : free_block_t), y ∈ (merge b rest n).1 →
      ∃ f ∈ b :: rest, f.addr = y.addr ∧ f.size ≤ y.size := by
  intro rest
  induction rest with
  | nil =>
    intro b n y hy
    exact ⟨y, hy, rfl, Nat.le_refl _⟩
  | cons nx rest ih =>
    intro b n y hy
    unfold merge at hy
    split at hy
    · obtain ⟨f, hf, ha, hs⟩ := ih _ _ y hy
      rcases List.mem_cons.mp hf with rfl | hm
      · exact ⟨b, List.mem_cons_self _ _, ha, by simp only at hs; omega⟩
      · exact ⟨f, List.mem_cons_of_mem _ (List.mem_cons_of_mem _ hm), ha, hs⟩
    · exact ⟨y, hy, rfl, Nat.le_refl _⟩

theorem insert_after_mem (blk : free_block_t) : ∀ (rest : List free_block_t)
    (cur : free_block_t) (n : Int) (y : free_block_t), y ∈ (insert_after blk cur rest n).1 →
      ∃ f ∈ blk :: cur :: rest, f.addr = y.addr ∧ f.size ≤ y.size := by
  intro rest
  induction rest with
  | nil =>
    intro cur n y hy
    unfold insert_after at hy
    obtain ⟨f, hf, h⟩ := merge_mem _ _ _ y hy
    refine ⟨f, ?_, h⟩
    simp only [List.mem_cons, List.mem_singleton, List.not_mem_nil, or_false] at hf ⊢
    tauto
  | cons nx rest ih =>
    intro cur n y hy
    unfold insert_after at hy
    split at hy
    · rcases List.mem_cons.mp hy with rfl | hm
      · exact ⟨y, by simp, rfl, Nat.le_refl _⟩
      · obtain ⟨f, hf, h⟩ := ih nx n y hm
        refine ⟨f, ?_, h⟩
        simp only [List.mem_cons] at hf ⊢
        tauto
    · obtain ⟨f, hf, h⟩ := merge_mem _ _ _ y hy
      refine ⟨f, ?_, h⟩
      simp only [List.mem_cons] at hf ⊢
      tauto

theorem insert_into_free_mem (fl : List free_block_t) (n : Int) (blk y : free_block_t)
    (hy : y ∈ (insert_into_free fl n blk).1) :
    ∃ f ∈ blk :: fl, f.addr = y.addr ∧ f.size ≤ y.size := by
  unfold insert_into_free at hy
  cases fl with
  | nil => exact merge_mem _ _ _ y hy
  | cons h t =>
    simp only at hy
    split at hy
    · exact merge_mem _ _ _ y hy
    · exact insert_after_mem blk _ _ _ y hy

/-! ## Address order of the free list -/

theorem addrSorted_iff_asc (fl : List free_block_t) : AddrSorted fl ↔ Asc fl := by
  haveI : IsTrans free_block_t (fun a b : free_block_t => a.addr < b.addr) :=
    ⟨fun _ _ _ h1 h2 => Nat.lt_trans h1 h2⟩
  exact List.chain'_iff_pairwise

theorem merge_asc : ∀ (rest : List free_block_t) (b : free_block_t) (n : Int),
    Asc (b :: rest) → Asc (merge b rest n).1 := by
  intro rest
  induction rest with
  | nil => intro b n h; exact h
  | cons nx rest ih =>
    intro b n h
    unfold merge
    split
    · apply ih
      unfold Asc at h ⊢
      rw [List.pairwise_cons] at h ⊢
      obtain ⟨hb, hrest⟩ := h
      rw [List.pairwise_cons] at hrest
      exact ⟨fun y hy => hb y (List.mem_cons_of_mem _ hy), hrest.2⟩
    · exact h

theorem insert_after_asc (blk : free_block_t) : ∀ (rest : List free_block_t)
    (cur : free_block_t) (n : Int), Asc (cur :: rest) → cur.addr < blk.addr →
      (∀ f ∈ rest, f.addr ≠ blk.addr) → Asc (insert_after blk cur rest n).1 := by
  intro rest
  induction rest with
  | nil =>
    intro cur n _ hlt _
    unfold insert_after
    apply merge_asc
    unfold Asc
    simp [hlt]
  | cons nx rest ih =>
    intro cur n h hlt hne
    unfold Asc at h
    rw [List.pairwise_cons] at h
    obtain ⟨hcur, hrest⟩ := h
    unfold insert_after
    split
    · rename_i hnx
      have hrec := ih nx n hrest hnx (fun f hf => hne f (List.mem_cons_of_mem _ hf))
      unfold Asc
      simp only
      rw [List.pairwise_cons]
      refine ⟨fun y hy => ?_, hrec⟩
      obtain ⟨f, hf, ha, _⟩ := insert_after_mem blk _ _ _ y hy
      rw [← ha]
      rcases List.mem_cons.mp hf with rfl | hf
      · exact hlt
      · exact hcur f hf
    · rename_i hnx
      apply merge_asc
      have hne' := hne nx (List.mem_cons_self _ _)
      have hb : blk.addr < nx.addr := by omega
      unfold Asc
      rw [List.pairwise_cons, List.pairwise_cons]
      refine ⟨fun y hy => ?_, fun y hy => ?_, hrest⟩
      · rcases List.mem_cons.mp hy with rfl | hy
        · exact hlt
        · exact hcur y hy
      · rcases List.mem_cons.mp hy with rfl | hy
        · exact hb
        · rw [List.pairwise_cons] at hrest
          exact Nat.lt_trans hb (hrest.1 y hy)

theorem insert_into_free_asc (fl : List free_block_t) (n : Int) (blk : free_block_t)
    (h : Asc fl) (hne : ∀ f ∈ fl, f.addr ≠ blk.addr) : Asc (insert_into_free fl n blk).1 := by
  unfold insert_into_free
  cases fl with
  | nil => exact merge_asc _ _ _ (by simp [Asc])
  | cons hd tl =>
    simp only
    split
    · rename_i hlt
      apply merge_asc
      unfold Asc at h ⊢
      rw [List.pairwise_cons]
      refine ⟨fun y hy => ?_, h⟩
      rcases List.mem_cons.mp hy with rfl | hy
      · exact hlt
      · rw [List.pairwise_cons] at h
        exact Nat.lt_trans hlt (h.1 y hy)
    · rename_i hlt
      have := hne hd (List.mem_cons_self _ _)
      exact insert_after_asc blk tl hd n h (by omega)
        (fun f hf => hne f (List.mem_cons_of_mem _ hf))

theorem insert_all_asc : ∀ (spans : List free_block_t) (acc : List free_block_t × Int),
    Asc acc.1 → (∀ x, free_count acc.1 x + free_count spans x ≤ 1) →
      Asc (insert_all acc spans).1 := by
  intro spans
  induction spans with
  | nil => intro acc h _; exact h
  | cons f fs ih =>
    intro acc h hc
    have hne : ∀ g ∈ acc.1, g.addr ≠ f.addr := by
      intro g hg heq
      have h1 := free_count_pos_of_mem hg (x := f.addr) ⟨by omega, by omega⟩
      have h2 := hc f.addr
      simp only [free_count, covers] at h2
      have : f.addr ≤ f.addr ∧ f.addr < f.addr + 16 + f.size := ⟨Nat.le_refl _, by omega⟩
      simp only [this, and_self, if_true] at h2
      omega
    have := ih (insert_into_free acc.1 acc.2 f) (insert_into_free_asc _ _ _ h hne)
      (fun x => by
        rw [insert_into_free_count]
        have := hc x
        simp only [free_count] at this ⊢
        omega)
    unfold insert_all at this ⊢
    simpa using this

/-! ## Cursors -/

theorem find_fit_some {need : Nat} : ∀ {fl : List free_block_t} {c : Cursor},
    find_fit need fl = some c →
      c.toList = fl ∧ need ≤ c.current.size ∧ ∀ f ∈ c.before, f.size < need := by
  intro fl
  induction fl with
  | nil => intro c h; simp [find_fit] at h
  | cons a l ih =>
    intro c h
    unfold find_fit at h
    split at h
    · rename_i hge
      simp only [Option.some.injEq] at h
      subst h
      exact ⟨rfl, hge, by simp⟩
    · rename_i hlt
      cases hrec : find_fit need l with
      | none => simp [hrec] at h
      | some c' =>
        simp only [hrec, Option.some.injEq] at h
        subst h
        obtain ⟨h1, h2, h3⟩ := ih hrec
        refine ⟨by simp only [Cursor.toList] at h1 ⊢; simp [h1], h2, ?_⟩
        intro f hf
        rcases List.mem_cons.mp hf with rfl | hf
        · omega
        · exact h3 f hf

theorem find_fit_none {need : Nat} : ∀ {fl : List free_block_t},
    find_fit need fl = none → ∀ f ∈ fl, f.size < need := by
  intro fl
  induction fl with
  | nil => intro _ f hf; cases hf
  | cons a l ih =>
    intro h f hf
    unfold find_fit at h
    split at h
    · cases h
    · rename_i hlt
      cases hrec : find_fit need l with
      | none =>
        rcases List.mem_cons.mp hf with rfl | hf
        · omega
        · exact ih hrec f hf
      | some c' => simp [hrec] at h

theorem recalc_prev_ok {t : Nat} : ∀ {fl : List free_block_t} {c : Cursor},
    recalc_prev t fl = .ok c → c.toList = fl ∧ c.current.addr = t := by
  intro fl
  induction fl with
  | nil => intro c h; simp [recalc_prev] at h
  | cons a l ih =>
    intro c h
    unfold recalc_prev at h
    split at h
    · rename_i heq
      simp only [Except.ok.injEq] at h
      subst h
      exact ⟨rfl, heq⟩
    · cases hrec : recalc_prev t l with
      | error e => simp [hrec] at h
      | ok c' =>
        simp only [hrec, Except.ok.injEq] at h
        subst h
        obtain ⟨h1, h2⟩ := ih hrec
        exact ⟨by simp only [Cursor.toList] at h1 ⊢; simp [h1], h2⟩

theorem recalc_prev_of_mem {t : Nat} : ∀ {fl : List free_block_t} {f : free_block_t},
    f ∈ fl → f.addr = t → ∃ c, recalc_prev t fl = .ok c := by
  intro fl
  induction fl with
  | nil => intro f hf; cases hf
  | cons a l ih =>
    intro f hf ht
    unfold recalc_prev
    by_cases ha : a.addr = t
    · exact ⟨⟨[], a, l⟩, by simp [ha]⟩
    · simp only [ha, if_false]
      rcases List.mem_cons.mp hf with rfl | hf
      · exact absurd ht ha
      · obtain ⟨c, hc⟩ := ih hf ht
        exact ⟨⟨a :: c.before, c.current, c.after⟩, by simp [hc]⟩

theorem recalc_prev_error {t : Nat} : ∀ {fl : List free_block_t} {e : Fault},
    recalc_prev t fl = .error e → e = Fault.null_deref ∧ ∀ f ∈ fl, f.addr ≠ t := by
  intro fl
  induction fl with
  | nil =>
    intro e h
    simp only [recalc_prev, Except.error.injEq] at h
    exact ⟨h.symm, fun f hf => by cases hf⟩
  | cons a l ih =>
    intro e h
    unfold recalc_prev at h
    split at h
    · cases h
    · rename_i hne
      cases hrec : recalc_prev t l with
      | error e' =>
        simp only [hrec, Except.error.injEq] at h
        subst h
        obtain ⟨h1, h2⟩ := ih hrec
        refine ⟨h1, fun f hf => ?_⟩
        rcases List.mem_cons.mp hf with rfl | hf
        · exact hne
        · exact h2 f hf
      | ok c' => simp [hrec] at h

theorem use_block_asc (size : Nat) (c : Cursor) (mapped : Option Nat) (s : GcState)
    (h : Asc c.toList) : Asc (use_block size c mapped s).state.free_list := by
  unfold Asc Cursor.toList at h
  rw [List.pairwise_append, List.pairwise_cons] at h
  obtain ⟨h1, ⟨h2, h3⟩, h4⟩ := h
  unfold use_block
  split
  · simp only
    unfold Asc
    rw [List.pairwise_append, List.pairwise_cons]
    refine ⟨h1, ⟨h2, h3⟩, fun a ha b hb => ?_⟩
    rcases List.mem_cons.mp hb with rfl | hb
    · exact h4 a ha c.current (List.mem_cons_self _ _)
    · exact h4 a ha b (List.mem_cons_of_mem _ hb)
  · simp only
    unfold Asc
    rw [List.pairwise_append]
    exact ⟨h1, h3, fun a ha b hb => h4 a ha b (List.mem_cons_of_mem _ hb)⟩

/-! ## Address partition -/

theorem range_count_append (l1 l2 : List (Nat × Nat)) (x : Nat) :
    range_count (l1 ++ l2) x = range_count l1 x + range_count l2 x := by
  induction l1 with
  | nil => simp [range_count]
  | cons a l ih =>
    show covers _ _ x + range_count (l ++ l2) x = covers _ _ x + range_count l x + range_count l2 x
    rw [ih]; omega

theorem range_count_blocks (bs : List alloc_block_t) (x : Nat) :
    range_count (bs.map block_range) x = alloc_count bs x := by
  induction bs with
  | nil => rfl
  | cons a l ih => simp only [List.map_cons, range_count, alloc_count, ih, block_range]

theorem range_count_spans (fl : List free_block_t) (x : Nat) :
    range_count (fl.map span_range) x = free_count fl x := by
  induction fl with
  | nil => rfl
  | cons a l ih => simp only [List.map_cons, range_count, free_count, ih, span_range]

theorem range_count_heap (s : GcState) (x : Nat) :
    range_count (heap_ranges s) x = heap_count s x := by
  unfold heap_ranges heap_count
  rw [range_count_append, range_count_blocks, range_count_spans]

theorem range_count_eq_zero {rs : List (Nat × Nat)} {x : Nat}
    (h : ∀ r ∈ rs, ¬ (r.1 ≤ x ∧ x < r.2)) : range_count rs x = 0 := by
  induction rs with
  | nil => rfl
  | cons a l ih =>
    have ha := h a (List.mem_cons_self _ _)
    simp only [range_count, covers, ha, if_false, Nat.zero_add]
    exact ih (fun r hr => h r (List.mem_cons_of_mem _ hr))

theorem range_count_pos_of_mem {rs : List (Nat × Nat)} {r : Nat × Nat} {x : Nat}
    (hr : r ∈ rs) (hx : r.1 ≤ x ∧ x < r.2) : 0 < range_count rs x := by
  induction rs with
  | nil => cases hr
  | cons a l ih =>
    simp only [range_count]
    rcases List.mem_cons.mp hr with rfl | hr
    · simp only [covers, hx, and_self, if_true]; omega
    · have := ih hr; omega

theorem count_le_one_of_pairwise {rs : List (Nat × Nat)} (h : rs.Pairwise RangeDisjoint)
    (x : Nat) : range_count rs x ≤ 1 := by
  induction rs with
  | nil => simp [range_count]
  | cons a l ih =>
    rw [List.pairwise_cons] at h
    simp only [range_count]
    by_cases ha : a.1 ≤ x ∧ x < a.2
    · have : range_count l x = 0 := by
        apply range_count_eq_zero
        intro r hr hx
        have hd := h.1 r hr
        unfold RangeDisjoint at hd
        omega
      have := covers_le_one a.1 a.2 x
      omega
    · simp only [covers, ha, if_false, Nat.zero_add]
      exact ih h.2

theorem pairwise_of_count_le_one {rs : List (Nat × Nat)} (hne : ∀ r ∈ rs, r.1 < r.2)
    (h : ∀ x, range_count rs x ≤ 1) : rs.Pairwise RangeDisjoint := by
  induction rs with
  | nil => exact List.Pairwise.nil
  | cons a l ih =>
    rw [List.pairwise_cons]
    refine ⟨fun r hr => ?_, ih (fun r hr => hne r (List.mem_cons_of_mem _ hr))
      (fun x => by have := h x; simp only [range_count] at this; omega)⟩
    unfold RangeDisjoint
    by_contra hcon
    have ha := hne a (List.mem_cons_self _ _)
    have hr' := hne r (List.mem_cons_of_mem _ hr)
    rcases Nat.le_total a.1 r.1 with hle | hle
    · have h1 := h r.1
      have hx : a.1 ≤ r.1 ∧ r.1 < a.2 := ⟨hle, by omega⟩
      simp only [range_count, covers, hx, and_self, if_true] at h1
      have h2 := range_count_pos_of_mem hr (x := r.1) ⟨Nat.le_refl _, hr'⟩
      omega
    · have h1 := h a.1
      have hx : a.1 ≤ a.1 ∧ a.1 < a.2 := ⟨Nat.le_refl _, ha⟩
      simp only [range_count, covers, hx, and_self, if_true] at h1
      have h2 := range_count_pos_of_mem hr (x := a.1) ⟨hle, by omega⟩
      omega

theorem heap_ranges_nonempty (s : GcState) : ∀ r ∈ heap_ranges s, r.1 < r.2 := by
  intro r hr
  unfold heap_ranges at hr
  rcases List.mem_append.mp hr with h | h
  · obtain ⟨b, _, rfl⟩ := List.mem_map.mp h
    simp only [block_range]; omega
  · obtain ⟨f, _, rfl⟩ := List.mem_map.mp h
    simp only [span_range]; omega

theorem partitioned_iff (s : GcState) : Partitioned s ↔ ∀ x, heap_count s x ≤ 1 := by
  constructor
  · intro h x
    rw [← range_count_heap]
    exact count_le_one_of_pairwise h x
  · intro h
    apply pairwise_of_count_le_one (heap_ranges_nonempty s)
    intro x
    rw [range_count_heap]
    exact h x

theorem markMono_alloc_count {bs bs' : List alloc_block_t} (h : MarkMono bs bs') (x : Nat) :
    alloc_count bs' x = alloc_count bs x := by
  induction h with
  | nil => rfl
  | cons hab _ ih =>
    simp only [alloc_count, ih, hab.1, hab.2.1]

theorem sweep_split_count (bs : List alloc_block_t) (x : Nat) :
    alloc_count ((bs.filter (fun b => b.mark ≠ 0)).map clear_mark) x +
      free_count ((bs.filter (fun b => b.mark = 0)).map as_free) x = alloc_count bs x := by
  induction bs with
  | nil => rfl
  | cons a l ih =>
    by_cases ha : a.mark = 0
    · simp only [List.filter_cons, ha, ne_eq, not_true_eq_false, decide_False, decide_True,
        if_true, List.map_cons, free_count, alloc_count, as_free] at ih ⊢
      have h8 : a.addr + 16 + (a.size + 24 - 16) = a.addr + 24 + a.size := by omega
      rw [h8]
      simp only [Bool.false_eq_true, if_false]
      omega
    · simp only [List.filter_cons, ha, ne_eq, not_false_eq_true, decide_False, decide_True,
        if_true, List.map_cons, free_count, alloc_count, clear_mark] at ih ⊢
      simp only [Bool.false_eq_true, if_false]
      omega

theorem gc_sweep_count (s : GcState) (x : Nat) :
    heap_count (gc_sweep s) x = heap_count s x := by
  unfold heap_count gc_sweep
  have hf := congrArg Prod.fst (gc_sweep_loop_free s.alloc_list s)
  simp only at hf
  rw [gc_sweep_loop_alloc, hf, insert_all_count]
  have := sweep_split_count s.alloc_list x
  dsimp only at this ⊢
  omega

theorem gc_collect_count {mem : Nat → Nat} {stack : List Nat} {s s' : GcState}
    (h : gc_collect mem stack s = .ok s') (x : Nat) : heap_count s' x = heap_count s x := by
  obtain ⟨s1, hrun, hext, _, hfr⟩ := gc_mark_stack_spec mem stack s
  simp only [gc_collect, hrun, Except.ok.injEq] at h
  subst h
  have h1 : heap_count (update_threshold (gc_sweep s1)) x = heap_count (gc_sweep s1) x := rfl
  rw [h1, gc_sweep_count]
  unfold heap_count
  rw [markMono_alloc_count hext.1, hfr.1]

/-! ## Allocation and the partition -/

theorem alloc_size_bounds (size : Nat) :
    size ≤ (max (size : Int) MINIMUM_BLOCK_SIZE).toNat ∧
      4096 ≤ (max (size : Int) MINIMUM_BLOCK_SIZE).toNat := by
  unfold max MINIMUM_BLOCK_SIZE
  split <;> omega

theorem use_block_mapped (size : Nat) (c : Cursor) (m : Option Nat) (s : GcState) :
    (use_block size c m s).mapped = m := by
  unfold use_block
  split <;> rfl

theorem use_block_count (size : Nat) (c : Cursor) (m : Option Nat) (s : GcState)
    (hfl : s.free_list = c.toList) (h24 : 24 ≤ size) (hfit : size ≤ c.current.size + 16)
    (x : Nat) : heap_count (use_block size c m s).state x ≤ heap_count s x := by
  unfold heap_count
  rw [hfl]
  unfold use_block Cursor.toList
  split
  · simp only [alloc_count, free_count_append, free_count, covers]
    split <;> split <;> split <;> omega
  · simp only [alloc_count, free_count_append, free_count, covers]
    split <;> split <;> omega

theorem alloc_from_count {base size : Nat} {s : GcState} {r : AllocResult}
    (h : alloc_from base size s = .ok r) (h24 : 24 ≤ size)
    (hbase : ∀ sz, r.mapped = some sz → ∀ f ∈ s.free_list, f.addr ≠ base) (x : Nat) :
    heap_count r.state x ≤ heap_count s x + mapped_cover base r x := by
  unfold alloc_from at h
  cases hfit : find_fit size s.free_list with
  | some c =>
    simp only [hfit, Except.ok.injEq] at h
    subst h
    obtain ⟨hl, hsz, _⟩ := find_fit_some hfit
    have := use_block_count size c none
      { s with bytes_allocated := s.bytes_allocated + size } hl.symm h24 (by omega) x
    have hs : heap_count { s with bytes_allocated := s.bytes_allocated + size } x =
        heap_count s x := rfl
    omega
  | none =>
    simp only [hfit] at h
    cases hrec : recalc_prev base
        (insert_into_free s.free_list s.free_list_size
          { addr := base, size := (max size MINIMUM_BLOCK_SIZE).toNat - 16 }).1 with
    | error e => simp [hrec] at h
    | ok c =>
      simp only [hrec, Except.ok.injEq] at h
      subst h
      obtain ⟨hl, haddr⟩ := recalc_prev_ok hrec
      obtain ⟨hA1, hA2⟩ := alloc_size_bounds size
      have hne := hbase _ (use_block_mapped _ _ _ _)
      have hcur : c.current ∈ c.toList := by simp [Cursor.toList]
      rw [hl] at hcur
      obtain ⟨f, hf, hfa, hfs⟩ := insert_into_free_mem _ _ _ _ hcur
      have hfnew : f = { addr := base, size := (max size MINIMUM_BLOCK_SIZE).toNat - 16 } := by
        rcases List.mem_cons.mp hf with rfl | hf
        · rfl
        · exact absurd (hfa.trans haddr) (hne f hf)
      subst hfnew
      simp only at hfs
      have := use_block_count size c (some (max size MINIMUM_BLOCK_SIZE).toNat)
        { s with
          bytes_allocated := s.bytes_allocated + size
          free_list := (insert_into_free s.free_list s.free_list_size
            { addr := base, size := (max size MINIMUM_BLOCK_SIZE).toNat - 16 }).1
          free_list_size := (insert_into_free s.free_list s.free_list_size
            { addr := base, size := (max size MINIMUM_BLOCK_SIZE).toNat - 16 }).2 }
        hl.symm h24 (by omega) x
      refine Nat.le_trans this ?_
      unfold heap_count mapped_cover
      rw [use_block_mapped]
      simp only [insert_into_free_count, free_count]
      have h16 : base + 16 + ((max (size : Int) MINIMUM_BLOCK_SIZE).toNat - 16) =
          base + (max (size : Int) MINIMUM_BLOCK_SIZE).toNat := by omega
      rw [h16]
      omega

theorem alloc_from_mapped {base size : Nat} {s : GcState} {r : AllocResult}
    (h : alloc_from base size s = .ok r) :
    (r.mapped = none ∧ ∃ c, find_fit size s.free_list = some c) ∨
      (r.mapped = some (max (size : Int) MINIMUM_BLOCK_SIZE).toNat ∧
        find_fit size s.free_list = none) := by
  unfold alloc_from at h
  cases hfit : find_fit size s.free_list with
  | some c =>
    simp only [hfit, Except.ok.injEq] at h
    subst h
    exact Or.inl ⟨use_block_mapped _ _ _ _, c, rfl⟩
  | none =>
    simp only [hfit] at h
    cases hrec : recalc_prev base
        (insert_into_free s.free_list s.free_list_size
          { addr := base, size := (max size MINIMUM_BLOCK_SIZE).toNat - 16 }).1 with
    | error e => simp [hrec] at h
    | ok c =>
      simp only [hrec, Except.ok.injEq] at h
      subst h
      exact Or.inr ⟨use_block_mapped _ _ _ _, rfl⟩

/-- The state in which `gc_alloc` runs its search: the entry state, or the
state after the collection when the threshold was exceeded. -/
theorem gc_alloc_cases {mem : Nat → Nat} {stack : List Nat} {base n : Nat} {s : GcState}
    {r : AllocResult} (h : gc_alloc mem stack base n s = .ok r) :
    ∃ s1, alloc_from base (n + 24) s1 = .ok r ∧
      ((¬ s.bytes_allocated > s.trigger_threshold ∧ s1 = s) ∨
        (s.bytes_allocated > s.trigger_threshold ∧ gc_collect mem stack s = .ok s1)) := by
  unfold gc_alloc at h
  split at h
  · rename_i hgt
    cases hc : gc_collect mem stack s with
    | error e => simp [hc] at h
    | ok s1 =>
      simp only [hc] at h
      exact ⟨s1, h, Or.inr ⟨hgt, rfl⟩⟩
  · rename_i hgt
    exact ⟨s, h, Or.inl ⟨hgt, rfl⟩⟩

theorem accounted_free_addr {s : GcState} {maps : List (Nat × Nat)} (hacc : Accounted s maps)
    {base sz : Nat} (hsz : 0 < sz) (hdis : ∀ m ∈ maps, RangeDisjoint (base, base + sz) m) :
    ∀ f ∈ s.free_list, f.addr ≠ base := by
  intro f hf heq
  have h0 : range_count maps base = 0 := by
    apply range_count_eq_zero
    intro m hm hx
    have := hdis m hm
    unfold RangeDisjoint at this
    simp only at this
    omega
  have h1 := free_count_pos_of_mem hf (x := base) ⟨by omega, by omega⟩
  have h2 := (hacc base).1
  unfold heap_count at h2
  omega

theorem gc_alloc_accounted {mem : Nat → Nat} {stack : List Nat} {base n : Nat} {s : GcState}
    {r : AllocResult} {maps : List (Nat × Nat)} (h : gc_alloc mem stack base n s = .ok r)
    (hacc : Accounted s maps)
    (hdis : ∀ sz, r.mapped = some sz → ∀ m ∈ maps, RangeDisjoint (base, base + sz) m) :
    Accounted r.state (new_regions base r maps) := by
  obtain ⟨s1, hfrom, hs1⟩ := gc_alloc_cases h
  have hacc1 : Accounted s1 maps := by
    rcases hs1 with ⟨_, rfl⟩ | ⟨_, hc⟩
    · exact hacc
    · intro x
      rw [gc_collect_count hc x]
      exact hacc x
  have hmapped := alloc_from_mapped hfrom
  have hbase : ∀ sz, r.mapped = some sz → ∀ f ∈ s1.free_list, f.addr ≠ base := by
    intro sz hsz
    have hpos : 0 < sz := by
      rcases hmapped with ⟨hn, _⟩ | ⟨hm, _⟩
      · rw [hn] at hsz; cases hsz
      · rw [hm] at hsz
        simp only [Option.some.injEq] at hsz
        have := (alloc_size_bounds (n + 24)).2
        omega
    exact accounted_free_addr hacc1 hpos (hdis sz hsz)
  intro x
  have hcount := alloc_from_count hfrom (by omega) hbase x
  have hx := hacc1 x
  unfold new_regions
  unfold mapped_cover at hcount
  cases hm : r.mapped with
  | none =>
    simp only [hm] at hcount ⊢
    exact ⟨by omega, hx.2⟩
  | some sz =>
    simp only [hm, range_count] at hcount ⊢
    refine ⟨by omega, ?_⟩
    by_cases hin : base ≤ x ∧ x < base + sz
    · have h0 : range_count maps x = 0 := by
        apply range_count_eq_zero
        intro m hmm hxm
        have := hdis sz hm m hmm
        unfold RangeDisjoint at this
        simp only at this
        omega
      have := covers_le_one base (base + sz) x
      omega
    · simp only [covers, hin, if_false]
      omega

theorem reach_accounted {s : GcState} {maps : List (Nat × Nat)} (h : Reach s maps) :
    Accounted s maps := by
  induction h with
  | init => intro x; simp [heap_count, gc_initial, alloc_count, free_count, range_count]
  | alloc mem stack base n _ hrun hdis ih => exact gc_alloc_accounted hrun ih hdis
  | collect mem stack _ hrun ih =>
    intro x
    rw [gc_collect_count hrun x]
    exact ih x

/-- C3: address partition is an invariant of the heap.  In every state
reachable from the initial state by calls of `gc_alloc` and collections, every
mapped region being disjoint from the earlier ones, the byte ranges
`[h, h + 24 + size)` of the blocks of the allocation list and
`[b, b + 16 + size)` of the spans of the free list are pairwise disjoint. -/
theorem reach_partitioned {s : GcState} {maps : List (Nat × Nat)} (h : Reach s maps) :
    Partitioned s := by
  rw [partitioned_iff]
  intro x
  have := reach_accounted h x
  omega

/-! ## Free-list ordering under every operation -/

theorem gc_sweep_asc (s : GcState) (h : Asc s.free_list) (hp : ∀ x, heap_count s x ≤ 1) :
    Asc (gc_sweep s).free_list := by
  unfold gc_sweep
  have hf := congrArg Prod.fst (gc_sweep_loop_free s.alloc_list s)
  simp only at hf
  rw [hf]
  apply insert_all_asc _ _ h
  intro x
  have h1 := sweep_split_count s.alloc_list x
  have h2 := hp x
  unfold heap_count at h2
  dsimp only at h1 ⊢
  omega

theorem gc_collect_asc {mem : Nat → Nat} {stack : List Nat} {s s' : GcState}
    (hrun : gc_collect mem stack s = .ok s') (h : Asc s.free_list)
    (hp : ∀ x, heap_count s x ≤ 1) : Asc s'.free_list := by
  obtain ⟨s1, hmark, hext, _, hfr⟩ := gc_mark_stack_spec mem stack s
  simp only [gc_collect, hmark, Except.ok.injEq] at hrun
  subst hrun
  show Asc (gc_sweep s1).free_list
  apply gc_sweep_asc
  · rw [hfr.1]; exact h
  · intro x
    have := hp x
    unfold heap_count at this ⊢
    rw [markMono_alloc_count hext.1, hfr.1]
    exact this

theorem alloc_from_asc {base size : Nat} {s : GcState} {r : AllocResult}
    (hrun : alloc_from base size s = .ok r) (h : Asc s.free_list)
    (hbase : ∀ sz, r.mapped = some sz → ∀ f ∈ s.free_list, f.addr ≠ base) :
    Asc r.state.free_list := by
  unfold alloc_from at hrun
  cases hfit : find_fit size s.free_list with
  | some c =>
    simp only [hfit, Except.ok.injEq] at hrun
    subst hrun
    apply use_block_asc
    rw [(find_fit_some hfit).1]
    exact h
  | none =>
    simp only [hfit] at hrun
    cases hrec : recalc_prev base
        (insert_into_free s.free_list s.free_list_size
          { addr := base, size := (max size MINIMUM_BLOCK_SIZE).toNat - 16 }).1 with
    | error e => simp [hrec] at hrun
    | ok c =>
      simp only [hrec, Except.ok.injEq] at hrun
      subst hrun
      apply use_block_asc
      rw [(recalc_prev_ok hrec).1]
      exact insert_into_free_asc _ _ _ h (hbase _ (use_block_mapped _ _ _ _))

theorem heap_count_zero_of_disjoint {s : GcState} {lo hi x : Nat}
    (hdis : ∀ rg ∈ heap_ranges s, RangeDisjoint (lo, hi) rg) (hx : lo ≤ x ∧ x < hi) :
    heap_count s x = 0 := by
  rw [← range_count_heap]
  apply range_count_eq_zero
  intro rg hrg hin
  have := hdis rg hrg
  unfold RangeDisjoint at this
  simp only at this
  omega

theorem gc_alloc_asc {mem : Nat → Nat} {stack : List Nat} {base n : Nat} {s : GcState}
    {r : AllocResult} (hrun : gc_alloc mem stack base n s = .ok r) (h : Asc s.free_list)
    (hp : ∀ x, heap_count s x ≤ 1)
    (hdis : ∀ sz, r.mapped = some sz →
      ∀ rg ∈ heap_ranges s, RangeDisjoint (base, base + sz) rg) :
    Asc r.state.free_list := by
  obtain ⟨s1, hfrom, hs1⟩ := gc_alloc_cases hrun
  have h1 : Asc s1.free_list ∧ ∀ x, heap_count s1 x = heap_count s x := by
    rcases hs1 with ⟨_, rfl⟩ | ⟨_, hc⟩
    · exact ⟨h, fun _ => rfl⟩
    · exact ⟨gc_collect_asc hc h hp, fun x => gc_collect_count hc x⟩
  apply alloc_from_asc hfrom h1.1
  intro sz hsz f hf heq
  have hpos : 0 < sz := by
    rcases alloc_from_mapped hfrom with ⟨hn, _⟩ | ⟨hm, _⟩
    · rw [hn] at hsz; cases hsz
    · rw [hm] at hsz
      simp only [Option.some.injEq] at hsz
      have := (alloc_size_bounds (n + 24)).2
      omega
  have h0 := heap_count_zero_of_disjoint (hdis sz hsz) (x := base) ⟨Nat.le_refl _, by omega⟩
  have h2 := free_count_pos_of_mem hf (x := base) ⟨by omega, by omega⟩
  have h3 := h1.2 base
  unfold heap_count at h0 h3
  omega

/-- C4: free-list ordering is preserved by every operation.  With the free
list strictly ascending by base address: (1) `insert_into_free` of a span
disjoint from every span of the list, merge step included, (2) the split or
removal performed by `gc_alloc` at any position of the list, (3) `gc_sweep` on
a partitioned heap and (4) a whole call of `gc_alloc` on a partitioned heap
whose newly mapped region, if any, is disjoint from the heap, all leave every
adjacent pair `(a, b)` of the free list with `address(a) < address(b)`. -/
theorem free_list_order_preserved :
    (∀ (fl : List free_block_t) (n : Int) (block : free_block_t),
      AddrSorted fl → (∀ f ∈ fl, SpanDisjoint block f) →
        AddrSorted (insert_into_free fl n block).1) ∧
    (∀ (size : Nat) (c : Cursor) (mapped : Option Nat) (s : GcState),
      AddrSorted (c.before ++ c.current :: c.after) →
        AddrSorted (use_block size c mapped s).state.free_list) ∧
    (∀ s : GcState, AddrSorted s.free_list → Partitioned s →
      AddrSorted (gc_sweep s).free_list) ∧
    (∀ (mem : Nat → Nat) (stack : List Nat) (base n : Nat) (s : GcState) (r : AllocResult),
      AddrSorted s.free_list → Partitioned s →
      (∀ sz, r.mapped = some sz → ∀ rg ∈ heap_ranges s, RangeDisjoint (base, base + sz) rg) →
      gc_alloc mem stack base n s = .ok r → AddrSorted r.state.free_list) := by
  refine ⟨?_, ?_, ?_, ?_⟩
  · intro fl n block h hdis
    rw [addrSorted_iff_asc] at h ⊢
    apply insert_into_free_asc _ _ _ h
    intro f hf heq
    have := hdis f hf
    unfold SpanDisjoint at this
    omega
  · intro size c mapped s h
    rw [addrSorted_iff_asc] at h ⊢
    exact use_block_asc size c mapped s h
  · intro s h hp
    rw [addrSorted_iff_asc] at h ⊢
    exact gc_sweep_asc s h ((partitioned_iff s).mp hp)
  · intro mem stack base n s r h hp hdis hrun
    rw [addrSorted_iff_asc] at h ⊢
    exact gc_alloc_asc hrun h ((partitioned_iff s).mp hp) hdis

/-! ## What the sweep reclaims -/

theorem alloc_from_head {base size : Nat} {s : GcState} {r : AllocResult}
    (h : alloc_from base size s = .ok r) :
    ∃ hdr, r.state.alloc_list = { addr := hdr, mark := 0, size := size - 24 } :: s.alloc_list ∧
      r.ptr = hdr + 24 := by
  have huse : ∀ (c : Cursor) (m : Option Nat) (t : GcState), t.alloc_list = s.alloc_list →
      ∃ hdr, (use_block size c m t).state.alloc_list =
        { addr := hdr, mark := 0, size := size - 24 } :: s.alloc_list ∧
        (use_block size c m t).ptr = hdr + 24 := by
    intro c m t ht
    unfold use_block
    split
    · exact ⟨_, by simp only [ht], rfl⟩
    · exact ⟨_, by simp only [ht], rfl⟩
  unfold alloc_from at h
  cases hfit : find_fit size s.free_list with
  | some c =>
    simp only [hfit, Except.ok.injEq] at h
    subst h
    exact huse c none _ rfl
  | none =>
    simp only [hfit] at h
    cases hrec : recalc_prev base
        (insert_into_free s.free_list s.free_list_size
          { addr := base, size := (max size MINIMUM_BLOCK_SIZE).toNat - 16 }).1 with
    | error e => simp [hrec] at h
    | ok c =>
      simp only [hrec, Except.ok.injEq] at h
      subst h
      exact huse c _ _ rfl

theorem gc_sweep_marks (s : GcState) : ∀ b ∈ (gc_sweep s).alloc_list, b.mark = 0 := by
  intro b hb
  unfold gc_sweep at hb
  rw [gc_sweep_loop_alloc] at hb
  obtain ⟨b0, _, rfl⟩ := List.mem_map.mp hb
  rfl

theorem gc_collect_marks (mem : Nat → Nat) (stack : List Nat) (s : GcState) :
    ∃ s', gc_collect mem stack s = .ok s' ∧ ∀ b ∈ s'.alloc_list, b.mark = 0 := by
  obtain ⟨s1, hrun, _⟩ := gc_mark_stack_spec mem stack s
  exact ⟨update_threshold (gc_sweep s1), by simp [gc_collect, hrun],
    fun b hb => gc_sweep_marks s1 b hb⟩

theorem gc_alloc_error {mem : Nat → Nat} {stack : List Nat} {base n : Nat} {s : GcState}
    {e : Fault} (h : gc_alloc mem stack base n s = .error e) : e = Fault.null_deref := by
  have hfrom : ∀ size s1, alloc_from base size s1 = .error e → e = Fault.null_deref := by
    intro size s1 h1
    unfold alloc_from at h1
    cases hfit : find_fit size s1.free_list with
    | some c => simp [hfit] at h1
    | none =>
      simp only [hfit] at h1
      cases hrec : recalc_prev base
          (insert_into_free s1.free_list s1.free_list_size
            { addr := base, size := (max size MINIMUM_BLOCK_SIZE).toNat - 16 }).1 with
      | error e' =>
        simp only [hrec, Except.error.injEq] at h1
        subst h1
        exact (recalc_prev_error hrec).1
      | ok c => simp [hrec] at h1
  unfold gc_alloc at h
  split at h
  · obtain ⟨s', hs', _⟩ := gc_collect_marks mem stack s
    simp only [hs'] at h
    exact hfrom _ s' h
  · exact hfrom _ s h

/-- C9: sweep reclaims exactly the unmarked blocks and accounts for them.
After `gc_sweep` the allocation list is the list of the blocks whose mark was
not 0 (mark = 1 when marks are 0 or 1), in their order, sizes unchanged, marks
cleared; `bytes_allocated` has decreased by the sum of `size + 24` over the
blocks with mark 0; the free list is the result of inserting, in list order,
a free span at `h` of size `size + 24 - 16` for each block with mark 0; and
every byte of `[h, h + 24 + size)` of such a block lies in a span of the
resulting free list. -/
theorem gc_sweep_reclaims_unmarked (s : GcState) :
    (gc_sweep s).alloc_list =
      (s.alloc_list.filter (fun b => b.mark ≠ 0)).map (fun b => { b with mark := 0 }) ∧
    ((∀ b ∈ s.alloc_list, b.mark = 0 ∨ b.mark = 1) →
      (gc_sweep s).alloc_list =
        (s.alloc_list.filter (fun b => b.mark = 1)).map (fun b => { b with mark := 0 })) ∧
    (gc_sweep s).bytes_allocated =
      s.bytes_allocated -
        ((s.alloc_list.filter (fun b => b.mark = 0)).map
          (fun b => ((b.size + 24 : Nat) : Int))).sum ∧
    ((gc_sweep s).free_list, (gc_sweep s).free_list_size) =
      insert_all (s.free_list, s.free_list_size)
        ((s.alloc_list.filter (fun b => b.mark = 0)).map
          (fun b => { addr := b.addr, size := b.size + 24 - 16 })) ∧
    (∀ b ∈ s.alloc_list, b.mark = 0 → ∀ x, b.addr ≤ x → x < b.addr + 24 + b.size →
      ∃ f ∈ (gc_sweep s).free_list, f.addr ≤ x ∧ x < f.addr + 16 + f.size) := by
  have halloc : (gc_sweep s).alloc_list =
      (s.alloc_list.filter (fun b => b.mark ≠ 0)).map (fun b => { b with mark := 0 }) :=
    gc_sweep_loop_alloc s.alloc_list s
  refine ⟨halloc, ?_, gc_sweep_loop_bytes s.alloc_list s, gc_sweep_loop_free s.alloc_list s, ?_⟩
  · intro hbit
    rw [halloc]
    congr 1
    apply List.filter_congr
    intro b hb
    have := hbit b hb
    by_cases h1 : b.mark = 1
    · simp [h1]
    · have h0 : b.mark = 0 := by omega
      simp [h0]
  · intro b hb hm x hlo hhi
    apply exists_of_free_count_pos
    have hf := congrArg Prod.fst (gc_sweep_loop_free s.alloc_list s)
    simp only at hf
    unfold gc_sweep
    rw [hf, insert_all_count]
    have hmem : as_free b ∈ (s.alloc_list.filter (fun b => b.mark = 0)).map as_free := by
      apply List.mem_map_of_mem
      simp [List.mem_filter, hb, hm]
    have := free_count_pos_of_mem hmem (x := x)
      ⟨by simp only [as_free]; omega, by simp only [as_free]; omega⟩
    omega

/-- C10: marks are clear outside a collection.  After `gc_sweep`, and after
`gc_collect` (which always returns), every block of the allocation list has
mark 0; the block laid down by `gc_alloc`, whose payload address is returned,
is the new head of the allocation list with mark 0 and the requested size; and
if all marks are 0 when `gc_alloc` is entered, all marks are 0 when it
returns. -/
theorem marks_clear_outside_collection :
    (∀ s : GcState, ∀ b ∈ (gc_sweep s).alloc_list, b.mark = 0) ∧
    (∀ (mem : Nat → Nat) (stack : List Nat) (s : GcState),
      ∃ s', gc_collect mem stack s = .ok s' ∧ ∀ b ∈ s'.alloc_list, b.mark = 0) ∧
    (∀ (mem : Nat → Nat) (stack : List Nat) (base n : Nat) (s : GcState) (r : AllocResult),
      gc_alloc mem stack base n s = .ok r →
        ∃ hdr, r.state.alloc_list.head? = some { addr := hdr, mark := 0, size := n } ∧
          r.ptr = hdr + 24) ∧
    (∀ (mem : Nat → Nat) (stack : List Nat) (base n : Nat) (s : GcState) (r : AllocResult),
      (∀ b ∈ s.alloc_list, b.mark = 0) → gc_alloc mem stack base n s = .ok r →
        ∀ b ∈ r.state.alloc_list, b.mark = 0) := by
  refine ⟨gc_sweep_marks, gc_collect_marks, ?_, ?_⟩
  · intro mem stack base n s r hrun
    obtain ⟨s1, hfrom, _⟩ := gc_alloc_cases hrun
    obtain ⟨hdr, hl, hp⟩ := alloc_from_head hfrom
    exact ⟨hdr, by rw [hl]; simp, hp⟩
  · intro mem stack base n s r hzero hrun
    obtain ⟨s1, hfrom, hs1⟩ := gc_alloc_cases hrun
    obtain ⟨hdr, hl, _⟩ := alloc_from_head hfrom
    have h1 : ∀ b ∈ s1.alloc_list, b.mark = 0 := by
      rcases hs1 with ⟨_, rfl⟩ | ⟨_, hc⟩
      · exact hzero
      · obtain ⟨s', hs', hm⟩ := gc_collect_marks mem stack s
        rw [hc] at hs'
        simp only [Except.ok.injEq] at hs'
        subst hs'
        exact hm
    intro b hb
    rw [hl] at hb
    rcases List.mem_cons.mp hb with rfl | hb
    · rfl
    · exact h1 b hb

/-! ## Concrete heaps -/

theorem gc_collect_keeps_reachable_witness :
    ((heap_three_blocks.alloc_list.map (fun b => b.addr)).Nodup ∧
      ∀ b ∈ heap_three_blocks.alloc_list, b.mark = 0) ∧
    ∃ s', gc_collect mem_one_pointer [1024] heap_three_blocks = .ok s' ∧
      ∀ b, Reachable mem_one_pointer [1024] heap_three_blocks.alloc_list b →
        b ∈ s'.alloc_list :=
  ⟨⟨by decide, by decide⟩,
    gc_collect_keeps_reachable mem_one_pointer [1024] heap_three_blocks (by decide) (by decide)⟩

theorem gc_alloc_fresh_witness :
    16 + 24 < 4080 ∧
    (gc_alloc mem_one_pointer [] 65536 16 gc_initial =
      .ok { ptr := 65536 + 4096 - 16
            state := { gc_initial with
              alloc_list := [{ addr := 65536 + 4096 - (16 + 24), mark := 0, size := 16 }]
              free_list := [{ addr := 65536, size := 4096 - 16 - (16 + 24) }]
              free_list_size := 1
              bytes_allocated := ((16 : Nat) : Int) + 24 }
            mapped := some 4096 } ∧ 65536 + 4096 - 16 ≠ 0) :=
  ⟨by decide, gc_alloc_fresh mem_one_pointer [] 65536 16 (by decide)⟩

theorem reach_partitioned_witness :
    Reach heap_after_first_alloc [(65536, 65536 + 4096)] ∧
      Partitioned heap_after_first_alloc :=
  have h : Reach heap_after_first_alloc [(65536, 65536 + 4096)] :=
    Reach.alloc mem_one_pointer [] 65536 16 Reach.init
      (rfl : gc_alloc mem_one_pointer [] 65536 16 gc_initial =
        .ok ⟨65536 + 4096 - 16, heap_after_first_alloc, some 4096⟩)
      (fun _ _ m hm => absurd hm (List.not_mem_nil m))
  ⟨h, reach_partitioned h⟩

theorem free_list_order_preserved_witness :
    (AddrSorted [⟨4096, 3960⟩, ⟨8152, 24⟩] ∧
      (∀ f ∈ [(⟨4096, 3960⟩ : free_block_t), ⟨8152, 24⟩], SpanDisjoint ⟨8112, 24⟩ f) ∧
      AddrSorted (insert_into_free [⟨4096, 3960⟩, ⟨8152, 24⟩] 2 ⟨8112, 24⟩).1) ∧
    AddrSorted (use_block 40 ⟨[⟨4096, 3960⟩], ⟨8112, 24⟩, [⟨8152, 24⟩]⟩ none
      heap_after_first_sweep).state.free_list ∧
    (Partitioned heap_after_first_sweep ∧
      AddrSorted (gc_sweep heap_after_first_sweep).free_list) ∧
    AddrSorted heap_after_first_alloc.free_list :=
  ⟨⟨by simp [AddrSorted, heap_after_first_sweep, heap_one_free_page, gc_initial], by simp [SpanDisjoint],
      free_list_order_preserved.1 [⟨4096, 3960⟩, ⟨8152, 24⟩] 2 ⟨8112, 24⟩
        (by simp [AddrSorted, heap_after_first_sweep, heap_one_free_page, gc_initial]) (by simp [SpanDisjoint])⟩,
    free_list_order_preserved.2.1 40 ⟨[⟨4096, 3960⟩], ⟨8112, 24⟩, [⟨8152, 24⟩]⟩ none
      heap_after_first_sweep (by simp [AddrSorted, heap_after_first_sweep, heap_one_free_page, gc_initial]),
    ⟨by simp [Partitioned, heap_ranges, heap_after_first_sweep, gc_initial, block_range,
        span_range, RangeDisjoint],
      free_list_order_preserved.2.2.1 heap_after_first_sweep (by simp [AddrSorted, heap_after_first_sweep, heap_one_free_page, gc_initial])
        (by simp [Partitioned, heap_ranges, heap_after_first_sweep, gc_initial, block_range,
          span_range, RangeDisjoint])⟩,
    free_list_order_preserved.2.2.2 mem_one_pointer [] 65536 16 gc_initial
      ⟨65536 + 4096 - 16, heap_after_first_alloc, some 4096⟩
      (by simp [AddrSorted, heap_after_first_sweep, heap_one_free_page, gc_initial])
      (by simp [Partitioned, heap_ranges, gc_initial])
      (by simp [heap_ranges, gc_initial]) rfl⟩

theorem gc_sweep_reclaims_unmarked_witness :
    (∀ b ∈ heap_after_first_sweep.alloc_list, b.mark = 0 ∨ b.mark = 1) ∧
    (gc_sweep heap_after_first_sweep).alloc_list = [⟨8072, 0, 16⟩] ∧
    (gc_sweep heap_after_first_sweep).bytes_allocated = -40 ∧
    ∃ f ∈ (gc_sweep heap_after_first_sweep).free_list, f.addr ≤ 8151 ∧ 8151 < f.addr + 16 + f.size :=
  ⟨by decide,
    (gc_sweep_reclaims_unmarked heap_after_first_sweep).2.1 (by decide),
    (gc_sweep_reclaims_unmarked heap_after_first_sweep).2.2.1,
    (gc_sweep_reclaims_unmarked heap_after_first_sweep).2.2.2.2 ⟨8112, 0, 16⟩ (by decide) rfl
      8151 (by decide) (by decide)⟩

theorem marks_clear_outside_collection_witness :
    (∀ b ∈ gc_initial.alloc_list, b.mark = 0) ∧
    (∃ hdr, heap_after_first_alloc.alloc_list.head? = some { addr := hdr, mark := 0, size := 16 } ∧
      65536 + 4096 - 16 = hdr + 24) ∧
    ∀ b ∈ heap_after_first_alloc.alloc_list, b.mark = 0 :=
  ⟨by decide,
    marks_clear_outside_collection.2.2.1 mem_one_pointer [] 65536 16 gc_initial
      ⟨65536 + 4096 - 16, heap_after_first_alloc, some 4096⟩ rfl,
    marks_clear_outside_collection.2.2.2 mem_one_pointer [] 65536 16 gc_initial
      ⟨65536 + 4096 - 16, heap_after_first_alloc, some 4096⟩ (by decide) rfl⟩

/-! ## Where the code departs from the specification -/

/-- C5 (the code at a failing input): the free list `[(4096, 3960), (8152, 24)]`
is address-sorted with no adjacent spans and the span `(8112, 24)` is disjoint
from it and ends exactly at 8152.  `insert_into_free` links it after
`(4096, 3960)` and calls `merge` on that predecessor only, so the result keeps
the adjacent pair `(8112, 24)`, `(8152, 24)`; the same happens inside
`gc_sweep` when the block at 8112 is reclaimed. -/
theorem insert_into_free_leaves_adjacent :
    AddrSorted [⟨4096, 3960⟩, ⟨8152, 24⟩] ∧ NoAdjacent [⟨4096, 3960⟩, ⟨8152, 24⟩] ∧
    (∀ f ∈ [(⟨4096, 3960⟩ : free_block_t), ⟨8152, 24⟩], SpanDisjoint ⟨8112, 24⟩ f) ∧
    insert_into_free [⟨4096, 3960⟩, ⟨8152, 24⟩] 2 ⟨8112, 24⟩ =
      ([⟨4096, 3960⟩, ⟨8112, 24⟩, ⟨8152, 24⟩], 3) ∧
    ¬ NoAdjacent (insert_into_free [⟨4096, 3960⟩, ⟨8152, 24⟩] 2 ⟨8112, 24⟩).1 ∧
    (gc_sweep heap_after_first_sweep).free_list =
      [⟨4096, 3960⟩, ⟨8112, 24⟩, ⟨8152, 24⟩] ∧
    ¬ NoAdjacent (gc_sweep heap_after_first_sweep).free_list := by
  have h1 : insert_into_free [⟨4096, 3960⟩, ⟨8152, 24⟩] 2 ⟨8112, 24⟩ =
      ([⟨4096, 3960⟩, ⟨8112, 24⟩, ⟨8152, 24⟩], 3) := by decide
  have h2 : (gc_sweep heap_after_first_sweep).free_list =
      [⟨4096, 3960⟩, ⟨8112, 24⟩, ⟨8152, 24⟩] := by decide
  refine ⟨by simp [AddrSorted], by simp [NoAdjacent], by simp [SpanDisjoint], h1, ?_, h2, ?_⟩
  · rw [h1]; simp [NoAdjacent]
  · rw [h2]; simp [NoAdjacent]

/-- C6 (the code at a failing input): the free list is the single span
`(4096, 4080)`, which ends at 8192; `gc_alloc(5000)` finds no fit and the
mapper returns the region `[8192, 8192 + 5024)`, disjoint from the span and
starting at its end.  `insert_into_free` absorbs the new header into the span
at 4096, `current` still points at 8192, and the walk that recalculates `prev`
runs off the end of the list: a null-pointer dereference, no address is
returned. -/
theorem gc_alloc_absorbed_mapping_faults :
    AddrSorted heap_one_free_page.free_list ∧ NoAdjacent heap_one_free_page.free_list ∧
    (∀ f ∈ heap_one_free_page.free_list, f.size < 5000 + 24) ∧
    (∀ f ∈ heap_one_free_page.free_list, SpanDisjoint ⟨8192, 5024 - 16⟩ f) ∧
    (insert_into_free heap_one_free_page.free_list 1 ⟨8192, 5024 - 16⟩).1 = [⟨4096, 9104⟩] ∧
    gc_alloc mem_one_pointer [] 8192 5000 heap_one_free_page = .error Fault.null_deref := by
  refine ⟨by simp [AddrSorted, heap_one_free_page, gc_initial],
    by simp [NoAdjacent, heap_one_free_page, gc_initial], by decide,
    by simp [SpanDisjoint, heap_one_free_page, gc_initial], by decide, rfl⟩

/-- C7 (the code at a failing input): from the single free span
`S = (4096, 4080)` and an empty allocation list, one call `gc_alloc(4056)`
(`1 * (4056 + 24) <= 4080`) is served from `S` without a mapping; it takes the
whole span but records a block of `4056 + 24` bytes, and sweeping that
unmarked block gives the free list `[(4096, 4064)]`, not `[S]`.  Likewise two
calls `gc_alloc(2016)` end, after the sweep, in two spans. -/
theorem alloc_then_sweep_loses_header :
    gc_alloc mem_one_pointer [] 0 4056 heap_one_free_page =
      .ok { ptr := 4096 + 24
            state := { heap_one_free_page with
              alloc_list := [⟨4096, 0, 4056⟩], free_list := [], free_list_size := 0
              bytes_allocated := 4080 }
            mapped := none } ∧
    (gc_sweep { heap_one_free_page with
        alloc_list := [⟨4096, 0, 4056⟩], free_list := [], free_list_size := 0
        bytes_allocated := 4080 }).alloc_list = [] ∧
    (gc_sweep { heap_one_free_page with
        alloc_list := [⟨4096, 0, 4056⟩], free_list := [], free_list_size := 0
        bytes_allocated := 4080 }).free_list = [⟨4096, 4064⟩] ∧
    (∃ r1 r2, gc_alloc mem_one_pointer [] 0 2016 heap_one_free_page = .ok r1 ∧
      r1.mapped = none ∧ gc_alloc mem_one_pointer [] 0 2016 r1.state = .ok r2 ∧
      r2.mapped = none ∧ (gc_sweep r2.state).alloc_list = [] ∧
      (gc_sweep r2.state).free_list = [⟨4096, 2024⟩, ⟨6152, 2024⟩]) := by
  refine ⟨rfl, by decide, by decide, ?_⟩
  exact ⟨_, _, rfl, rfl, rfl, rfl, by decide, by decide⟩

/-- C8 (the code at a failing input): the pairwise disjoint spans
`(4096, 3960)`, `(8112, 24)` and `(8152, 24)` inserted into the empty free
list give three spans in the order 4096, 8152, 8112 and two spans (the last
two coalesced) in the order 4096, 8112, 8152. -/
theorem insertion_order_changes_free_list :
    List.Pairwise SpanDisjoint [⟨4096, 3960⟩, ⟨8112, 24⟩, ⟨8152, 24⟩] ∧
    (insert_all ([], 0) [⟨4096, 3960⟩, ⟨8152, 24⟩, ⟨8112, 24⟩]).1 =
      [⟨4096, 3960⟩, ⟨8112, 24⟩, ⟨8152, 24⟩] ∧
    (insert_all ([], 0) [⟨4096, 3960⟩, ⟨8112, 24⟩, ⟨8152, 24⟩]).1 =
      [⟨4096, 3960⟩, ⟨8112, 64⟩] ∧
    (insert_all ([], 0) [⟨4096, 3960⟩, ⟨8152, 24⟩, ⟨8112, 24⟩]).1 ≠
      (insert_all ([], 0) [⟨4096, 3960⟩, ⟨8112, 24⟩, ⟨8152, 24⟩]).1 := by
  refine ⟨by simp [SpanDisjoint], by decide, by decide, by decide⟩

/-! ## Allocate, then collect -/

theorem gc_alloc_split_single (mem : Nat → Nat) (stack : List Nat) (base k : Nat)
    (s : GcState) (a sz : Nat) (hfl : s.free_list = [⟨a, sz⟩]) (hsz : k + 24 < sz)
    (hth : s.bytes_allocated ≤ s.trigger_threshold) :
    gc_alloc mem stack base k s =
      .ok { ptr := a + sz + 16 - (k + 24) + 24
            state := { s with
              free_list := [⟨a, sz - (k + 24)⟩]
              alloc_list := ⟨a + sz + 16 - (k + 24), 0, k⟩ :: s.alloc_list
              bytes_allocated := s.bytes_allocated + ((k + 24 : Nat) : Int) }
            mapped := none } := by
  have hnot : ¬ s.bytes_allocated > s.trigger_threshold := by omega
  have hge : sz ≥ k + 24 := by omega
  simp only [gc_alloc, hnot, if_false, alloc_from, hfl, find_fit, hge, if_true, use_block,
    gt_iff_lt, hsz, List.nil_append, Nat.add_sub_cancel]

theorem alloc_repeat_single (mem : Nat → Nat) (stack : List Nat) (base k a sz : Nat)
    (s : GcState) (hfl : s.free_list = [⟨a, sz⟩]) :
    ∀ n : Nat, n * (k + 24) < sz →
      s.bytes_allocated + ((n * (k + 24) : Nat) : Int) ≤
        s.trigger_threshold + ((k + 24 : Nat) : Int) →
      ∃ s', alloc_repeat mem stack base k n s = .ok s' ∧
        s'.free_list = [⟨a, sz - n * (k + 24)⟩] ∧
        s'.alloc_list = carved (a + 16 + sz) k n ++ s.alloc_list ∧
        s'.bytes_allocated = s.bytes_allocated + ((n * (k + 24) : Nat) : Int) ∧
        s'.trigger_threshold = s.trigger_threshold := by
  intro n
  induction n with
  | zero =>
    intro _ _
    exact ⟨s, rfl, by simp [hfl], by simp [carved], by simp, rfl⟩
  | succ n ih =>
    intro hsz hth
    have hm : (n + 1) * (k + 24) = n * (k + 24) + (k + 24) := by ring
    rw [hm] at hsz hth
    obtain ⟨s', hrun, hfree, halloc, hbytes, hthr⟩ := ih (by omega) (by omega)
    have hstep := gc_alloc_split_single mem stack base k s' a (sz - n * (k + 24)) hfree
      (by omega) (by rw [hbytes, hthr]; omega)
    refine ⟨{ s' with
        free_list := [⟨a, sz - n * (k + 24) - (k + 24)⟩]
        alloc_list := ⟨a + (sz - n * (k + 24)) + 16 - (k + 24), 0, k⟩ :: s'.alloc_list
        bytes_allocated := s'.bytes_allocated + ((k + 24 : Nat) : Int) },
      by simp only [alloc_repeat, hrun, hstep], ?_, ?_, ?_, hthr⟩
    · simp only [hm]
      have : sz - n * (k + 24) - (k + 24) = sz - (n * (k + 24) + (k + 24)) := by omega
      rw [this]
    · simp only [halloc, carved, hm, List.cons_append]
      have : a + (sz - n * (k + 24)) + 16 - (k + 24) =
          a + 16 + sz - (n * (k + 24) + (k + 24)) := by omega
      rw [this]
    · simp only [hbytes, hm]
      omega

theorem gc_sweep_loop_carved (e k a : Nat) : ∀ (n : Nat) (s : GcState) (r : Nat),
    s.free_list = [⟨a, r⟩] → a + 16 + r + n * (k + 24) = e →
      (gc_sweep_loop (carved e k n) s).alloc_list = [] ∧
      (gc_sweep_loop (carved e k n) s).free_list = [⟨a, r + n * (k + 24)⟩] := by
  intro n
  induction n with
  | zero =>
    intro s r hfl _
    simp [carved, gc_sweep_loop, hfl]
  | succ n ih =>
    intro s r hfl he
    have hm : (n + 1) * (k + 24) = n * (k + 24) + (k + 24) := by ring
    rw [hm] at he
    have haddr : e - (n * (k + 24) + (k + 24)) = a + 16 + r := by omega
    have hlt : ¬ a + 16 + r < a := by omega
    have hadj : a + r + 16 = a + 16 + r := by omega
    simp only [carved, gc_sweep_loop, if_true, hfl, hm, haddr, insert_into_free, hlt,
      if_false, insert_after, merge, hadj]
    have := ih
      { s with
        bytes_allocated := s.bytes_allocated - ((k + 24 : Nat) : Int)
        free_list := [⟨a, r + (k + 24 - 16 + 16)⟩]
        free_list_size := s.free_list_size + 1 - 1 }
      (r + (k + 24 - 16 + 16)) rfl (by omega)
    have h3 : r + (k + 24 - 16 + 16) + n * (k + 24) = r + (n * (k + 24) + (k + 24)) := by omega
    rw [h3] at this
    exact this

/-- Allocate-then-collect restores the free list when the span is not used up
exactly: from an empty allocation list and the single free span `(a, sz)`,
`n` calls of `gc_alloc(k)` with `n * (k + 24) < sz` (no collection being
triggered on the way) followed by `gc_sweep` with every block unmarked leave
the allocation list empty and the free list equal to `[(a, sz)]`. -/
theorem alloc_then_sweep_restores (mem : Nat → Nat) (stack : List Nat) (base k a sz n : Nat)
    (s : GcState) (hal : s.alloc_list = []) (hfl : s.free_list = [⟨a, sz⟩])
    (hn : n * (k + 24) < sz)
    (hth : s.bytes_allocated + ((n * (k + 24) : Nat) : Int) ≤
      s.trigger_threshold + ((k + 24 : Nat) : Int)) :
    ∃ s', alloc_repeat mem stack base k n s = .ok s' ∧
      (gc_sweep s').alloc_list = [] ∧ (gc_sweep s').free_list = [⟨a, sz⟩] := by
  obtain ⟨s', hrun, hfree, halloc, _, _⟩ :=
    alloc_repeat_single mem stack base k a sz s hfl n hn hth
  refine ⟨s', hrun, ?_⟩
  unfold gc_sweep
  rw [halloc, hal, List.append_nil]
  have := gc_sweep_loop_carved (a + 16 + sz) k a n s' (sz - n * (k + 24)) hfree (by omega)
  have h : sz - n * (k + 24) + n * (k + 24) = sz := by omega
  rw [h] at this
  exact this

/-! ## The miss path when the new region is not absorbed -/

theorem merge_head (rest : List free_block_t) : ∀ (b : free_block_t) (n : Int),
    ∃ y ∈ (merge b rest n).1, y.addr = b.addr := by
  induction rest with
  | nil => intro b n; exact ⟨b, by simp [merge], rfl⟩
  | cons nx rest ih =>
    intro b n
    unfold merge
    split
    · obtain ⟨y, hy, ha⟩ := ih { b with size := b.size + (nx.size + 16) } (n - 1)
      exact ⟨y, hy, ha⟩
    · exact ⟨b, List.mem_cons_self _ _, rfl⟩

theorem insert_after_keeps (blk : free_block_t) : ∀ (rest : List free_block_t)
    (cur : free_block_t) (n : Int),
    (∀ f ∈ cur :: rest, f.addr + 16 + f.size ≠ blk.addr) →
      ∃ y ∈ (insert_after blk cur rest n).1, y.addr = blk.addr := by
  intro rest
  induction rest with
  | nil =>
    intro cur n h
    have hc := h cur (List.mem_cons_self _ _)
    have hne : ¬ cur.addr + cur.size + 16 = blk.addr := by omega
    exact ⟨blk, by simp [insert_after, merge, hne], rfl⟩
  | cons nx rest ih =>
    intro cur n h
    unfold insert_after
    split
    · obtain ⟨y, hy, ha⟩ := ih nx n (fun f hf => h f (List.mem_cons_of_mem _ hf))
      exact ⟨y, List.mem_cons_of_mem _ hy, ha⟩
    · have hc := h cur (List.mem_cons_self _ _)
      have hne : ¬ cur.addr + cur.size + 16 = blk.addr := by omega
      exact ⟨blk, by simp [merge, hne], rfl⟩

theorem insert_into_free_keeps (fl : List free_block_t) (n : Int) (blk : free_block_t)
    (h : ∀ f ∈ fl, f.addr + 16 + f.size ≠ blk.addr) :
    ∃ y ∈ (insert_into_free fl n blk).1, y.addr = blk.addr := by
  unfold insert_into_free
  cases fl with
  | nil => exact merge_head _ _ _
  | cons hd tl =>
    simp only
    split
    · exact merge_head _ _ _
    · exact insert_after_keeps blk tl hd n h

/-- When no free span ends exactly at the base of the region the mapper
returns, the search part of `gc_alloc` returns an address, which is not null
and is the payload address of the new head of the allocation list. -/
theorem alloc_from_returns (base size : Nat) (s : GcState)
    (h : ∀ f ∈ s.free_list, f.addr + 16 + f.size ≠ base) :
    ∃ r, alloc_from base size s = .ok r ∧ r.ptr ≠ 0 ∧
      ∃ hdr, r.state.alloc_list = { addr := hdr, mark := 0, size := size - 24 } :: s.alloc_list ∧
        r.ptr = hdr + 24 := by
  have hok : ∃ r, alloc_from base size s = .ok r := by
    unfold alloc_from
    cases hfit : find_fit size s.free_list with
    | some c => exact ⟨_, rfl⟩
    | none =>
      simp only
      obtain ⟨y, hy, ha⟩ := insert_into_free_keeps s.free_list s.free_list_size
        { addr := base, size := (max size MINIMUM_BLOCK_SIZE).toNat - 16 } h
      obtain ⟨c, hc⟩ := recalc_prev_of_mem hy ha
      simp only at hc
      rw [hc]
      exact ⟨_, rfl⟩
  obtain ⟨r, hr⟩ := hok
  obtain ⟨hdr, hl, hp⟩ := alloc_from_head hr
  exact ⟨r, hr, by omega, hdr, hl, hp⟩

/-! ## The recursion bound does not matter once it is large enough -/

theorem foldlM_ok_mono {f g : GcState → Nat → Except Fault GcState}
    (hfg : ∀ st x st', f st x = .ok st' → g st x = .ok st') :
    ∀ (xs : List Nat) (s s' : GcState), xs.foldlM f s = .ok s' → xs.foldlM g s = .ok s' := by
  intro xs
  induction xs with
  | nil => intro s s' h; exact h
  | cons x xs ih =>
    intro s s' h
    simp only [List.foldlM_cons] at h ⊢
    cases hf : f s x with
    | error e =>
      rw [hf] at h
      cases h
    | ok st1 =>
      rw [hf] at h
      rw [hfg s x st1 hf]
      exact ih st1 s' h

theorem gc_mark_fuel_succ (mem : Nat → Nat) : ∀ (fuel p : Nat) (s s' : GcState),
    gc_mark mem fuel p s = .ok s' → gc_mark mem (fuel + 1) p s = .ok s' := by
  intro fuel
  induction fuel with
  | zero => intro p s s' h; simp [gc_mark] at h
  | succ fuel ih =>
    intro p s s' h
    unfold gc_mark at h ⊢
    by_cases hp : p = 0
    · simpa [hp] using h
    · simp only [hp, if_false] at h ⊢
      cases hfb : find_block s.alloc_list p with
      | none => simpa [hfb] using h
      | some b =>
        simp only [hfb] at h ⊢
        by_cases hm : b.mark = 0
        · simp only [hm, if_true] at h ⊢
          exact foldlM_ok_mono (fun st x st' hst => ih (mem x) st st' hst) _ _ _ h
        · simpa [hm] using h

theorem gc_mark_fuel_le (mem : Nat → Nat) (p : Nat) (s s' : GcState) :
    ∀ (fuel extra : Nat), gc_mark mem fuel p s = .ok s' →
      gc_mark mem (fuel + extra) p s = .ok s' := by
  intro fuel extra h
  induction extra with
  | zero => exact h
  | succ k ih => exact gc_mark_fuel_succ mem (fuel + k) p s s' ih

/-! ## Threshold, trigger and mapping size -/

theorem use_block_counters (size : Nat) (c : Cursor) (m : Option Nat) (s : GcState) :
    (use_block size c m s).state.bytes_allocated = s.bytes_allocated ∧
      (use_block size c m s).state.trigger_threshold = s.trigger_threshold ∧
      (use_block size c m s).state.mark_count = s.mark_count := by
  unfold use_block
  split <;> exact ⟨rfl, rfl, rfl⟩

theorem alloc_from_counters {base size : Nat} {s : GcState} {r : AllocResult}
    (h : alloc_from base size s = .ok r) :
    r.state.bytes_allocated = s.bytes_allocated + (size : Int) ∧
      r.state.trigger_threshold = s.trigger_threshold ∧ r.state.mark_count = s.mark_count := by
  unfold alloc_from at h
  cases hfit : find_fit size s.free_list with
  | some c =>
    simp only [hfit, Except.ok.injEq] at h
    subst h
    exact use_block_counters _ _ _ _
  | none =>
    simp only [hfit] at h
    cases hrec : recalc_prev base
        (insert_into_free s.free_list s.free_list_size
          { addr := base, size := (max size MINIMUM_BLOCK_SIZE).toNat - 16 }).1 with
    | error e => simp [hrec] at h
    | ok c =>
      simp only [hrec, Except.ok.injEq] at h
      subst h
      exact use_block_counters _ _ _ _

theorem max_ge_right (a b : Int) : b ≤ max a b := by
  unfold max
  split <;> omega

theorem gc_collect_result (mem : Nat → Nat) (stack : List Nat) (s : GcState) :
    ∃ s1, gc_mark_stack mem stack s = .ok s1 ∧
      gc_collect mem stack s = .ok (update_threshold (gc_sweep s1)) := by
  obtain ⟨s1, hrun, _⟩ := gc_mark_stack_spec mem stack s
  exact ⟨s1, hrun, by simp [gc_collect, hrun]⟩

/-- C11: threshold update.  `gc_collect` always returns.  With `b` the value
of `bytes_allocated` left by the sweep that followed the mark phase, the
state it returns has `trigger_threshold` equal to the greater of `d` and
8388608, where `d` is the 64-bit signed product `b * 2` (the representative of
`b * 2` modulo `2^64` in `[-2^63, 2^63)`); when `b * 2` is representable
(`-2^62 <= b < 2^62`) that is the greater of `b * 2` and 8388608.  So
`trigger_threshold` is at least `MINIMUM_THRESHOLD = 8 * 1024 * 1024` and
below `2^63` for every input state, and `bytes_allocated` is 0; the lists and
the other counters are those left by the sweep. -/
theorem threshold_update (mem : Nat → Nat) (stack : List Nat) (s : GcState) :
    ∃ s1 s' b d, gc_mark_stack mem stack s = .ok s1 ∧ gc_collect mem stack s = .ok s' ∧
      b = (gc_sweep s1).bytes_allocated ∧
      d = (b * 2 + 9223372036854775808) % 18446744073709551616 - 9223372036854775808 ∧
      s'.trigger_threshold = (if d > 8388608 then d else 8388608) ∧
      (-4611686018427387904 ≤ b → b < 4611686018427387904 →
        s'.trigger_threshold = if b * 2 > 8388608 then b * 2 else 8388608) ∧
      MINIMUM_THRESHOLD = 8 * 1024 * 1024 ∧
      MINIMUM_THRESHOLD ≤ s'.trigger_threshold ∧
      s'.trigger_threshold < 9223372036854775808 ∧
      s'.bytes_allocated = 0 ∧
      s'.alloc_list = (gc_sweep s1).alloc_list ∧ s'.free_list = (gc_sweep s1).free_list ∧
      s'.free_list_size = (gc_sweep s1).free_list_size ∧
      s'.mark_count = (gc_sweep s1).mark_count := by
  obtain ⟨s1, hrun, hc⟩ := gc_collect_result mem stack s
  have hthr : (update_threshold (gc_sweep s1)).trigger_threshold =
      (if ((gc_sweep s1).bytes_allocated * 2 + 9223372036854775808) % 18446744073709551616 -
          9223372036854775808 > 8388608
        then ((gc_sweep s1).bytes_allocated * 2 + 9223372036854775808) % 18446744073709551616 -
          9223372036854775808
        else 8388608) := rfl
  refine ⟨s1, update_threshold (gc_sweep s1), (gc_sweep s1).bytes_allocated, _, hrun, hc, rfl,
    rfl, hthr, ?_, rfl, ?_, ?_, rfl, rfl, rfl, rfl, rfl⟩
  · intro h1 h2
    rw [hthr]
    have hd : ((gc_sweep s1).bytes_allocated * 2 + 9223372036854775808) %
        18446744073709551616 - 9223372036854775808 = (gc_sweep s1).bytes_allocated * 2 := by
      omega
    rw [hd]
  · rw [hthr]
    have : MINIMUM_THRESHOLD = 8388608 := rfl
    split <;> omega
  · rw [hthr]
    split <;> omega

/-- C17: collection trigger and byte accounting in `gc_alloc`.  When
`bytes_allocated <= trigger_threshold` at entry (equality included) no
collection runs: the call is the search on the entry state, and on return
`bytes_allocated` has grown by `n + 24` and `trigger_threshold` is unchanged.
When `bytes_allocated > trigger_threshold` the collection runs first, the
search runs on the state it returns, and on return `bytes_allocated` is
exactly `n + 24`. -/
theorem gc_alloc_trigger (mem : Nat → Nat) (stack : List Nat) (base n : Nat) (s : GcState) :
    (s.bytes_allocated ≤ s.trigger_threshold →
      gc_alloc mem stack base n s = alloc_from base (n + 24) s ∧
      ∀ r, gc_alloc mem stack base n s = .ok r →
        r.state.bytes_allocated = s.bytes_allocated + ((n : Int) + 24) ∧
        r.state.trigger_threshold = s.trigger_threshold) ∧
    (s.bytes_allocated > s.trigger_threshold →
      ∃ s1, gc_collect mem stack s = .ok s1 ∧
        gc_alloc mem stack base n s = alloc_from base (n + 24) s1 ∧
        ∀ r, gc_alloc mem stack base n s = .ok r →
          r.state.bytes_allocated = (n : Int) + 24) := by
  constructor
  · intro hle
    have hnot : ¬ s.bytes_allocated > s.trigger_threshold := by omega
    have heq : gc_alloc mem stack base n s = alloc_from base (n + 24) s := by
      simp only [gc_alloc, hnot, if_false]
    refine ⟨heq, fun r hr => ?_⟩
    rw [heq] at hr
    obtain ⟨h1, h2, _⟩ := alloc_from_counters hr
    exact ⟨by rw [h1]; push_cast; ring, h2⟩
  · intro hgt
    obtain ⟨s1, _, hc⟩ := gc_collect_result mem stack s
    have heq : gc_alloc mem stack base n s =
        alloc_from base (n + 24) (update_threshold (gc_sweep s1)) := by
      simp only [gc_alloc, hgt, if_true, hc]
    refine ⟨_, hc, heq, fun r hr => ?_⟩
    rw [heq] at hr
    obtain ⟨h1, _, _⟩ := alloc_from_counters hr
    rw [h1]
    simp only [update_threshold]
    push_cast
    ring

/-! ## Mapping size, first fit, termination of marking -/

theorem alloc_from_error {base size : Nat} {s : GcState} {e : Fault}
    (h : alloc_from base size s = .error e) : find_fit size s.free_list = none := by
  unfold alloc_from at h
  cases hfit : find_fit size s.free_list with
  | some c => simp [hfit] at h
  | none => rfl

theorem alloc_size_eq (size : Nat) :
    (max (size : Int) MINIMUM_BLOCK_SIZE).toNat = if size > 4096 then size else 4096 := by
  unfold max MINIMUM_BLOCK_SIZE
  split <;> split <;> omega

/-- C12: size of the mapping on a miss.  Let `s1` be the state in which
`gc_alloc(n)` runs its search (the entry state, or the state returned by the
collection).  If no span of `s1` has size `>= n + 24`, a returning call has
asked the mapper once, for `max(n + 24, 4096)` bytes; if some span has, it has
not asked; a faulting call is always a call on the miss path.  From the
initial state `gc_alloc(4096 - 24)` maps 4096 bytes at `B`, leaves the free
list empty and returns `B + 24` for a block of size 4072; and for
`n + 24 > 4096` it maps `n + 24` bytes and returns `B + 24` for a block of
size `n`, whose payload ends at the end of the mapped region. -/
theorem mapping_size_on_miss (mem : Nat → Nat) (stack : List Nat) (base n : Nat) :
    (∀ (s : GcState) (r : AllocResult), gc_alloc mem stack base n s = .ok r →
      ∃ s1, ((¬ s.bytes_allocated > s.trigger_threshold ∧ s1 = s) ∨
          (s.bytes_allocated > s.trigger_threshold ∧ gc_collect mem stack s = .ok s1)) ∧
        ((∀ f ∈ s1.free_list, f.size < n + 24) →
          r.mapped = some (if n + 24 > 4096 then n + 24 else 4096)) ∧
        ((∃ f ∈ s1.free_list, n + 24 ≤ f.size) → r.mapped = none)) ∧
    (∀ (s : GcState) (e : Fault), gc_alloc mem stack base n s = .error e →
      ∃ s1, ((¬ s.bytes_allocated > s.trigger_threshold ∧ s1 = s) ∨
          (s.bytes_allocated > s.trigger_threshold ∧ gc_collect mem stack s = .ok s1)) ∧
        ∀ f ∈ s1.free_list, f.size < n + 24) ∧
    gc_alloc mem stack base (4096 - 24) gc_initial =
      .ok { ptr := base + 24
            state := { gc_initial with
              alloc_list := [{ addr := base, mark := 0, size := 4096 - 24 }]
              bytes_allocated := 4096 }
            mapped := some 4096 } ∧
    (n + 24 > 4096 →
      gc_alloc mem stack base n gc_initial =
        .ok { ptr := base + 24
              state := { gc_initial with
                alloc_list := [{ addr := base, mark := 0, size := n }]
                bytes_allocated := (n : Int) + 24 }
              mapped := some (n + 24) } ∧
      base ≤ base + 24 ∧ base + 24 + n ≤ base + (n + 24)) := by
  refine ⟨?_, ?_, ?_, ?_⟩
  · intro s r hrun
    obtain ⟨s1, hfrom, hs1⟩ := gc_alloc_cases hrun
    refine ⟨s1, hs1, ?_, ?_⟩
    · intro hsmall
      rcases alloc_from_mapped hfrom with ⟨_, c, hc⟩ | ⟨hm, _⟩
      · obtain ⟨hl, hsz, _⟩ := find_fit_some hc
        have hmem : c.current ∈ s1.free_list := by
          rw [← hl]; simp [Cursor.toList]
        have := hsmall _ hmem
        omega
      · rw [hm, alloc_size_eq]
    · rintro ⟨f, hf, hsz⟩
      rcases alloc_from_mapped hfrom with ⟨hm, _⟩ | ⟨_, hnone⟩
      · exact hm
      · have := find_fit_none hnone f hf
        omega
  · intro s e hrun
    have hcases : ∃ s1, alloc_from base (n + 24) s1 = .error e ∧
        ((¬ s.bytes_allocated > s.trigger_threshold ∧ s1 = s) ∨
          (s.bytes_allocated > s.trigger_threshold ∧ gc_collect mem stack s = .ok s1)) := by
      unfold gc_alloc at hrun
      split at hrun
      · rename_i hgt
        obtain ⟨s', hs', _⟩ := gc_collect_marks mem stack s
        simp only [hs'] at hrun
        exact ⟨s', hrun, Or.inr ⟨hgt, hs'⟩⟩
      · rename_i hgt
        exact ⟨s, hrun, Or.inl ⟨hgt, rfl⟩⟩
    obtain ⟨s1, herr, hs1⟩ := hcases
    exact ⟨s1, hs1, find_fit_none (alloc_from_error herr)⟩
  · have hm : max (4096 : Int) MINIMUM_BLOCK_SIZE = 4096 := by
      unfold max MINIMUM_BLOCK_SIZE
      split <;> omega
    simp [gc_alloc, gc_initial, alloc_from, find_fit, insert_into_free, merge, recalc_prev,
      use_block, hm, MINIMUM_THRESHOLD]
  · intro hn
    refine ⟨?_, by omega, by omega⟩
    have hm : max ((n : Int) + 24) MINIMUM_BLOCK_SIZE = (n : Int) + 24 := by
      unfold max MINIMUM_BLOCK_SIZE
      split <;> omega
    have h1 : ((n : Int) + 24).toNat = n + 24 := by omega
    have h2 : ¬ (n + 24 < n + 24 - 16) := by omega
    simp [gc_alloc, gc_initial, alloc_from, find_fit, insert_into_free, merge, recalc_prev,
      use_block, hm, MINIMUM_THRESHOLD, h1, h2]

theorem find_fit_first {need : Nat} (cur : free_block_t) (post : List free_block_t)
    (hcur : need ≤ cur.size) : ∀ pre : List free_block_t, (∀ f ∈ pre, f.size < need) →
      find_fit need (pre ++ cur :: post) = some ⟨pre, cur, post⟩ := by
  intro pre
  induction pre with
  | nil =>
    intro _
    simp [find_fit, hcur]
  | cons a l ih =>
    intro h
    have ha := h a (List.mem_cons_self _ _)
    have hna : ¬ a.size ≥ need := by omega
    have hrec := ih (fun f hf => h f (List.mem_cons_of_mem _ hf))
    show find_fit need (a :: (l ++ cur :: post)) = _
    unfold find_fit
    simp only [hna, if_false, hrec]

/-- C16: first fit with tail splitting.  Let `s1` be the state in which
`gc_alloc(n)` runs its search and let its free list be `pre ++ cur :: post`
with every span of `pre` smaller than `need = n + 24` and `cur.size >= need`.
Then `cur` is the span used and `pre`, `post` are left unchanged.  If
`cur.size > need`, `cur` keeps its base and position with its size reduced by
`need`, the new header is at `cur.addr + 16 + (cur.size - need)`, and the
block ends where `cur` ended; if `cur.size = need`, `cur` is removed and the
header is at `cur.addr`.  In both cases the block is pushed at the head of
the allocation list of `s1` with mark 0 and size `n`, the returned address is
the header plus 24, and the mapper is not asked. -/
theorem first_fit_tail_split (mem : Nat → Nat) (stack : List Nat) (base n : Nat)
    (s s1 : GcState) (pre post : List free_block_t) (cur : free_block_t)
    (hs1 : (s.bytes_allocated ≤ s.trigger_threshold ∧ s1 = s) ∨
      (s.bytes_allocated > s.trigger_threshold ∧ gc_collect mem stack s = .ok s1))
    (hfl : s1.free_list = pre ++ cur :: post)
    (hpre : ∀ f ∈ pre, f.size < n + 24) (hcur : n + 24 ≤ cur.size) :
    (cur.size > n + 24 →
      gc_alloc mem stack base n s =
        .ok { ptr := cur.addr + 16 + (cur.size - (n + 24)) + 24
              state := { s1 with
                bytes_allocated := s1.bytes_allocated + ((n : Int) + 24)
                free_list := pre ++ { cur with size := cur.size - (n + 24) } :: post
                alloc_list :=
                  { addr := cur.addr + 16 + (cur.size - (n + 24)), mark := 0, size := n } ::
                    s1.alloc_list }
              mapped := none } ∧
      cur.addr + 16 + (cur.size - (n + 24)) + 24 + n = cur.addr + 16 + cur.size) ∧
    (cur.size = n + 24 →
      gc_alloc mem stack base n s =
        .ok { ptr := cur.addr + 24
              state := { s1 with
                bytes_allocated := s1.bytes_allocated + ((n : Int) + 24)
                free_list := pre ++ post
                free_list_size := s1.free_list_size - 1
                alloc_list := { addr := cur.addr, mark := 0, size := n } :: s1.alloc_list }
              mapped := none }) := by
  have hrun : gc_alloc mem stack base n s = alloc_from base (n + 24) s1 := by
    rcases hs1 with ⟨hle, rfl⟩ | ⟨hgt, hc⟩
    · have hnot : ¬ s1.bytes_allocated > s1.trigger_threshold := by omega
      simp only [gc_alloc, hnot, if_false]
    · simp only [gc_alloc, hgt, if_true, hc]
  have hfit := find_fit_first cur post hcur pre hpre
  rw [← hfl] at hfit
  constructor
  · intro hgt
    refine ⟨?_, by omega⟩
    have haddr : cur.addr + cur.size + 16 - (n + 24) = cur.addr + 16 + (cur.size - (n + 24)) := by
      omega
    rw [hrun]
    simp only [alloc_from, hfit, use_block, hgt, if_true, haddr, Nat.add_sub_cancel,
      Nat.cast_add, Nat.cast_ofNat]
  · intro heq
    have hnot : ¬ cur.size > n + 24 := by omega
    rw [hrun]
    simp only [alloc_from, hfit, use_block, hnot, if_false, Nat.add_sub_cancel,
      Nat.cast_add, Nat.cast_ofNat]

/-- C19: `gc_mark` terminates on every heap.  For every allocation list,
memory and candidate word there is one state that `gc_mark` returns for every
recursion bound above the number of unmarked blocks; in it the allocation
list has the same nodes in the same order with the same sizes, every mark is
what it was or has gone from 0 to 1, and the other globals except
`mark_count` are unchanged.  The descent into a block is preceded by the
store that marks it, which lowers the number of unmarked blocks by one. -/
theorem gc_mark_terminates (mem : Nat → Nat) (p : Nat) (s : GcState) :
    (∃ s', (∀ fuel, unmarked s.alloc_list < fuel → gc_mark mem fuel p s = .ok s') ∧
      List.Forall₂ (fun b b' : alloc_block_t => b'.addr = b.addr ∧ b'.size = b.size ∧
        (b'.mark = b.mark ∨ (b.mark = 0 ∧ b'.mark = 1))) s.alloc_list s'.alloc_list ∧
      unmarked s'.alloc_list ≤ unmarked s.alloc_list ∧
      s'.free_list = s.free_list ∧ s'.free_list_size = s.free_list_size ∧
      s'.bytes_allocated = s.bytes_allocated ∧ s'.trigger_threshold = s.trigger_threshold) ∧
    (∀ b, find_block s.alloc_list p = some b → b.mark = 0 →
      unmarked (set_mark s.alloc_list p) + 1 = unmarked s.alloc_list) := by
  refine ⟨?_, fun b hb hm => unmarked_set_mark hb hm⟩
  obtain ⟨s', hrun, hext, _, hfr⟩ :=
    gc_mark_spec mem (unmarked s.alloc_list + 1) p s (Nat.lt_succ_self _)
  refine ⟨s', ?_, hext.1, markMono_unmarked_le hext.1, hfr.1, hfr.2.1, hfr.2.2.1, hfr.2.2.2⟩
  intro fuel hfuel
  have hsplit : fuel = unmarked s.alloc_list + 1 + (fuel - (unmarked s.alloc_list + 1)) := by
    omega
  rw [hsplit]
  exact gc_mark_fuel_le mem p s s' _ _ hrun

/-! ## The payload scan, the whole-span path and the byte counter at concrete heaps -/

theorem scan_loop_length (e : Nat) : ∀ (k p : Nat), e - p ≤ 8 * k →
    (scan_loop k p e).length = (e - p + 7) / 8 := by
  intro k
  induction k with
  | zero =>
    intro p h
    simp only [scan_loop, List.length_nil]
    omega
  | succ k ih =>
    intro p h
    unfold scan_loop
    by_cases hp : p < e
    · simp only [hp, if_true, List.length_cons]
      rw [ih (p + 8) (by omega)]
      omega
    · simp only [hp, if_false, List.length_nil]
      omega

theorem scan_addrs_length (p size : Nat) : (scan_addrs p size).length = (size + 7) / 8 := by
  unfold scan_addrs
  rw [scan_loop_length (p + size) size p (by omega)]
  have : p + size - p = size := by omega
  rw [this]

/-- C14 (the code at a failing input): the block with header 69564 has a
payload of 12 bytes, `[69588, 69600)`.  The scan loop `while (p < end)` visits
69588 and 69596; the word at 69596 ends at 69604, four bytes past the payload
(in general `ceil(s / 8)` words are read, not `floor(s / 8)`).  With the
memory `mem_overhang` that second read marks the block whose payload starts at
69624. -/
theorem payload_scan_reads_past_end :
    (∃ r1 r2, gc_alloc mem_overhang [] 65536 8 gc_initial = .ok r1 ∧
      gc_alloc mem_overhang [] 0 12 r1.state = .ok r2 ∧ r2.state = heap_two_objects) ∧
    scan_addrs 69588 12 = [69588, 69596] ∧
    ¬ (69596 + 8 ≤ 69588 + 12) ∧
    (∀ p s : Nat, (scan_addrs p s).length = (s + 7) / 8) ∧
    gc_mark mem_overhang 3 69588 heap_two_objects =
      .ok { heap_two_objects with
        alloc_list := [⟨69564, 1, 12⟩, ⟨69600, 1, 8⟩], mark_count := 2 } :=
  ⟨⟨_, _, rfl, rfl, rfl⟩, by decide, by decide, scan_addrs_length, rfl⟩

/-- C13 (the code at a failing input): in `heap_two_objects` with the single
root word 69588 and the memory `mem_overhang`, the mark phase marks both
blocks and counts 2.  The payload address 69624 of the second block is not a
root word, and no whole machine word of the payload of a marked block holds
it: it was read from the eight bytes at 69596, of which only four belong to
the 12-byte payload of the first block. -/
theorem mark_phase_marks_unreachable :
    (∀ b ∈ heap_two_objects.alloc_list, b.mark = 0) ∧
    gc_mark_stack mem_overhang [69588] heap_two_objects =
      .ok { heap_two_objects with
        alloc_list := [⟨69564, 1, 12⟩, ⟨69600, 1, 8⟩], mark_count := 2 } ∧
    69600 + 24 ∉ [69588] ∧
    (∀ b ∈ [(⟨69564, 1, 12⟩ : alloc_block_t), ⟨69600, 1, 8⟩], b.mark = 1 →
      ∀ i, 8 * i + 8 ≤ b.size → mem_overhang (b.addr + 24 + 8 * i) ≠ 69600 + 24) := by
  refine ⟨by decide, rfl, by decide, ?_⟩
  intro b hb _ i hi
  simp only [List.mem_cons, List.mem_singleton, List.not_mem_nil, or_false] at hb
  rcases hb with rfl | rfl
  · have h0 : i = 0 := by simp only at hi; omega
    subst h0
    decide
  · have h0 : i = 0 := by simp only at hi; omega
    subst h0
    decide

/-- C15 (the code at a failing input): `gc_alloc(4060)` on the initial state
maps the 4096 bytes `[65536, 69632)`, takes the whole new span (its size 4080
is not greater than the need 4084) and records a block of 24 + 4060 bytes.
The state is reachable, both lists together hold 4084 bytes, and the twelve
mapped bytes from 69620 on lie in no block and in no span. -/
theorem whole_span_use_loses_bytes :
    gc_alloc mem_zero [] 65536 4060 gc_initial =
      .ok ⟨65536 + 24, heap_whole_page_used, some 4096⟩ ∧
    Reach heap_whole_page_used [(65536, 65536 + 4096)] ∧
    (heap_whole_page_used.alloc_list.map (fun b => 24 + b.size)).sum +
      (heap_whole_page_used.free_list.map (fun f => 16 + f.size)).sum = 4084 ∧
    (∀ x, 65536 + 4084 ≤ x → x < 65536 + 4096 →
      range_count [(65536, 65536 + 4096)] x = 1 ∧ heap_count heap_whole_page_used x = 0) := by
  have hrun : gc_alloc mem_zero [] 65536 4060 gc_initial =
      .ok ⟨65536 + 24, heap_whole_page_used, some 4096⟩ := rfl
  refine ⟨hrun, ?_, by decide, ?_⟩
  · exact Reach.alloc mem_zero [] 65536 4060 Reach.init hrun
      (fun _ _ m hm => absurd hm (List.not_mem_nil m))
  · intro x hlo hhi
    have h1 : 65536 ≤ x ∧ x < 65536 + 4096 := ⟨by omega, hhi⟩
    have h2 : ¬ (65536 ≤ x ∧ x < 65536 + 24 + 4060) := by omega
    constructor
    · simp only [range_count, covers, h1, and_self, if_true]
    · simp only [heap_count, heap_whole_page_used, gc_initial, alloc_count, free_count,
        covers, h2, if_false]

theorem fold_mark_null (fuel : Nat) : ∀ (xs : List Nat) (s : GcState),
    xs.foldlM (fun st p => gc_mark mem_zero (fuel + 1) (mem_zero p) st) s = .ok s := by
  intro xs
  induction xs with
  | nil => intro s; rfl
  | cons x xs ih =>
    intro s
    simp only [List.foldlM_cons]
    have h : gc_mark mem_zero (fuel + 1) (mem_zero x) s = .ok s := by
      simp [gc_mark, mem_zero]
    rw [h]
    exact ih s

theorem gc_mark_mem_zero (fuel ptr : Nat) (s : GcState) :
    gc_mark mem_zero (fuel + 2) ptr s = .ok (mark_only ptr s) := by
  unfold gc_mark mark_only
  by_cases hp : ptr = 0
  · simp [hp]
  · simp only [hp, if_false]
    cases hfb : find_block s.alloc_list ptr with
    | none => rfl
    | some b =>
      by_cases hm : b.mark = 0
      · simp only [hm, if_true]
        exact fold_mark_null fuel _ _
      · simp only [hm, if_false]

theorem gc_collect_of_mark {mem : Nat → Nat} {stack : List Nat} {s s1 : GcState}
    (h : gc_mark_stack mem stack s = .ok s1) :
    gc_collect mem stack s = .ok (update_threshold (gc_sweep s1)) := by
  unfold gc_collect
  rw [h]

theorem gc_alloc_of_collect {mem : Nat → Nat} {stack : List Nat} {base n : Nat}
    {s s1 : GcState} (hgt : s.bytes_allocated > s.trigger_threshold)
    (h : gc_collect mem stack s = .ok s1) :
    gc_alloc mem stack base n s = alloc_from base (n + 24) s1 := by
  unfold gc_alloc
  rw [if_pos hgt, h]

/-- The run that leads to `heap_large_survivor`, and the collection that
follows: the block of 9437208 bytes survives again while the threshold is set
to 8388608. -/
theorem threshold_below_live_bytes :
    (∃ r1 r2 r3,
      gc_alloc mem_zero [] 1048576 9437184 gc_initial = .ok r1 ∧
      gc_alloc mem_zero [1048600] 65536 16 r1.state = .ok r2 ∧
      gc_alloc mem_zero [] 33554432 19000000 r2.state = .ok r3 ∧
      r3.state = heap_large_survivor) ∧
    heap_large_survivor.bytes_allocated > heap_large_survivor.trigger_threshold ∧
    gc_collect mem_zero [1048600] heap_large_survivor =
      .ok { alloc_list := [⟨1048576, 0, 9437184⟩]
            free_list := [⟨65536, 4080⟩, ⟨33554432, 19000008⟩]
            free_list_size := 2
            mark_count := 1
            bytes_allocated := 0
            trigger_threshold := 8388608 } := by
  have h1 : gc_alloc mem_zero [] 1048576 9437184 gc_initial =
      .ok ⟨1048600,
        { alloc_list := [⟨1048576, 0, 9437184⟩]
          free_list := []
          free_list_size := 0
          mark_count := 0
          bytes_allocated := 9437208
          trigger_threshold := 8388608 },
        some 9437208⟩ := rfl
  have hm1 : gc_mark_stack mem_zero [1048600]
      { alloc_list := [⟨1048576, 0, 9437184⟩]
        free_list := []
        free_list_size := 0
        mark_count := 0
        bytes_allocated := 9437208
        trigger_threshold := 8388608 } =
      .ok { alloc_list := [⟨1048576, 1, 9437184⟩]
            free_list := []
            free_list_size := 0
            mark_count := 1
            bytes_allocated := 9437208
            trigger_threshold := 8388608 } := by
    simp only [gc_mark_stack, List.foldlM_cons, List.foldlM_nil, List.length_singleton,
      gc_mark_mem_zero]
    simp [mark_only, find_block, set_mark]
  have hc1 : gc_collect mem_zero [1048600]
      { alloc_list := [⟨1048576, 0, 9437184⟩]
        free_list := []
        free_list_size := 0
        mark_count := 0
        bytes_allocated := 9437208
        trigger_threshold := 8388608 } =
      .ok { alloc_list := [⟨1048576, 0, 9437184⟩]
            free_list := []
            free_list_size := 0
            mark_count := 1
            bytes_allocated := 0
            trigger_threshold := 18874416 } :=
    (gc_collect_of_mark hm1).trans (congrArg Except.ok (by decide))
  have h2 : gc_alloc mem_zero [1048600] 65536 16
      { alloc_list := [⟨1048576, 0, 9437184⟩]
        free_list := []
        free_list_size := 0
        mark_count := 0
        bytes_allocated := 9437208
        trigger_threshold := 8388608 } =
      .ok ⟨69616,
        { alloc_list := [⟨69592, 0, 16⟩, ⟨1048576, 0, 9437184⟩]
          free_list := [⟨65536, 4040⟩]
          free_list_size := 1
          mark_count := 1
          bytes_allocated := 40
          trigger_threshold := 18874416 },
        some 4096⟩ :=
    (gc_alloc_of_collect (by decide) hc1).trans rfl
  have hm2 : gc_mark_stack mem_zero [1048600] heap_large_survivor =
      .ok { alloc_list := [⟨33554432, 0, 19000000⟩, ⟨69592, 0, 16⟩, ⟨1048576, 1, 9437184⟩]
            free_list := [⟨65536, 4040⟩]
            free_list_size := 1
            mark_count := 1
            bytes_allocated := 19000064
            trigger_threshold := 18874416 } := by
    simp only [gc_mark_stack, List.foldlM_cons, List.foldlM_nil, heap_large_survivor,
      List.length_cons, List.length_nil, gc_mark_mem_zero]
    simp [mark_only, find_block, set_mark]
  exact ⟨⟨_, _, _, h1, h2, rfl, rfl⟩, by decide,
    (gc_collect_of_mark hm2).trans (congrArg Except.ok (by decide))⟩

/-- C18 (the code at a failing input): from the initial state, `gc_alloc(16)`
(block `a`, payload 69616), `gc_alloc(9437184)`, then `gc_alloc(16)` (block
`c`, payload 69576), which runs the first collection with `a` on the stack,
then `gc_alloc(9437184)` again.  The counter now exceeds the threshold, so the
next `gc_alloc` collects.  With an empty stack nothing survives (0 live bytes)
and the sweep leaves `bytes_allocated = -40`; with `a` and `c` on the stack
two blocks survive (80 live bytes) and the sweep leaves `bytes_allocated = 40`:
the 40 bytes of `a` were allocated before the counter was reset.  In the
reachable state `heap_large_survivor` the collection keeps 9437208 live bytes
and returns with `trigger_threshold = 8388608`. -/
theorem bytes_after_sweep_not_live_bytes :
    (∃ r1 r2 r3 r4 m m',
      gc_alloc mem_zero [] 65536 16 gc_initial = .ok r1 ∧
      gc_alloc mem_zero [] 1048576 9437184 r1.state = .ok r2 ∧
      r2.state.bytes_allocated > r2.state.trigger_threshold ∧
      gc_alloc mem_zero [69616] 0 16 r2.state = .ok r3 ∧
      r3.ptr = 69576 ∧
      gc_alloc mem_zero [] 16777216 9437184 r3.state = .ok r4 ∧
      r4.state.bytes_allocated > r4.state.trigger_threshold ∧
      gc_mark_stack mem_zero [] r4.state = .ok m ∧
      (gc_sweep m).alloc_list = [] ∧
      (gc_sweep m).bytes_allocated = -40 ∧
      gc_mark_stack mem_zero [69616, 69576] r4.state = .ok m' ∧
      (gc_sweep m').alloc_list = [⟨69552, 0, 16⟩, ⟨69592, 0, 16⟩] ∧
      (gc_sweep m').bytes_allocated = 40) ∧
    (∃ r1 r2 r3,
      gc_alloc mem_zero [] 1048576 9437184 gc_initial = .ok r1 ∧
      gc_alloc mem_zero [1048600] 65536 16 r1.state = .ok r2 ∧
      gc_alloc mem_zero [] 33554432 19000000 r2.state = .ok r3 ∧
      r3.state = heap_large_survivor) ∧
    heap_large_survivor.bytes_allocated > heap_large_survivor.trigger_threshold ∧
    (∃ s', gc_collect mem_zero [1048600] heap_large_survivor = .ok s' ∧
      s'.alloc_list = [⟨1048576, 0, 9437184⟩] ∧ s'.trigger_threshold = 8388608 ∧
      s'.trigger_threshold < (s'.alloc_list.map (fun b => ((b.size + 24 : Nat) : Int))).sum) :=
  ⟨⟨_, _, _, _, _, _, rfl, rfl, by decide, rfl, rfl, rfl, by decide, rfl, by decide, by decide,
      rfl, by decide, by decide⟩,
    threshold_below_live_bytes.1, threshold_below_live_bytes.2.1,
    ⟨_, threshold_below_live_bytes.2.2, rfl, rfl, by decide⟩⟩

theorem mapping_size_on_miss_witness :
    5000 + 24 > 4096 ∧
    gc_alloc mem_zero [] 65536 5000 gc_initial =
      .ok { ptr := 65536 + 24
            state := { gc_initial with
              alloc_list := [{ addr := 65536, mark := 0, size := 5000 }]
              bytes_allocated := ((5000 : Nat) : Int) + 24 }
            mapped := some (5000 + 24) } ∧
    (∃ s1, ((¬ gc_initial.bytes_allocated > gc_initial.trigger_threshold ∧ s1 = gc_initial) ∨
        (gc_initial.bytes_allocated > gc_initial.trigger_threshold ∧
          gc_collect mem_zero [] gc_initial = .ok s1)) ∧
      ((∀ f ∈ s1.free_list, f.size < 16 + 24) →
        (⟨65536 + 4096 - 16, heap_after_first_alloc, some 4096⟩ : AllocResult).mapped =
          some (if 16 + 24 > 4096 then 16 + 24 else 4096)) ∧
      ((∃ f ∈ s1.free_list, 16 + 24 ≤ f.size) →
        (⟨65536 + 4096 - 16, heap_after_first_alloc, some 4096⟩ : AllocResult).mapped = none)) :=
  ⟨by decide, ((mapping_size_on_miss mem_zero [] 65536 5000).2.2.2 (by decide)).1,
    (mapping_size_on_miss mem_zero [] 65536 16).1 gc_initial
      ⟨65536 + 4096 - 16, heap_after_first_alloc, some 4096⟩ rfl⟩

theorem first_fit_tail_split_witness :
    (∀ f ∈ [(⟨4096, 8⟩ : free_block_t)], f.size < 16 + 24) ∧ 16 + 24 ≤ 64 ∧
    gc_alloc mem_zero [] 0 16 heap_small_then_large =
      .ok { ptr := 8192 + 16 + (64 - (16 + 24)) + 24
            state := { heap_small_then_large with
              bytes_allocated := heap_small_then_large.bytes_allocated + (((16 : Nat) : Int) + 24)
              free_list := [⟨4096, 8⟩] ++ { addr := 8192, size := 64 - (16 + 24) } :: []
              alloc_list :=
                { addr := 8192 + 16 + (64 - (16 + 24)), mark := 0, size := 16 } ::
                  heap_small_then_large.alloc_list }
            mapped := none } :=
  ⟨by decide, by decide,
    ((first_fit_tail_split mem_zero [] 0 16 heap_small_then_large heap_small_then_large
      [⟨4096, 8⟩] [] ⟨8192, 64⟩ (Or.inl ⟨by decide, rfl⟩) rfl (by decide) (by decide)).1
        (by decide)).1⟩

theorem gc_alloc_trigger_witness :
    gc_initial.bytes_allocated ≤ gc_initial.trigger_threshold ∧
    gc_alloc mem_zero [] 65536 16 gc_initial = alloc_from 65536 (16 + 24) gc_initial ∧
    heap_large_survivor.bytes_allocated > heap_large_survivor.trigger_threshold ∧
    (∃ s1, gc_collect mem_zero [1048600] heap_large_survivor = .ok s1 ∧
      gc_alloc mem_zero [1048600] 0 16 heap_large_survivor = alloc_from 0 (16 + 24) s1 ∧
      ∀ r, gc_alloc mem_zero [1048600] 0 16 heap_large_survivor = .ok r →
        r.state.bytes_allocated = ((16 : Nat) : Int) + 24) :=
  ⟨by decide, ((gc_alloc_trigger mem_zero [] 65536 16 gc_initial).1 (by decide)).1, by decide,
    (gc_alloc_trigger mem_zero [1048600] 0 16 heap_large_survivor).2 (by decide)⟩

theorem gc_mark_terminates_witness :
    find_block heap_two_objects.alloc_list 69588 = some ⟨69564, 0, 12⟩ ∧
    unmarked (set_mark heap_two_objects.alloc_list 69588) + 1 =
      unmarked heap_two_objects.alloc_list :=
  ⟨rfl, (gc_mark_terminates mem_overhang 69588 heap_two_objects).2 ⟨69564, 0, 12⟩ rfl rfl⟩

/-! ## The two copies agree below address `2^63` -/

theorem wrap_int64_of_lt {x : Int} (h0 : 0 ≤ x) (h1 : x < 9223372036854775808) :
    wrap_int64 x = x := by
  unfold wrap_int64
  omega

theorem below_of_count {out inp : List free_block_t}
    (h : ∀ x, free_count out x = free_count inp x) (hb : BelowSpans inp) : BelowSpans out := by
  intro y hy
  have h1 := free_count_pos_of_mem hy (x := y.addr + 15 + y.size) ⟨by omega, by omega⟩
  rw [h] at h1
  obtain ⟨f, hf, hx⟩ := exists_of_free_count_pos h1
  have := hb f hf
  omega

theorem insert_into_free_below (fl : List free_block_t) (n : Int) (blk : free_block_t)
    (hb : BelowSpans (blk :: fl)) : BelowSpans (insert_into_free fl n blk).1 :=
  below_of_count (fun x => insert_into_free_count fl n blk x) hb

theorem merge_to_input : ∀ (rest : List free_block_t) (b : free_block_t) (n : Int),
    BelowSpans (b :: rest) →
      Input.merge (to_input_span b) (rest.map to_input_span) n =
        ((merge b rest n).1.map to_input_span, (merge b rest n).2) := by
  intro rest
  induction rest with
  | nil => intro b n _; rfl
  | cons nx rest ih =>
    intro b n hb
    have hbb := hb b (List.mem_cons_self _ _)
    have hnx := hb nx (List.mem_cons_of_mem _ (List.mem_cons_self _ _))
    simp only [List.map_cons]
    unfold Input.merge merge
    have hcond : ((((to_input_span b).addr : Int) + (to_input_span b).size + 16).toNat =
        (to_input_span nx).addr) ↔ (b.addr + b.size + 16 = nx.addr) := by
      simp only [to_input_span]
      omega
    by_cases hadj : b.addr + b.size + 16 = nx.addr
    · rw [if_pos (hcond.mpr hadj), if_pos hadj]
      have hw : wrap_int64 ((to_input_span b).size + ((to_input_span nx).size + 16)) =
          ((b.size + (nx.size + 16) : Nat) : Int) := by
        simp only [to_input_span]
        rw [wrap_int64_of_lt (by omega) (by omega)]
        push_cast
        ring
      rw [hw]
      have hb' : BelowSpans ({ b with size := b.size + (nx.size + 16) } :: rest) := by
        intro f hf
        rcases List.mem_cons.mp hf with rfl | hf
        · simp only
          omega
        · exact hb f (List.mem_cons_of_mem _ (List.mem_cons_of_mem _ hf))
      exact ih { b with size := b.size + (nx.size + 16) } (n - 1) hb'
    · rw [if_neg (fun h => hadj (hcond.mp h)), if_neg hadj]
      rfl

theorem insert_after_to_input (blk : free_block_t) : ∀ (rest : List free_block_t)
    (cur : free_block_t) (n : Int), BelowSpans (blk :: cur :: rest) →
      Input.insert_after (to_input_span blk) (to_input_span cur) (rest.map to_input_span) n =
        ((insert_after blk cur rest n).1.map to_input_span, (insert_after blk cur rest n).2) := by
  intro rest
  induction rest with
  | nil =>
    intro cur n hb
    unfold Input.insert_after insert_after
    have := merge_to_input [blk] cur (n + 1) (by
      intro f hf
      apply hb
      simp only [List.mem_cons, List.mem_singleton, List.not_mem_nil, or_false] at hf ⊢
      tauto)
    simpa using this
  | cons nx rest ih =>
    intro cur n hb
    simp only [List.map_cons]
    unfold Input.insert_after insert_after
    have hcond : (to_input_span nx).addr < (to_input_span blk).addr ↔ nx.addr < blk.addr :=
      Iff.rfl
    by_cases hlt : nx.addr < blk.addr
    · rw [if_pos (hcond.mpr hlt), if_pos hlt]
      have := ih nx n (by
        intro f hf
        apply hb
        simp only [List.mem_cons] at hf ⊢
        tauto)
      rw [this]
      rfl
    · rw [if_neg (fun h => hlt (hcond.mp h)), if_neg hlt]
      have := merge_to_input (blk :: nx :: rest) cur (n + 1) (by
        intro f hf
        apply hb
        simp only [List.mem_cons] at hf ⊢
        tauto)
      simpa using this

theorem insert_into_free_to_input (fl : List free_block_t) (n : Int) (blk : free_block_t)
    (hb : BelowSpans (blk :: fl)) :
    Input.insert_into_free (fl.map to_input_span) n (to_input_span blk) =
      ((insert_into_free fl n blk).1.map to_input_span, (insert_into_free fl n blk).2) := by
  cases fl with
  | nil => exact merge_to_input [] blk (n + 1) hb
  | cons hd tl =>
    simp only [List.map_cons]
    unfold Input.insert_into_free insert_into_free
    simp only
    have hcond : (to_input_span blk).addr < (to_input_span hd).addr ↔ blk.addr < hd.addr :=
      Iff.rfl
    by_cases hlt : blk.addr < hd.addr
    · rw [if_pos (hcond.mpr hlt), if_pos hlt]
      have := merge_to_input (hd :: tl) blk (n + 1) hb
      simpa using this
    · rw [if_neg (fun h => hlt (hcond.mp h)), if_neg hlt]
      exact insert_after_to_input blk tl hd n hb

theorem gc_sweep_loop_to_input : ∀ (bs : List alloc_block_t) (s : GcState),
    BelowBlocks bs → BelowSpans s.free_list →
      Input.gc_sweep_loop (bs.map to_input_block) (to_input s) =
        to_input (gc_sweep_loop bs s) := by
  intro bs
  induction bs with
  | nil => intro s _ _; rfl
  | cons x xs ih =>
    intro s hbs hfl
    have hx := hbs x (List.mem_cons_self _ _)
    have hxs : BelowBlocks xs := fun b hb => hbs b (List.mem_cons_of_mem _ hb)
    simp only [List.map_cons]
    unfold Input.gc_sweep_loop gc_sweep_loop
    have hmark : (to_input_block x).mark = x.mark := rfl
    by_cases hm : x.mark = 0
    · rw [if_pos (hmark.trans hm), if_pos hm]
      have hnew : BelowSpans ({ addr := x.addr, size := x.size + 24 - 16 } :: s.free_list) := by
        intro f hf
        rcases List.mem_cons.mp hf with rfl | hf
        · simp only
          omega
        · exact hfl f hf
      have hw : wrap_int64 ((to_input_block x).size + 24 - 16) =
          ((x.size + 24 - 16 : Nat) : Int) := by
        simp only [to_input_block]
        rw [wrap_int64_of_lt (by omega) (by omega)]
        omega
      have hins := insert_into_free_to_input s.free_list s.free_list_size
        { addr := x.addr, size := x.size + 24 - 16 } hnew
      have hspan : (⟨(to_input_block x).addr,
          wrap_int64 ((to_input_block x).size + 24 - 16)⟩ : Input.free_block_t) =
          to_input_span { addr := x.addr, size := x.size + 24 - 16 } := by
        rw [hw]
        rfl
      rw [hspan]
      have hfl' : (to_input s).free_list = s.free_list.map to_input_span := rfl
      have hfs' : (to_input s).free_list_size = s.free_list_size := rfl
      rw [hfl', hfs', hins]
      have hrec := ih
        { s with
          bytes_allocated := s.bytes_allocated - ((x.size + 24 : Nat) : Int)
          free_list := (insert_into_free s.free_list s.free_list_size
            { addr := x.addr, size := x.size + 24 - 16 }).1
          free_list_size := (insert_into_free s.free_list s.free_list_size
            { addr := x.addr, size := x.size + 24 - 16 }).2 }
        hxs (insert_into_free_below _ _ _ hnew)
      rw [← hrec]
      rfl
    · rw [if_neg (fun h => hm (hmark.symm.trans h)), if_neg hm]
      rw [ih s hxs hfl]
      rfl

theorem gc_sweep_to_input (s : GcState) (hbs : BelowBlocks s.alloc_list)
    (hfl : BelowSpans s.free_list) :
    Input.gc_sweep (to_input s) = to_input (gc_sweep s) :=
  gc_sweep_loop_to_input s.alloc_list s hbs hfl

theorem find_block_to_input (p : Nat) : ∀ bs : List alloc_block_t,
    Input.find_block (bs.map to_input_block) p = (find_block bs p).map to_input_block := by
  intro bs
  induction bs with
  | nil => rfl
  | cons x xs ih =>
    simp only [List.map_cons]
    unfold Input.find_block find_block
    have hc : (to_input_block x).addr + 24 = p ↔ x.addr + 24 = p := Iff.rfl
    by_cases h : x.addr + 24 = p
    · rw [if_pos (hc.mpr h), if_pos h]
      rfl
    · rw [if_neg (fun h' => h (hc.mp h')), if_neg h]
      exact ih

theorem set_mark_to_input (p : Nat) : ∀ bs : List alloc_block_t,
    Input.set_mark (bs.map to_input_block) p = (set_mark bs p).map to_input_block := by
  intro bs
  induction bs with
  | nil => rfl
  | cons x xs ih =>
    simp only [List.map_cons]
    unfold Input.set_mark set_mark
    have hc : (to_input_block x).addr + 24 = p ↔ x.addr + 24 = p := Iff.rfl
    by_cases h : x.addr + 24 = p
    · rw [if_pos (hc.mpr h), if_pos h]
      rfl
    · rw [if_neg (fun h' => h (hc.mp h')), if_neg h, ih]
      rfl

theorem scan_addrs_to_input (p size : Nat) :
    Input.scan_addrs p (size : Int) = scan_addrs p size := by
  unfold Input.scan_addrs scan_addrs
  have h1 : ((size : Int)).toNat = size := by omega
  have h2 : ((p : Int) + (size : Int)).toNat = p + size := by omega
  rw [h1, h2]

theorem foldlM_to_input {f : GcState → Nat → Except Fault GcState}
    {g : Input.GcState → Nat → Except Fault Input.GcState}
    (h : ∀ st x, g (to_input st) x = (f st x).map to_input) :
    ∀ (xs : List Nat) (s : GcState),
      xs.foldlM g (to_input s) = (xs.foldlM f s).map to_input := by
  intro xs
  induction xs with
  | nil => intro s; rfl
  | cons x xs ih =>
    intro s
    simp only [List.foldlM_cons]
    rw [h s x]
    cases hf : f s x with
    | error e => rfl
    | ok st1 => exact ih st1

theorem gc_mark_to_input (mem : Nat → Nat) : ∀ (fuel p : Nat) (s : GcState),
    Input.gc_mark mem fuel p (to_input s) = (gc_mark mem fuel p s).map to_input := by
  intro fuel
  induction fuel with
  | zero => intro p s; rfl
  | succ fuel ih =>
    intro p s
    unfold Input.gc_mark gc_mark
    by_cases hp : p = 0
    · rw [if_pos hp, if_pos hp]
      rfl
    · rw [if_neg hp, if_neg hp]
      have hal : (to_input s).alloc_list = s.alloc_list.map to_input_block := rfl
      rw [hal, find_block_to_input]
      cases hfb : find_block s.alloc_list p with
      | none => rfl
      | some b =>
        simp only [Option.map_some']
        have hmark : (to_input_block b).mark = b.mark := rfl
        by_cases hm : b.mark = 0
        · rw [if_pos (hmark.trans hm), if_pos hm]
          have hscan : Input.scan_addrs ((to_input_block b).addr + 24) (to_input_block b).size =
              scan_addrs (b.addr + 24) b.size := scan_addrs_to_input _ _
          rw [hscan, set_mark_to_input]
          exact foldlM_to_input (fun st x => ih (mem x) st) _
            { s with mark_count := s.mark_count + 1, alloc_list := set_mark s.alloc_list p }
        · rw [if_neg (fun h => hm (hmark.symm.trans h)), if_neg hm]
          rfl

theorem gc_mark_stack_to_input (mem : Nat → Nat) (stack : List Nat) (s : GcState) :
    Input.gc_mark_stack mem stack (to_input s) = (gc_mark_stack mem stack s).map to_input := by
  unfold Input.gc_mark_stack gc_mark_stack
  exact foldlM_to_input
    (f := fun st w => gc_mark mem (st.alloc_list.length + 1) w st)
    (g := fun st w => Input.gc_mark mem (st.alloc_list.length + 1) w st)
    (fun st x => by
      have hl : (to_input st).alloc_list.length = st.alloc_list.length := by
        simp [to_input]
      simp only [hl]
      exact gc_mark_to_input mem _ x st)
    stack { s with mark_count := 0 }

theorem markMono_below {bs bs' : List alloc_block_t} (h : MarkMono bs bs')
    (hb : BelowBlocks bs) : BelowBlocks bs' := by
  induction h with
  | nil => exact hb
  | @cons a b l1 l2 hab _ ih =>
    intro x hx
    rcases List.mem_cons.mp hx with rfl | hx
    · have := hb a (List.mem_cons_self _ _)
      rw [hab.1, hab.2.1]
      exact this
    · exact ih (fun y hy => hb y (List.mem_cons_of_mem _ hy)) x hx

theorem exists_of_alloc_count_pos {bs : List alloc_block_t} {x : Nat}
    (h : 0 < alloc_count bs x) : ∃ b ∈ bs, b.addr ≤ x ∧ x < b.addr + 24 + b.size := by
  induction bs with
  | nil => simp [alloc_count] at h
  | cons a l ih =>
    simp only [alloc_count] at h
    by_cases hc : a.addr ≤ x ∧ x < a.addr + 24 + a.size
    · exact ⟨a, List.mem_cons_self _ _, hc⟩
    · have : covers a.addr (a.addr + 24 + a.size) x = 0 := by simp [covers, hc]
      obtain ⟨b, hb, hx⟩ := ih (by omega)
      exact ⟨b, List.mem_cons_of_mem _ hb, hx⟩

theorem gc_collect_below {mem : Nat → Nat} {stack : List Nat} {s s' : GcState}
    (hrun : gc_collect mem stack s = .ok s') (hbs : BelowBlocks s.alloc_list)
    (hfl : BelowSpans s.free_list) : BelowSpans s'.free_list := by
  intro y hy
  have h1 := free_count_pos_of_mem hy (x := y.addr + 15 + y.size) ⟨by omega, by omega⟩
  have h2 := gc_collect_count hrun (y.addr + 15 + y.size)
  unfold heap_count at h2
  by_cases ha : 0 < alloc_count s.alloc_list (y.addr + 15 + y.size)
  · obtain ⟨b, hb, hx⟩ := exists_of_alloc_count_pos ha
    have := hbs b hb
    omega
  · have hfree : 0 < free_count s.free_list (y.addr + 15 + y.size) := by omega
    obtain ⟨f, hf, hx⟩ := exists_of_free_count_pos hfree
    have := hfl f hf
    omega

theorem gc_collect_to_input (mem : Nat → Nat) (stack : List Nat) (s : GcState)
    (hbs : BelowBlocks s.alloc_list) (hfl : BelowSpans s.free_list) :
    Input.gc_collect mem stack (to_input s) = (gc_collect mem stack s).map to_input := by
  obtain ⟨s1, hrun, hext, _, hfr⟩ := gc_mark_stack_spec mem stack s
  unfold Input.gc_collect gc_collect
  rw [gc_mark_stack_to_input, hrun]
  have hsweep := gc_sweep_to_input s1 (markMono_below hext.1 hbs) (by rw [hfr.1]; exact hfl)
  show Except.ok (Input.update_threshold (Input.gc_sweep (to_input s1))) = _
  rw [hsweep]
  rfl

theorem find_fit_to_input (need : Nat) : ∀ fl : List free_block_t,
    Input.find_fit (need : Int) (fl.map to_input_span) =
      (find_fit need fl).map to_input_cursor := by
  intro fl
  induction fl with
  | nil => rfl
  | cons a l ih =>
    simp only [List.map_cons]
    unfold Input.find_fit find_fit
    have hc : (to_input_span a).size ≥ (need : Int) ↔ a.size ≥ need := by
      simp only [to_input_span]
      omega
    by_cases h : a.size ≥ need
    · rw [if_pos (hc.mpr h), if_pos h]
      rfl
    · rw [if_neg (fun h' => h (hc.mp h')), if_neg h, ih]
      cases find_fit need l with
      | none => rfl
      | some c => rfl

theorem recalc_prev_to_input (t : Nat) : ∀ fl : List free_block_t,
    Input.recalc_prev t (fl.map to_input_span) =
      (recalc_prev t fl).map to_input_cursor := by
  intro fl
  induction fl with
  | nil => rfl
  | cons a l ih =>
    simp only [List.map_cons]
    unfold Input.recalc_prev recalc_prev
    have hc : (to_input_span a).addr = t ↔ a.addr = t := Iff.rfl
    by_cases h : a.addr = t
    · rw [if_pos (hc.mpr h), if_pos h]
      rfl
    · rw [if_neg (fun h' => h (hc.mp h')), if_neg h, ih]
      cases recalc_prev t l with
      | error e => rfl
      | ok c => rfl

theorem use_block_to_input (size : Nat) (c : Cursor) (m : Option Nat) (s : GcState)
    (h24 : 24 ≤ size) (hlt : size < 9223372036854775808) :
    Input.use_block (size : Int) (to_input_cursor c) m (to_input s) =
      to_input_result (use_block size c m s) := by
  unfold Input.use_block use_block
  have hc : (to_input_cursor c).current.size > (size : Int) ↔ c.current.size > size := by
    simp only [to_input_cursor, to_input_span]
    omega
  have hw : wrap_int64 ((size : Int) - 24) = ((size - 24 : Nat) : Int) := by
    rw [wrap_int64_of_lt (by omega) (by omega)]
    omega
  by_cases h : c.current.size > size
  · rw [if_pos (hc.mpr h), if_pos h, hw]
    have haddr : (((to_input_cursor c).current.addr : Int) + (to_input_cursor c).current.size +
        16 - (size : Int)).toNat = c.current.addr + c.current.size + 16 - size := by
      simp only [to_input_cursor, to_input_span]
      omega
    have hsz : (to_input_cursor c).current.size - (size : Int) =
        ((c.current.size - size : Nat) : Int) := by
      simp only [to_input_cursor, to_input_span]
      omega
    rw [haddr, hsz]
    simp [to_input_result, to_input, to_input_cursor, to_input_span, to_input_block]
  · rw [if_neg (fun h' => h (hc.mp h')), if_neg h, hw]
    simp [to_input_result, to_input, to_input_cursor, to_input_span, to_input_block]

theorem alloc_from_to_input (base size : Nat) (s : GcState) (h24 : 24 ≤ size)
    (hlt : size < 9223372036854775808) (hfl : BelowSpans s.free_list)
    (hreg : base + size < 9223372036854775808 ∧ base + 4096 < 9223372036854775808) :
    Input.alloc_from base (size : Int) (to_input s) =
      (alloc_from base size s).map to_input_result := by
  unfold Input.alloc_from alloc_from
  have hfl' : (to_input s).free_list = s.free_list.map to_input_span := rfl
  have hfs' : (to_input s).free_list_size = s.free_list_size := rfl
  rw [hfl', hfs', find_fit_to_input]
  cases hfit : find_fit size s.free_list with
  | some c =>
    simp only [Option.map_some']
    have := use_block_to_input size c none
      { s with bytes_allocated := s.bytes_allocated + size } h24 hlt
    show Except.ok (Input.use_block (size : Int) (to_input_cursor c) none _) = _
    exact congrArg Except.ok this
  | none =>
    simp only [Option.map_none']
    obtain ⟨hA1, hA2⟩ := alloc_size_bounds size
    have hAeq := alloc_size_eq size
    have hmax : max (size : Int) Input.GC_MIN_ALLOC = max (size : Int) MINIMUM_BLOCK_SIZE := rfl
    have hAlt : (max (size : Int) MINIMUM_BLOCK_SIZE).toNat < 9223372036854775808 := by
      rw [hAeq]
      split <;> omega
    have hApos : (0 : Int) ≤ max (size : Int) MINIMUM_BLOCK_SIZE := by
      have := max_ge_right (size : Int) MINIMUM_BLOCK_SIZE
      unfold MINIMUM_BLOCK_SIZE at this ⊢
      omega
    have hw : wrap_int64 (max (size : Int) Input.GC_MIN_ALLOC - 16) =
        (((max (size : Int) MINIMUM_BLOCK_SIZE).toNat - 16 : Nat) : Int) := by
      rw [hmax, wrap_int64_of_lt (by omega) (by omega)]
      omega
    have hspan : (⟨base, wrap_int64 (max (size : Int) Input.GC_MIN_ALLOC - 16)⟩ :
        Input.free_block_t) =
        to_input_span { addr := base, size := (max (size : Int) MINIMUM_BLOCK_SIZE).toNat - 16 } := by
      rw [hw]
      rfl
    have hnew : BelowSpans
        ((⟨base, (max (size : Int) MINIMUM_BLOCK_SIZE).toNat - 16⟩ : free_block_t) ::
          s.free_list) := by
      intro f hf
      rcases List.mem_cons.mp hf with rfl | hf
      · simp only
        rw [hAeq]
        split <;> omega
      · exact hfl f hf
    have hins := insert_into_free_to_input s.free_list s.free_list_size
      { addr := base, size := (max (size : Int) MINIMUM_BLOCK_SIZE).toNat - 16 } hnew
    rw [hspan, hins, hmax]
    simp only
    rw [recalc_prev_to_input]
    cases hrec : recalc_prev base (insert_into_free s.free_list s.free_list_size
        { addr := base, size := (max (size : Int) MINIMUM_BLOCK_SIZE).toNat - 16 }).1 with
    | error e => rfl
    | ok c =>
      have := use_block_to_input size c (some (max (size : Int) MINIMUM_BLOCK_SIZE).toNat)
        { s with
          bytes_allocated := s.bytes_allocated + size
          free_list := (insert_into_free s.free_list s.free_list_size
            { addr := base, size := (max size MINIMUM_BLOCK_SIZE).toNat - 16 }).1
          free_list_size := (insert_into_free s.free_list s.free_list_size
            { addr := base, size := (max size MINIMUM_BLOCK_SIZE).toNat - 16 }).2 } h24 hlt
      exact congrArg Except.ok this

theorem gc_alloc_to_input (mem : Nat → Nat) (stack : List Nat) (base n : Nat) (s : GcState)
    (hn : n + 24 < 9223372036854775808) (hbs : BelowBlocks s.alloc_list)
    (hfl : BelowSpans s.free_list)
    (hreg : base + (n + 24) < 9223372036854775808 ∧ base + 4096 < 9223372036854775808) :
    Input.gc_alloc mem stack base n (to_input s) =
      (gc_alloc mem stack base n s).map to_input_result := by
  unfold Input.gc_alloc gc_alloc
  have hw : wrap_int64 ((n : Int) + 24) = ((n + 24 : Nat) : Int) := by
    rw [wrap_int64_of_lt (by omega) (by omega)]
    omega
  rw [hw]
  have hc : (to_input s).gc_bytes_allocated > (to_input s).gc_trigger_threshold ↔
      s.bytes_allocated > s.trigger_threshold := Iff.rfl
  by_cases hgt : s.bytes_allocated > s.trigger_threshold
  · rw [if_pos (hc.mpr hgt), if_pos hgt, gc_collect_to_input mem stack s hbs hfl]
    cases hcol : gc_collect mem stack s with
    | error e => rfl
    | ok s1 =>
      exact alloc_from_to_input base (n + 24) s1 (by omega) hn
        (gc_collect_below hcol hbs hfl) hreg
  · rw [if_neg (fun h => hgt (hc.mp h)), if_neg hgt]
    exact alloc_from_to_input base (n + 24) s (by omega) hn hfl hreg

/-- Agreement of the two copies when their mark phases read the same words.
On a state both can hold in which every block and every free span ends below
address `2^63`, `merge`, `insert_into_free` (of spans ending below `2^63`),
`gc_sweep`, `gc_mark` and `gc_collect` of the copy with `uint8_t mark` and
`int64_t size` return what the copy with `uint64_t` fields returns when both
are given the same memory words, and so does `gc_alloc` for every request
with `n + 24 < 2^63` whose region handed out by the mapper ends below `2^63`.
The words the two copies read past the end of a payload need not be the
same, since they overlap a header. -/
theorem copies_agree_below (mem : Nat → Nat) (stack : List Nat) (s : GcState)
    (hs : InBothCopies s) :
    (∀ (b : free_block_t) (rest : List free_block_t) (n : Int),
      (∀ f ∈ b :: rest, f.addr + 16 + f.size < 9223372036854775808) →
        Input.merge (to_input_span b) (rest.map to_input_span) n =
          ((merge b rest n).1.map to_input_span, (merge b rest n).2)) ∧
    (∀ block : free_block_t, block.addr + 16 + block.size < 9223372036854775808 →
      Input.insert_into_free (to_input s).free_list (to_input s).free_list_size
          (to_input_span block) =
        ((insert_into_free s.free_list s.free_list_size block).1.map to_input_span,
          (insert_into_free s.free_list s.free_list_size block).2)) ∧
    Input.gc_sweep (to_input s) = to_input (gc_sweep s) ∧
    (∀ fuel p : Nat,
      Input.gc_mark mem fuel p (to_input s) = (gc_mark mem fuel p s).map to_input) ∧
    Input.gc_collect mem stack (to_input s) = (gc_collect mem stack s).map to_input ∧
    (∀ base n : Nat, n + 24 < 9223372036854775808 →
      base + (n + 24) < 9223372036854775808 → base + 4096 < 9223372036854775808 →
        Input.gc_alloc mem stack base n (to_input s) =
          (gc_alloc mem stack base n s).map to_input_result) := by
  obtain ⟨_, hbs, hfl⟩ := hs
  refine ⟨fun b rest n hb => merge_to_input rest b n hb, ?_, gc_sweep_to_input s hbs hfl,
    fun fuel p => gc_mark_to_input mem fuel p s, gc_collect_to_input mem stack s hbs hfl,
    fun base n hn h1 h2 => gc_alloc_to_input mem stack base n s hn hbs hfl ⟨h1, h2⟩⟩
  intro block hblock
  apply insert_into_free_to_input
  intro f hf
  rcases List.mem_cons.mp hf with rfl | hf
  · exact hblock
  · exact hfl f hf

theorem copies_agree_below_witness :
    InBothCopies heap_after_first_sweep ∧
    Input.gc_sweep (to_input heap_after_first_sweep) =
      to_input (gc_sweep heap_after_first_sweep) ∧
    Input.gc_alloc mem_zero [] 65536 16 (to_input heap_after_first_sweep) =
      (gc_alloc mem_zero [] 65536 16 heap_after_first_sweep).map to_input_result :=
  have h : InBothCopies heap_after_first_sweep :=
    ⟨by decide, by unfold BelowBlocks; decide, by unfold BelowSpans; decide⟩
  ⟨h, (copies_agree_below mem_zero [] heap_after_first_sweep h).2.2.1,
    (copies_agree_below mem_zero [] heap_after_first_sweep h).2.2.2.2.2 65536 16
      (by decide) (by decide) (by decide)⟩

/-- Signed and unsigned sizes part at `2^63`.  In `heap_huge_span` the only
size is `2^62` and the request `n = 2^62` has `n + 24 < 2^63`.  Were the mapper
to return 4096 for it, the new span of `2^62 + 8` bytes would be coalesced with
its successor into one of `2^63 + 24` bytes.  With `uint64_t size` that is
greater than the need, the span is split and the returned address is
`4096 + 2^62 + 40`; with `int64_t size` the stored value is `-2^63 + 24`, the
whole span is taken and the returned address is `4096 + 24`. -/
theorem copies_differ_on_huge_span :
    (∀ f ∈ heap_huge_span.free_list, f.size < 9223372036854775808) ∧
    heap_huge_span.alloc_list = [] ∧
    4611686018427387904 + 24 < 9223372036854775808 ∧
    gc_alloc mem_zero [] 4096 4611686018427387904 heap_huge_span =
      .ok ⟨4096 + 4611686018427387904 + 40,
        { gc_initial with
          alloc_list := [⟨4096 + 4611686018427387904 + 16, 0, 4611686018427387904⟩]
          free_list := [⟨4096, 4611686018427387904⟩]
          free_list_size := 1
          bytes_allocated := 4611686018427387904 + 24 },
        some (4611686018427387904 + 24)⟩ ∧
    Input.gc_alloc mem_zero [] 4096 4611686018427387904 (to_input heap_huge_span) =
      .ok ⟨4096 + 24,
        { to_input gc_initial with
          alloc_list := [⟨4096, 0, 4611686018427387904⟩]
          free_list := []
          free_list_size := 0
          gc_bytes_allocated := 4611686018427387904 + 24 },
        some (4611686018427387904 + 24)⟩ ∧
    Input.gc_alloc mem_zero [] 4096 4611686018427387904 (to_input heap_huge_span) ≠
      (gc_alloc mem_zero [] 4096 4611686018427387904 heap_huge_span).map to_input_result := by
  have h1 : gc_alloc mem_zero [] 4096 4611686018427387904 heap_huge_span =
      .ok ⟨4096 + 4611686018427387904 + 40,
        { gc_initial with
          alloc_list := [⟨4096 + 4611686018427387904 + 16, 0, 4611686018427387904⟩]
          free_list := [⟨4096, 4611686018427387904⟩]
          free_list_size := 1
          bytes_allocated := 4611686018427387904 + 24 },
        some (4611686018427387904 + 24)⟩ := rfl
  have h2 : Input.gc_alloc mem_zero [] 4096 4611686018427387904 (to_input heap_huge_span) =
      .ok ⟨4096 + 24,
        { to_input gc_initial with
          alloc_list := [⟨4096, 0, 4611686018427387904⟩]
          free_list := []
          free_list_size := 0
          gc_bytes_allocated := 4611686018427387904 + 24 },
        some (4611686018427387904 + 24)⟩ := rfl
  refine ⟨by decide, rfl, by decide, h1, h2, ?_⟩
  rw [h1, h2]
  intro h
  have hp := congrArg (fun r => match r with
    | Except.ok a => a.ptr
    | Except.error _ => 0) h
  simp [Except.map, to_input_result] at hp

/-! ## What the mark phase marks, in terms of the words the scan reads -/

theorem foldlM_rel {P : GcState → GcState → Prop} (hrefl : ∀ s, P s s)
    (htrans : ∀ a b c, P a b → P b c → P a c) {f : GcState → Nat → Except Fault GcState} :
    ∀ (xs : List Nat), (∀ st x st1, x ∈ xs → f st x = .ok st1 → P st st1) →
      ∀ s s', xs.foldlM f s = .ok s' → P s s' := by
  intro xs
  induction xs with
  | nil =>
    intro _ s s' h
    simp only [List.foldlM_nil, pure, Except.pure, Except.ok.injEq] at h
    subst h
    exact hrefl s
  | cons x xs ih =>
    intro hstep s s' h
    simp only [List.foldlM_cons] at h
    cases hf : f s x with
    | error e =>
      rw [hf] at h
      cases h
    | ok st1 =>
      rw [hf] at h
      exact htrans _ _ _ (hstep s x st1 (List.mem_cons_self _ _) hf)
        (ih (fun st y st2 hy => hstep st y st2 (List.mem_cons_of_mem _ hy)) st1 s' h)

theorem markedWithin_refl (bs0 : List alloc_block_t) (R : Nat → Prop) (s : GcState) :
    MarkedWithin bs0 R s s := fun h => ⟨h, fun _ hq => Or.inl hq⟩

theorem markedWithin_trans (bs0 : List alloc_block_t) (R : Nat → Prop) (a b c : GcState)
    (h1 : MarkedWithin bs0 R a b) (h2 : MarkedWithin bs0 R b c) : MarkedWithin bs0 R a c := by
  intro h
  obtain ⟨hb, hab⟩ := h1 h
  obtain ⟨hc, hbc⟩ := h2 hb
  refine ⟨hc, fun q hq => ?_⟩
  rcases hbc q hq with hq' | hr
  · exact hab q hq'
  · exact Or.inr hr

theorem gc_mark_within (mem : Nat → Nat) (bs0 : List alloc_block_t) (R : Nat → Prop)
    (hclosed : ∀ p b a, R p → find_block bs0 p = some b → a ∈ scan_addrs p b.size →
      R (mem a)) :
    ∀ (fuel p : Nat) (s s' : GcState), R p → gc_mark mem fuel p s = .ok s' →
      MarkedWithin bs0 R s s' := by
  intro fuel
  induction fuel with
  | zero => intro p s s' _ h; simp [gc_mark] at h
  | succ fuel ih =>
    intro p s s' hR h
    unfold gc_mark at h
    by_cases hp : p = 0
    · simp only [hp, if_true, Except.ok.injEq] at h
      subst h
      exact markedWithin_refl bs0 R s
    · simp only [hp, if_false] at h
      cases hfb : find_block s.alloc_list p with
      | none =>
        simp only [hfb, Except.ok.injEq] at h
        subst h
        exact markedWithin_refl bs0 R s
      | some b =>
        simp only [hfb] at h
        by_cases hm : b.mark = 0
        · simp only [hm, if_true] at h
          intro hmono0
          obtain ⟨b0, hb0, _, hsz, _⟩ := markMono_find_bwd hmono0 hfb
          have hbp : b.addr + 24 = p := (find_block_some hfb).2
          have hwords : ∀ a ∈ scan_addrs (b.addr + 24) b.size, R (mem a) := by
            intro a ha
            rw [hbp, hsz] at ha
            exact hclosed p b0 a hR hb0 ha
          have hfold := foldlM_rel (markedWithin_refl bs0 R) (markedWithin_trans bs0 R)
            (scan_addrs (b.addr + 24) b.size)
            (fun st a st1 ha hst => ih (mem a) st st1 (hwords a ha) hst) _ s' h
          obtain ⟨hmono', hq'⟩ := hfold (markMono_trans hmono0 (set_mark_mono hfb hm))
          refine ⟨hmono', fun q hq => ?_⟩
          rcases hq' q hq with hq1 | hr
          · by_cases hqp : q = p
            · subst hqp
              exact Or.inr hR
            · left
              obtain ⟨c, hc, hcm⟩ := hq1
              simp only at hc
              rw [find_block_set_mark_ne _ hqp] at hc
              exact ⟨c, hc, hcm⟩
          · exact Or.inr hr
        · simp only [hm, if_false, Except.ok.injEq] at h
          subst h
          exact markedWithin_refl bs0 R s

theorem gc_mark_count_kept (mem : Nat → Nat) : ∀ (fuel p : Nat) (s s' : GcState),
    gc_mark mem fuel p s = .ok s' → CountKept s s' := by
  intro fuel
  induction fuel with
  | zero => intro p s s' h; simp [gc_mark] at h
  | succ fuel ih =>
    intro p s s' h
    unfold gc_mark at h
    by_cases hp : p = 0
    · simp only [hp, if_true, Except.ok.injEq] at h
      subst h
      rfl
    · simp only [hp, if_false] at h
      cases hfb : find_block s.alloc_list p with
      | none =>
        simp only [hfb, Except.ok.injEq] at h
        subst h
        rfl
      | some b =>
        simp only [hfb] at h
        by_cases hm : b.mark = 0
        · simp only [hm, if_true] at h
          have hfold := foldlM_rel (P := CountKept) (fun _ => rfl)
            (fun a b c hab hbc => by unfold CountKept at *; omega)
            (scan_addrs (b.addr + 24) b.size)
            (fun st a st1 _ hst => ih (mem a) st st1 hst) _ s' h
          have hun := unmarked_set_mark hfb hm
          unfold CountKept at hfold ⊢
          simp only at hfold
          omega
        · simp only [hm, if_false, Except.ok.injEq] at h
          subst h
          rfl

theorem unmarked_add_marked (bs : List alloc_block_t) :
    unmarked bs + (bs.filter (fun b => b.mark ≠ 0)).length = bs.length := by
  induction bs with
  | nil => rfl
  | cons a l ih =>
    unfold unmarked at ih ⊢
    by_cases ha : a.mark = 0
    · simp only [List.filter_cons, ha, ne_eq, not_true_eq_false, decide_True, decide_False,
        if_true, List.length_cons] at ih ⊢
      simp only [Bool.false_eq_true, if_false]
      omega
    · simp only [List.filter_cons, ha, ne_eq, not_false_eq_true, decide_True, decide_False,
        if_true, List.length_cons] at ih ⊢
      simp only [Bool.false_eq_true, if_false]
      omega

theorem unmarked_of_zero {bs : List alloc_block_t} (h : ∀ b ∈ bs, b.mark = 0) :
    unmarked bs = bs.length := by
  unfold unmarked
  rw [List.filter_eq_self.mpr]
  intro b hb
  simp [h b hb]

/-- From an allocation list whose marks are all 0 the mark phase returns a
state in which a candidate word hits a marked block exactly when it hits a
block and is reachable from the stack through the words the payload scan
reads, and `mark_count` is the number of marked blocks. -/
theorem mark_phase_exact_on_scanned_words (mem : Nat → Nat) (stack : List Nat) (s : GcState)
    (hzero : ∀ b ∈ s.alloc_list, b.mark = 0) :
    ∃ s', gc_mark_stack mem stack s = .ok s' ∧
      (∀ q, Marked s'.alloc_list q ↔
        (ScanReach mem stack s.alloc_list q ∧ ∃ b, find_block s.alloc_list q = some b)) ∧
      s'.mark_count = ((s'.alloc_list.filter (fun b => b.mark ≠ 0)).length : Int) := by
  obtain ⟨s', hrun, hext, hroots, _⟩ := gc_mark_stack_spec mem stack s
  have hnone : ∀ q, ¬ Marked s.alloc_list q := by
    rintro q ⟨x, hx, hxm⟩
    exact hxm (hzero x (find_block_some hx).1)
  have hrun' := hrun
  unfold gc_mark_stack at hrun'
  refine ⟨s', hrun, fun q => ⟨fun hq => ?_, ?_⟩, ?_⟩
  · have hwithin := foldlM_rel
      (markedWithin_refl s.alloc_list (ScanReach mem stack s.alloc_list))
      (markedWithin_trans s.alloc_list (ScanReach mem stack s.alloc_list)) stack
      (fun st w st1 hw hst => gc_mark_within mem s.alloc_list
        (ScanReach mem stack s.alloc_list)
        (fun p b a hp hb ha => ScanReach.child hp hb ha) _ w st st1 (ScanReach.root hw) hst)
      _ s' hrun'
    obtain ⟨_, hq'⟩ := hwithin (markMono_refl _)
    obtain ⟨c, hc, _⟩ := hq
    obtain ⟨b, hb, _⟩ := markMono_find_bwd hext.1 hc
    rcases hq' q ⟨c, hc, by assumption⟩ with hm | hr
    · exact absurd hm (hnone q)
    · exact ⟨hr, b, hb⟩
  · rintro ⟨hr, b, hb⟩
    have key : ∀ q, ScanReach mem stack s.alloc_list q →
        ∀ c, find_block s'.alloc_list q = some c → c.mark ≠ 0 := by
      intro q hr
      induction hr with
      | root hw => exact fun c hc => hroots _ hw c hc
      | @child p a b0 _ hb0 ha ih =>
        intro c hc
        obtain ⟨b', hb', _, hsz, _⟩ := markMono_find_fwd hext.1 hb0
        have hmarked : Marked s'.alloc_list p := ⟨b', hb', ih b' hb'⟩
        exact hext.2 p hmarked (hnone p) b' hb' a (by rw [hsz]; exact ha) c hc
    obtain ⟨b', hb', _⟩ := markMono_find_fwd hext.1 hb
    exact ⟨b', hb', key q hr b' hb'⟩
  · have hcount := foldlM_rel (P := CountKept) (fun _ => rfl)
      (fun a b c hab hbc => by unfold CountKept at *; omega) stack
      (fun st w st1 _ hst => gc_mark_count_kept mem _ w st st1 hst) _ s' hrun'
    unfold CountKept at hcount
    simp only at hcount
    have h1 := unmarked_of_zero hzero
    have h2 := unmarked_add_marked s'.alloc_list
    have h3 := markMono_length hext.1
    omega

theorem update_threshold_wraps :
    (update_threshold { gc_initial with bytes_allocated := 4611686018427387905 }).trigger_threshold
      = 8388608 ∧
    (update_threshold { gc_initial with bytes_allocated := 4611686018427387903 }).trigger_threshold
      = 9223372036854775806 ∧
    (update_threshold { gc_initial with bytes_allocated := 9223372036854775807 }).trigger_threshold
      = 8388608 ∧
    (update_threshold { gc_initial with bytes_allocated := -4611686018427387905 }).trigger_threshold
      = 9223372036854775806 ∧
    (update_threshold { gc_initial with bytes_allocated := 4194305 }).trigger_threshold
      = 8388610 ∧
    (update_threshold { gc_initial with bytes_allocated := 4194304 }).trigger_threshold
      = 8388608 ∧
    (update_threshold { gc_initial with bytes_allocated := -40 }).trigger_threshold
      = 8388608 := by
  decide

theorem heap_one_large_mark :
    gc_mark_stack mem_zero [1048600] heap_one_large =
      .ok heap_one_large_marked := by
  simp only [gc_mark_stack, List.foldlM_cons, List.foldlM_nil, heap_one_large,
    heap_one_large_marked,
    List.length_singleton, gc_mark_mem_zero]
  simp [mark_only, find_block, set_mark]

theorem threshold_update_witness :
    gc_alloc mem_zero [] 1048576 9437184 gc_initial = .ok ⟨1048600, heap_one_large, some 9437208⟩ ∧
    (∃ s', gc_collect mem_zero [1048600] heap_one_large = .ok s' ∧
      s'.trigger_threshold = 18874416 ∧ s'.bytes_allocated = 0) ∧
    (∃ s', gc_collect mem_zero [] heap_one_large = .ok s' ∧
      s'.trigger_threshold = 8388608 ∧ s'.bytes_allocated = 0) := by
  refine ⟨rfl, ?_, ?_⟩
  · obtain ⟨s1, s', b, d, hrun, hc, hb, _, _, hin, _, _, _, h0, _⟩ :=
      threshold_update mem_zero [1048600] heap_one_large
    have hs1 : s1 = heap_one_large_marked := by
      rw [heap_one_large_mark] at hrun
      exact (Except.ok.inj hrun).symm
    subst hs1
    have hb' : b = 9437208 := hb.trans (by decide)
    subst hb'
    exact ⟨s', hc, (hin (by decide) (by decide)).trans (by decide), h0⟩
  · obtain ⟨s1, s', b, d, hrun, hc, hb, _, _, hin, _, _, _, h0, _⟩ :=
      threshold_update mem_zero [] heap_one_large
    have hs1 : s1 = heap_one_large := (Except.ok.inj hrun).symm
    subst hs1
    have hb' : b = 0 := hb.trans (by decide)
    subst hb'
    exact ⟨s', hc, (hin (by decide) (by decide)).trans (by decide), h0⟩

theorem store_bytes_agree {m1 m2 : Nat → Nat} {x : Nat} (a k v : Nat) (h : m1 x = m2 x) :
    store_bytes m1 a k v x = store_bytes m2 a k v x := by
  unfold store_bytes
  simp only [h]

theorem store_alloc_header_agree {m1 m2 : Nat → Nat} {x : Nat} (addr size next : Nat)
    (hx : ¬ (addr + 1 ≤ x ∧ x < addr + 8)) (h : m1 x = m2 x) :
    store_alloc_header m1 addr size next x = Input.store_alloc_header m2 addr size next x := by
  unfold store_alloc_header Input.store_alloc_header
  apply store_bytes_agree
  apply store_bytes_agree
  unfold store_bytes
  by_cases h0 : x = addr
  · subst h0
    simp
  · have h8 : ¬ (addr ≤ x ∧ x < addr + 8) := by omega
    have h1 : ¬ (addr ≤ x ∧ x < addr + 1) := by omega
    simp only [h8, h1, if_false, h]

theorem heap_image_agree (x : Nat) (h1 : ¬ (69633 ≤ x ∧ x < 69640))
    (h2 : ¬ (69597 ≤ x ∧ x < 69604)) (h3 : ¬ (16777217 ≤ x ∧ x < 16777224)) :
    heap_image store_alloc_header x = heap_image Input.store_alloc_header x := by
  unfold heap_image
  apply store_alloc_header_agree _ _ _ h3
  apply store_bytes_agree
  apply store_bytes_agree
  apply store_bytes_agree
  unfold store_free_header
  apply store_bytes_agree
  apply store_bytes_agree
  apply store_bytes_agree
  apply store_alloc_header_agree _ _ _ h2
  apply store_bytes_agree
  apply store_bytes_agree
  apply store_bytes_agree
  apply store_bytes_agree
  apply store_alloc_header_agree _ _ _ h1
  rfl

/-- The header fields found in `heap_image` are those of `heap_padding_run`:
`size` at offset 8 and `next` at offset 16 of the three allocation headers
(linked 16777216, 69596, 69632), `mark` 0 in each, and the free span at 65536
with size 4044 and no successor. -/
theorem heap_image_headers :
    (load_word (heap_image store_alloc_header) 16777216 = 0 ∧
      load_word (heap_image store_alloc_header) 16777224 = 8388608 ∧
      load_word (heap_image store_alloc_header) 16777232 = 69596 ∧
      load_word (heap_image store_alloc_header) 69596 = 0 ∧
      load_word (heap_image store_alloc_header) 69604 = 12 ∧
      load_word (heap_image store_alloc_header) 69612 = 69632 ∧
      load_word (heap_image store_alloc_header) 69632 = 0 ∧
      load_word (heap_image store_alloc_header) 69640 = 4056 ∧
      load_word (heap_image store_alloc_header) 69648 = 0 ∧
      load_word (heap_image store_alloc_header) 65536 = 4044 ∧
      load_word (heap_image store_alloc_header) 65544 = 0) ∧
    (heap_image Input.store_alloc_header 16777216 = 0 ∧
      load_word (heap_image Input.store_alloc_header) 16777224 = 8388608 ∧
      load_word (heap_image Input.store_alloc_header) 16777232 = 69596 ∧
      heap_image Input.store_alloc_header 69596 = 0 ∧
      load_word (heap_image Input.store_alloc_header) 69604 = 12 ∧
      load_word (heap_image Input.store_alloc_header) 69612 = 69632 ∧
      heap_image Input.store_alloc_header 69632 = 0 ∧
      heap_image Input.store_alloc_header 69633 = 15 ∧
      load_word (heap_image Input.store_alloc_header) 69640 = 4056 ∧
      load_word (heap_image Input.store_alloc_header) 69648 = 0 ∧
      load_word (heap_image Input.store_alloc_header) 65536 = 4044 ∧
      load_word (heap_image Input.store_alloc_header) 65544 = 0) := by
  decide

theorem scan_loop_mem (e : Nat) : ∀ (k p a : Nat), a ∈ scan_loop k p e →
    ∃ i, a = p + 8 * i ∧ a < e := by
  intro k
  induction k with
  | zero => intro p a h; simp [scan_loop] at h
  | succ k ih =>
    intro p a h
    unfold scan_loop at h
    by_cases hp : p < e
    · simp only [hp, if_true, List.mem_cons] at h
      rcases h with rfl | h
      · exact ⟨0, rfl, hp⟩
      · obtain ⟨i, hi, hlt⟩ := ih (p + 8) a h
        exact ⟨i + 1, by omega, hlt⟩
    · simp [hp] at h

theorem gc_mark_zero_ptr (mem : Nat → Nat) (fuel : Nat) (s : GcState) :
    gc_mark mem (fuel + 1) 0 s = .ok s := by
  simp [gc_mark]

theorem fold_mark_zero_words (mem : Nat → Nat) (fuel : Nat) : ∀ (xs : List Nat) (s : GcState),
    (∀ a ∈ xs, mem a = 0) →
      xs.foldlM (fun st p => gc_mark mem (fuel + 1) (mem p) st) s = .ok s := by
  intro xs
  induction xs with
  | nil => intro s _; rfl
  | cons x xs ih =>
    intro s h
    simp only [List.foldlM_cons]
    rw [h x (List.mem_cons_self _ _), gc_mark_zero_ptr]
    exact ih s (fun a ha => h a (List.mem_cons_of_mem _ ha))

theorem gc_mark_unmarked {mem : Nat → Nat} {fuel ptr : Nat} {s : GcState} {b : alloc_block_t}
    (hp : ptr ≠ 0) (hf : find_block s.alloc_list ptr = some b) (hm : b.mark = 0) :
    gc_mark mem (fuel + 1) ptr s =
      (scan_addrs (b.addr + 24) b.size).foldlM (fun st p => gc_mark mem fuel (mem p) st)
        { s with mark_count := s.mark_count + 1
                 alloc_list := set_mark s.alloc_list ptr } := by
  rw [gc_mark]
  simp only [hp, if_false, hf, hm, if_true]

theorem store_bytes_out {m : Nat → Nat} {a k v x : Nat} (h : x < a ∨ a + k ≤ x) :
    store_bytes m a k v x = m x := by
  unfold store_bytes
  have : ¬ (a ≤ x ∧ x < a + k) := by omega
  simp only [this, if_false]

theorem store_free_header_out {m : Nat → Nat} {addr size next x : Nat}
    (h : x < addr ∨ addr + 16 ≤ x) : store_free_header m addr size next x = m x := by
  unfold store_free_header
  rw [store_bytes_out (by omega), store_bytes_out (by omega)]

theorem store_alloc_header_out {m : Nat → Nat} {addr size next x : Nat}
    (h : x < addr ∨ addr + 24 ≤ x) : store_alloc_header m addr size next x = m x := by
  unfold store_alloc_header
  rw [store_bytes_out (by omega), store_bytes_out (by omega), store_bytes_out (by omega)]

theorem heap_image_payload_zero (a : Nat) (h1 : 69656 ≤ a) (h2 : a < 73712) :
    heap_image store_alloc_header a = 0 := by
  unfold heap_image
  rw [store_alloc_header_out (by omega), store_bytes_out (by omega),
    store_bytes_out (by omega), store_bytes_out (by omega),
    store_free_header_out (by omega), store_bytes_out (by omega),
    store_alloc_header_out (by omega), store_bytes_out (by omega),
    store_bytes_out (by omega), store_free_header_out (by omega),
    store_alloc_header_out (by omega), store_bytes_out (by omega),
    store_free_header_out (by omega)]

theorem heap_image_word_zero (a : Nat) (h1 : 69656 ≤ a) (h2 : a + 8 ≤ 73712) :
    load_word (heap_image store_alloc_header) a = 0 := by
  unfold load_word
  rw [heap_image_payload_zero a (by omega) (by omega),
    heap_image_payload_zero (a + 1) (by omega) (by omega),
    heap_image_payload_zero (a + 2) (by omega) (by omega),
    heap_image_payload_zero (a + 3) (by omega) (by omega),
    heap_image_payload_zero (a + 4) (by omega) (by omega),
    heap_image_payload_zero (a + 5) (by omega) (by omega),
    heap_image_payload_zero (a + 6) (by omega) (by omega),
    heap_image_payload_zero (a + 7) (by omega) (by omega)]

theorem heap_padding_run_mark :
    gc_mark_stack (load_word (heap_image store_alloc_header)) [69620] heap_padding_run =
      .ok heap_padding_marked := by
  have hscan : ∀ a ∈ scan_addrs 69656 4056,
      load_word (heap_image store_alloc_header) a = 0 := by
    intro a ha
    obtain ⟨i, hi, hlt⟩ := scan_loop_mem _ _ _ _ ha
    exact heap_image_word_zero a (by omega) (by omega)
  have hB : ∀ st : GcState,
      st = { heap_padding_run with
             alloc_list := [⟨16777216, 0, 8388608⟩, ⟨69596, 1, 12⟩, ⟨69632, 0, 4056⟩]
             mark_count := 1 } →
      gc_mark (load_word (heap_image store_alloc_header)) 3 69656 st =
        .ok heap_padding_marked := by
    intro st hst
    subst hst
    rw [gc_mark_unmarked (b := ⟨69632, 0, 4056⟩) (by decide) (by decide) rfl]
    exact fold_mark_zero_words _ 1 _ _ hscan
  have hA : ∀ st : GcState, st = { heap_padding_run with mark_count := 0 } →
      gc_mark (load_word (heap_image store_alloc_header)) 4 69620 st =
        .ok heap_padding_marked := by
    intro st hst
    subst hst
    rw [gc_mark_unmarked (b := ⟨69596, 0, 12⟩) (by decide) (by decide) rfl]
    show List.foldlM _ _ [69620, 69628] = _
    have w1 : load_word (heap_image store_alloc_header) 69620 = 0 := by decide
    have w2 : load_word (heap_image store_alloc_header) 69628 = 69656 := by decide
    simp only [List.foldlM_cons, List.foldlM_nil, w1, w2, gc_mark_zero_ptr, bind, Except.bind]
    rw [hB _ (by decide)]
    rfl
  have hlen : heap_padding_run.alloc_list.length + 1 = 4 := rfl
  unfold gc_mark_stack
  simp only [List.foldlM_cons, List.foldlM_nil, bind, Except.bind]
  rw [hlen, hA _ (by decide)]
  rfl

/-- C20: the two copies diverge on a run both can make.  After
`gc_alloc(4056)`, `gc_alloc(12)` and `gc_alloc(8388608)` from the initial
state (mapper results 69632, 65536, 16777216) both copies hold the lists of
`heap_padding_run`, and their heap bytes agree outside the 7 bytes that follow
the first byte of each allocation header (`heap_image`).  The block at 69632
was laid over the header of a free span of size 4080: the copy with
`uint64_t mark` has cleared offsets 0 to 7, the copy with `uint8_t mark` only
offset 0, so the byte 0x0f of the span size is still at 69633.  The scan of
the 12-byte payload at 69620 reads the word at 69628, four payload bytes (the
integer 69656) and four header bytes: 69656 in the first copy, which is the
payload address of the block at 69632, and `69656 + 3840 * 2^32` in the second.
With the root word 69620 the mark phase of the first copy marks two blocks and
that of the second copy one, and the next `gc_alloc(8)`, which collects,
returns with the block at 69632 still allocated in the first copy and on the
free list in the second.  The word at 69628 is read once, while the mark of
the block at 69632 is still 0, as in `heap_image`. -/
theorem copies_differ_on_header_padding :
    (∃ s1 s2,
      gc_alloc mem_zero [] 69632 4056 gc_initial = .ok ⟨69656, s1, some 4096⟩ ∧
      gc_alloc mem_zero [] 65536 12 s1 = .ok ⟨69620, s2, some 4096⟩ ∧
      gc_alloc mem_zero [] 16777216 8388608 s2 =
        .ok ⟨16777240, heap_padding_run, some 8388632⟩ ∧
      Input.gc_alloc mem_zero [] 69632 4056 (to_input gc_initial) =
        .ok ⟨69656, to_input s1, some 4096⟩ ∧
      Input.gc_alloc mem_zero [] 65536 12 (to_input s1) = .ok ⟨69620, to_input s2, some 4096⟩ ∧
      Input.gc_alloc mem_zero [] 16777216 8388608 (to_input s2) =
        .ok ⟨16777240, to_input heap_padding_run, some 8388632⟩) ∧
    (∀ x, ¬ (69633 ≤ x ∧ x < 69640) → ¬ (69597 ≤ x ∧ x < 69604) →
      ¬ (16777217 ≤ x ∧ x < 16777224) →
        heap_image store_alloc_header x = heap_image Input.store_alloc_header x) ∧
    load_word (heap_image store_alloc_header) 69628 = 69656 ∧
    load_word (heap_image Input.store_alloc_header) 69628 = 69656 + 3840 * 4294967296 ∧
    gc_mark_stack (load_word (heap_image store_alloc_header)) [69620] heap_padding_run =
      .ok { heap_padding_run with
            alloc_list := [⟨16777216, 0, 8388608⟩, ⟨69596, 1, 12⟩, ⟨69632, 1, 4056⟩]
            mark_count := 2 } ∧
    Input.gc_mark_stack (load_word (heap_image Input.store_alloc_header)) [69620]
        (to_input heap_padding_run) =
      .ok { to_input heap_padding_run with
            alloc_list := [⟨16777216, 0, 8388608⟩, ⟨69596, 1, 12⟩, ⟨69632, 0, 4056⟩]
            mark_count := 1 } ∧
    gc_collect (load_word (heap_image store_alloc_header)) [69620] heap_padding_run =
      .ok { alloc_list := [⟨69596, 0, 12⟩, ⟨69632, 0, 4056⟩]
            free_list := [⟨65536, 4044⟩, ⟨16777216, 8388616⟩]
            free_list_size := 2
            mark_count := 2
            bytes_allocated := 0
            trigger_threshold := 8388608 } ∧
    Input.gc_collect (load_word (heap_image Input.store_alloc_header)) [69620]
        (to_input heap_padding_run) =
      .ok { alloc_list := [⟨69596, 0, 12⟩]
            free_list := [⟨65536, 4044⟩, ⟨69632, 4064⟩, ⟨16777216, 8388616⟩]
            free_list_size := 3
            mark_count := 1
            gc_bytes_allocated := 0
            gc_trigger_threshold := 8388608 } ∧
    heap_padding_run.bytes_allocated > heap_padding_run.trigger_threshold ∧
    gc_alloc (load_word (heap_image store_alloc_header)) [69620] 33554432 8 heap_padding_run =
      .ok ⟨69588,
        { alloc_list := [⟨69564, 0, 8⟩, ⟨69596, 0, 12⟩, ⟨69632, 0, 4056⟩]
          free_list := [⟨65536, 4012⟩, ⟨16777216, 8388616⟩]
          free_list_size := 2
          mark_count := 2
          bytes_allocated := 32
          trigger_threshold := 8388608 },
        none⟩ ∧
    Input.gc_alloc (load_word (heap_image Input.store_alloc_header)) [69620] 33554432 8
        (to_input heap_padding_run) =
      .ok ⟨69588,
        { alloc_list := [⟨69564, 0, 8⟩, ⟨69596, 0, 12⟩]
          free_list := [⟨65536, 4012⟩, ⟨69632, 4064⟩, ⟨16777216, 8388616⟩]
          free_list_size := 3
          mark_count := 1
          gc_bytes_allocated := 32
          gc_trigger_threshold := 8388608 },
        none⟩ := by
  have hc : gc_collect (load_word (heap_image store_alloc_header)) [69620] heap_padding_run =
      .ok { alloc_list := [⟨69596, 0, 12⟩, ⟨69632, 0, 4056⟩]
            free_list := [⟨65536, 4044⟩, ⟨16777216, 8388616⟩]
            free_list_size := 2
            mark_count := 2
            bytes_allocated := 0
            trigger_threshold := 8388608 } :=
    (gc_collect_of_mark heap_padding_run_mark).trans (congrArg Except.ok (by decide))
  refine ⟨⟨{ gc_initial with alloc_list := [⟨69632, 0, 4056⟩], bytes_allocated := 4080 },
      { alloc_list := [⟨69596, 0, 12⟩, ⟨69632, 0, 4056⟩]
        free_list := [⟨65536, 4044⟩]
        free_list_size := 1
        mark_count := 0
        bytes_allocated := 4116
        trigger_threshold := 8388608 }, rfl, rfl, rfl, rfl, rfl, rfl⟩,
    heap_image_agree, by decide, by decide, heap_padding_run_mark, rfl, hc, rfl, by decide,
    ?_, rfl⟩
  exact (gc_alloc_of_collect (by decide) hc).trans rfl

end NubGc
